import Mathlib

/-!
DecomposeForPacking: a verification development.

A shallow embedding of the exact-cover solver (`DLXSolver.cpp`), the packer
(`Packing.cpp`), the decompose/pack pipeline with its grader
(`DecomposeAndPack.cpp`), the placement visitor (`IsPartFitVisitor.cpp`) and the
world builder (`WorldBuilder.cpp`), followed by theorems about them.

Conventions of the embedding:

* the nodes of the sparse matrix live in an arena (a list); a `shared_ptr` to a
  node is an `Option Nat`, `none` being the null pointer;
* code that can fail or loop returns in `Run`: dereferencing a null pointer,
  `at` on a missing key, and running out of the step budget (`fuel`) of a loop
  are the three faults;
* every `while`/`for` loop whose exit depends on the links is a function that is
  structurally recursive on `fuel`, one unit per test of the loop condition;
* a `float` is the rational number it stands for, and every operation on
  `float`s rounds its exact result to 24 significant bits, ties to even.
-/

set_option autoImplicit false

namespace DecomposeForPacking

/-! ## Faults and pointers -/

/-- Ways in which a run of the code fails to produce a value. -/
inductive Fault where
  /-- A null `shared_ptr` was dereferenced. -/
  | nullDeref
  /-- The member `at` was called with a key or index that is absent. -/
  | outOfRange
  /-- The step budget of the model ran out before the loop left. -/
  | outOfFuel
  deriving DecidableEq, Repr

/-- Result of running a piece of code: a value or a fault. -/
abbrev Run (α : Type) := Except Fault α

deriving instance DecidableEq for Except

/-- A `shared_ptr<DLXNode>`: the arena index of the node, or null. -/
abbrev Ptr := Option Nat

/-! ## The sparse matrix of `DLXSolver` -/

/-- One node of the matrix. Column headers use `numOfElements`; data nodes use
`rowIndex`, `colIndex` and `head`. Links start out null, as a default
constructed `shared_ptr` is. -/
structure DLXNode where
  left : Ptr := none
  right : Ptr := none
  up : Ptr := none
  down : Ptr := none
  rowIndex : Nat := 0
  colIndex : Nat := 0
  numOfElements : Nat := 0
  head : Ptr := none
  deriving DecidableEq, Repr

/-- A set of column indices handed to `addRow`, listed in iteration order. -/
abbrev DLX_VALUES_SET := List Nat

/-- A solution: the value sets of the chosen rows. -/
abbrev DLX_SOLUTION := List DLX_VALUES_SET

/-- The state of a `DLXSolver` object. -/
structure DLXSolver where
  nodes : List DLXNode
  matrixHead : Ptr
  colHeadersMapping : List (Nat × Ptr)
  mandatoryColsNum : Nat
  optionalColsNum : Nat
  rowNum : Nat
  deriving DecidableEq, Repr

namespace DLXSolver

/-- Reads the node a pointer refers to. -/
def deref (m : DLXSolver) : Ptr → Run DLXNode
  | none => .error .nullDeref
  | some i =>
    match m.nodes.get? i with
    | some n => .ok n
    | none => .error .nullDeref

/-- Overwrites the node a pointer refers to with `f` of it. -/
def update (m : DLXSolver) (p : Ptr) (f : DLXNode → DLXNode) : Run DLXSolver :=
  match p with
  | none => .error .nullDeref
  | some i =>
    match m.nodes.get? i with
    | some n => .ok { m with nodes := m.nodes.set i (f n) }
    | none => .error .nullDeref

/-- The effect of `std::make_shared`: the node is appended to the arena. -/
def alloc (m : DLXSolver) (n : DLXNode) : DLXSolver × Ptr :=
  ({ m with nodes := m.nodes ++ [n] }, some m.nodes.length)

def left (m : DLXSolver) (p : Ptr) : Run Ptr := do
  let n ← m.deref p
  pure n.left

def right (m : DLXSolver) (p : Ptr) : Run Ptr := do
  let n ← m.deref p
  pure n.right

def up (m : DLXSolver) (p : Ptr) : Run Ptr := do
  let n ← m.deref p
  pure n.up

def down (m : DLXSolver) (p : Ptr) : Run Ptr := do
  let n ← m.deref p
  pure n.down

def rowIndex (m : DLXSolver) (p : Ptr) : Run Nat := do
  let n ← m.deref p
  pure n.rowIndex

def colIndex (m : DLXSolver) (p : Ptr) : Run Nat := do
  let n ← m.deref p
  pure n.colIndex

def numOfElements (m : DLXSolver) (p : Ptr) : Run Nat := do
  let n ← m.deref p
  pure n.numOfElements

def setLeft (m : DLXSolver) (p q : Ptr) : Run DLXSolver :=
  m.update p (fun n => { n with left := q })

def setRight (m : DLXSolver) (p q : Ptr) : Run DLXSolver :=
  m.update p (fun n => { n with right := q })

def setUp (m : DLXSolver) (p q : Ptr) : Run DLXSolver :=
  m.update p (fun n => { n with up := q })

def setDown (m : DLXSolver) (p q : Ptr) : Run DLXSolver :=
  m.update p (fun n => { n with down := q })

def setHead (m : DLXSolver) (p q : Ptr) : Run DLXSolver :=
  m.update p (fun n => { n with head := q })

def incNumOfElements (m : DLXSolver) (p : Ptr) : Run DLXSolver :=
  m.update p (fun n => { n with numOfElements := n.numOfElements + 1 })

/-- Modelled from the spec: `DLXColHeader::createSentinelHeader` is declared in
`DLXSolver.h`, which is not among the sources; the sentinel "master" header is a
fresh header whose links `createColumnHeaders` then sets. -/
def createSentinelHeader : DLXNode := {}

/-- The `for` loop of `createColumnHeaders`: `remaining` headers are still to be
made, the next one for column `colIndex`; returns the last header made. -/
def createColumnHeadersLoop :
    Nat → Nat → DLXSolver → Ptr → Run (DLXSolver × Ptr)
  | 0, _, m, currNode => pure (m, currNode)
  | remaining + 1, colIndex, m, currNode => do
    let (m, newColHeader) := m.alloc { colIndex := colIndex }
    let m ← m.setRight currNode newColHeader
    let m ← m.setLeft newColHeader currNode
    let m ← m.setUp newColHeader newColHeader
    let m ← m.setDown newColHeader newColHeader
    let m := { m with
      colHeadersMapping := m.colHeadersMapping ++ [(colIndex, newColHeader)] }
    createColumnHeadersLoop remaining (colIndex + 1) m newColHeader

/-- Embeds `DLXSolver::createColumnHeaders`. -/
def createColumnHeaders (m : DLXSolver) (numOfColumns : Nat) : Run DLXSolver := do
  let (m, head) := m.alloc createSentinelHeader
  let m := { m with matrixHead := head }
  let (m, currNode) ← createColumnHeadersLoop numOfColumns 0 m head
  let m ← m.setRight currNode m.matrixHead
  m.setLeft m.matrixHead currNode

/-- Embeds the constructor `DLXSolver(numberOfOptionalCols, numberOfMandatoryCols)`. -/
def create (numberOfOptionalCols numberOfMandatoryCols : Nat) : Run DLXSolver :=
  createColumnHeaders
    { nodes := [], matrixHead := none, colHeadersMapping := [],
      mandatoryColsNum := numberOfMandatoryCols,
      optionalColsNum := numberOfOptionalCols, rowNum := 0 }
    (numberOfOptionalCols + numberOfMandatoryCols)

/-- The `while` loop of `addNodeToColumn`: walks down from `currIterNode` until
the header or a node with a row index not below the target is met. The matrix is
not written during the walk, so a walk that tests more nodes than the arena
holds has met some node twice and goes round for ever: `addNodeToColumn` gives it
a budget of one test per node of the arena and one more. -/
def addNodeToColumnWalk : Nat → DLXSolver → Ptr → Nat → Ptr → Run Ptr
  | 0, _, _, _, _ => .error .outOfFuel
  | fuel + 1, m, colHeader, targetRowIndex, currIterNode =>
    if currIterNode = colHeader then pure currIterNode
    else do
      let r ← m.rowIndex currIterNode
      if r < targetRowIndex then do
        let next ← m.down currIterNode
        addNodeToColumnWalk fuel m colHeader targetRowIndex next
      else pure currIterNode

/-- Embeds `DLXSolver::addNodeToColumn`. -/
def addNodeToColumn (m : DLXSolver) (node : Ptr) : Run DLXSolver := do
  let c ← m.colIndex node
  let colHeader : Ptr ←
    match m.colHeadersMapping.lookup c with
    | some h => pure h
    | none => .error .outOfRange
  let m ← m.setHead node colHeader
  let targetRowIndex ← m.rowIndex node
  let start ← m.down colHeader
  let currIterNode ←
    addNodeToColumnWalk (m.nodes.length + 1) m colHeader targetRowIndex start
  let prevNode ← m.up currIterNode
  let m ← m.setUp node prevNode
  let m ← m.setDown node currIterNode
  let m ← m.setDown prevNode node
  let m ← m.setUp currIterNode node
  m.incNumOfElements colHeader

/-- Embeds `DLXSolver::detachNodeFromRow`. -/
def detachNodeFromRow (m : DLXSolver) (node : Ptr) : Run DLXSolver := do
  let l ← m.left node
  let r ← m.right node
  let m ← m.setRight l r
  let r ← m.right node
  let l ← m.left node
  m.setLeft r l

/-- Embeds `DLXSolver::reattachNodeToRow`. -/
def reattachNodeToRow (m : DLXSolver) (node : Ptr) : Run DLXSolver := do
  let l ← m.left node
  let m ← m.setRight l node
  let r ← m.right node
  m.setLeft r node

/-- Embeds `DLXSolver::detachNodeFromCol`. -/
def detachNodeFromCol (m : DLXSolver) (node : Ptr) : Run DLXSolver := do
  let u ← m.up node
  let d ← m.down node
  let m ← m.setDown u d
  let d ← m.down node
  let u ← m.up node
  m.setUp d u

/-- Embeds `DLXSolver::reattachNodeToCol`. -/
def reattachNodeToCol (m : DLXSolver) (node : Ptr) : Run DLXSolver := do
  let u ← m.up node
  let m ← m.setDown u node
  let d ← m.down node
  m.setUp d node

/-- The `while` loop of `chooseNextColumn`. The loop variable `currColHeader` is
not assigned in the body of the source loop, so it is the same on every turn. -/
def chooseNextColumnLoop : Nat → DLXSolver → Ptr → Nat → Ptr → Run Ptr
  | 0, _, _, _, _ => .error .outOfFuel
  | fuel + 1, m, currColHeader, minNumOfElements, chosenHeader => do
    let r ← m.right currColHeader
    if r ≠ m.matrixHead then do
      let nextColHeader ← m.right currColHeader
      let nextNumOfElements ← m.numOfElements nextColHeader
      if nextNumOfElements < minNumOfElements then
        chooseNextColumnLoop fuel m currColHeader nextNumOfElements nextColHeader
      else
        chooseNextColumnLoop fuel m currColHeader minNumOfElements chosenHeader
    else pure chosenHeader

/-- Embeds `DLXSolver::chooseNextColumn`; `none` is the `NULL` it returns when no
column remains. -/
def chooseNextColumn (fuel : Nat) (m : DLXSolver) : Run Ptr := do
  let currColHeader ← m.right m.matrixHead
  if currColHeader = m.matrixHead then pure none
  else do
    let r ← m.right currColHeader
    if r = m.matrixHead then pure currColHeader
    else do
      let minNumOfElements ← m.numOfElements currColHeader
      chooseNextColumnLoop fuel m currColHeader minNumOfElements currColHeader

/-- The inner `for` loop of `cover`. Its increment expression is
`horzNode->right()`, evaluated and dropped, so `horzNode` stays the same. -/
def coverRow : Nat → DLXSolver → Ptr → Ptr → Run DLXSolver
  | 0, _, _, _ => .error .outOfFuel
  | fuel + 1, m, rowNode, horzNode =>
    if horzNode = rowNode then pure m
    else do
      let m ← detachNodeFromCol m horzNode
      let _ ← m.right horzNode
      coverRow fuel m rowNode horzNode

/-- The outer `for` loop of `cover`, over the nodes of the column. -/
def coverRows : Nat → DLXSolver → Ptr → Ptr → Run DLXSolver
  | 0, _, _, _ => .error .outOfFuel
  | fuel + 1, m, column, rowNode =>
    if rowNode = column then pure m
    else do
      let horzNode ← m.right rowNode
      let m ← coverRow fuel m rowNode horzNode
      let next ← m.down rowNode
      coverRows fuel m column next

/-- Embeds `DLXSolver::cover`. -/
def cover (fuel : Nat) (m : DLXSolver) (column : Ptr) : Run DLXSolver := do
  let m ← detachNodeFromRow m column
  let rowNode ← m.down column
  coverRows fuel m column rowNode

/-- The inner `for` loop of `uncover`; as in `cover`, `horzNode->left()` is
evaluated and dropped. -/
def uncoverRow : Nat → DLXSolver → Ptr → Ptr → Run DLXSolver
  | 0, _, _, _ => .error .outOfFuel
  | fuel + 1, m, rowNode, horzNode =>
    if horzNode = rowNode then pure m
    else do
      let m ← reattachNodeToCol m horzNode
      let _ ← m.left horzNode
      uncoverRow fuel m rowNode horzNode

/-- The outer `for` loop of `uncover`. -/
def uncoverRows : Nat → DLXSolver → Ptr → Ptr → Run DLXSolver
  | 0, _, _, _ => .error .outOfFuel
  | fuel + 1, m, column, rowNode =>
    if rowNode = column then pure m
    else do
      let horzNode ← m.left rowNode
      let m ← uncoverRow fuel m rowNode horzNode
      let next ← m.up rowNode
      uncoverRows fuel m column next

/-- Embeds `DLXSolver::uncover`. -/
def uncover (fuel : Nat) (m : DLXSolver) (column : Ptr) : Run DLXSolver := do
  let rowNode ← m.up column
  let m ← uncoverRows fuel m column rowNode
  reattachNodeToRow m column

/-- The `for` loop of `addRow` over the values after the first. -/
def addRowLoop : DLXSolver → List Nat → Ptr → Run (DLXSolver × Ptr)
  | m, [], prevNode => pure (m, prevNode)
  | m, value :: rest, prevNode => do
    let (m, dataNode) := m.alloc { rowIndex := m.rowNum, colIndex := value }
    let m ← m.setRight prevNode dataNode
    let m ← m.setLeft dataNode prevNode
    let m ← addNodeToColumn m dataNode
    addRowLoop m rest dataNode

/-- Embeds `DLXSolver::addRow`; `row` lists the values in iteration order. -/
def addRow (m : DLXSolver) (row : DLX_VALUES_SET) : Run DLXSolver :=
  match row with
  | [] => pure m
  | firstValue :: rest => do
    let (m, firstNode) := m.alloc { rowIndex := m.rowNum, colIndex := firstValue }
    let (m, prevNode) ← addRowLoop m rest firstNode
    let m ← m.setRight prevNode firstNode
    let m ← m.setLeft firstNode prevNode
    pure { m with rowNum := m.rowNum + 1 }

/-- Adds the rows of a list one after the other. -/
def addRows : DLXSolver → List DLX_VALUES_SET → Run DLXSolver
  | m, [] => pure m
  | m, row :: rows => do
    let m ← addRow m row
    addRows m rows

/-- Embeds `DLXSolver::solve`: the column is chosen, and the (empty) vector of
solutions is returned. -/
def solve (fuel : Nat) (m : DLXSolver) : Run (List DLX_SOLUTION) := do
  let _chosenHeader ← chooseNextColumn fuel m
  pure []

/-- The header node of a column, by the fast-access mapping. -/
def colHeader (m : DLXSolver) (c : Nat) : Ptr := (m.colHeadersMapping.lookup c).join

/-- The data nodes met walking down from a header until it is met again, at most
`fuel` of them. -/
def columnNodesFrom : Nat → DLXSolver → Ptr → Ptr → List Nat
  | 0, _, _, _ => []
  | fuel + 1, m, column, p =>
    if p = column then []
    else
      match p, m.down p with
      | some i, .ok next => i :: columnNodesFrom fuel m column next
      | _, _ => []

/-- The data nodes linked in column `c`, top to bottom, as arena indices. -/
def columnNodes (m : DLXSolver) (c : Nat) : List Nat :=
  match m.down (m.colHeader c) with
  | .ok first => columnNodesFrom m.nodes.length m (m.colHeader c) first
  | .error _ => []

/-- The `size` of column `c`: the counter kept in its header. -/
def columnSize (m : DLXSolver) (c : Nat) : Option Nat :=
  match m.numOfElements (m.colHeader c) with
  | .ok k => some k
  | .error _ => none

end DLXSolver

/-- A solver built by the two-argument constructor followed by `addRow` calls. -/
def DLXSolver.build (numberOfOptionalCols numberOfMandatoryCols : Nat)
    (rows : List DLX_VALUES_SET) : Run DLXSolver := do
  let m ← DLXSolver.create numberOfOptionalCols numberOfMandatoryCols
  DLXSolver.addRows m rows

/-! ## The arithmetic of `float`

A `float` is the rational number it stands for. An operation on `float`s yields
the exact result rounded to the nearest number with a significand of 24 bits,
the even significand of two equally near (the rounding of IEEE 754 binary32 that
the compiler uses for `float`). The exponent is not bounded here: overflow,
underflow and division by zero are outside the model. Between `int` operands
other than 0 they do not occur: every quotient of two such values lies between
`2^-32` and `2^32`. -/

/-- The integer nearest to `t`; of two equally near integers, the even one. -/
def roundHalfEven (t : ℚ) : Int :=
  if t - ⌊t⌋ < 1 / 2 then ⌊t⌋
  else if 1 / 2 < t - ⌊t⌋ then ⌊t⌋ + 1
  else if ⌊t⌋ % 2 = 0 then ⌊t⌋ else ⌊t⌋ + 1

/-- The `float` nearest to `x`: with `2^e` the weight of the last of the 24 bits
of the significand of `x`, the multiple of `2^e` nearest to `x`. -/
def roundF32 (x : ℚ) : ℚ :=
  if x = 0 then 0
  else (roundHalfEven (x / 2 ^ (Int.log 2 |x| - 23)) : ℚ) * 2 ^ (Int.log 2 |x| - 23)

/-- The conversion of an `int` to `float`. -/
def f32OfInt (n : Int) : ℚ := roundF32 n

/-- The product of two `float`s. -/
def f32Mul (a b : ℚ) : ℚ := roundF32 (a * b)

/-- The quotient of two `float`s. -/
def f32Div (a b : ℚ) : ℚ := roundF32 (a / b)

/-- The sum of two `float`s. -/
def f32Add (a b : ℚ) : ℚ := roundF32 (a + b)

/-! ## The grader of `DecomposeAndPack` -/

/-- The pair `GradeIndex` of the source: a grade, which is a `float`, and the
index of its result. -/
abbrev GradeIndex := ℚ × Nat

/-- Embeds the comparison `wayToSort` handed to `std::sort`. -/
def wayToSort (x y : GradeIndex) : Bool := decide (x.1 > y.1)

/-- The two minimum loops of `getResultsByGrade`: the running minimum starts at
element 0 and is replaced by every later element strictly below it. -/
def minLoop : Int → List Int → Int
  | m, [] => m
  | m, v :: vs => if v < m then minLoop v vs else minLoop m vs

/-- The grading loop of `getResultsByGrade`, over the bounding boxes from
position `index` on; the numbers of parts are read by subscript. The weights
`wB` and `wK` are `float`s, and so is every intermediate value. -/
def gradesLoop (wB wK : ℚ) (minBoundingBox minNumberOfParts : Int)
    (resultsNumOfParts : List Int) : List Int → Nat → Run (List GradeIndex)
  | [], _ => pure []
  | b :: bs, index => do
    let k ←
      match resultsNumOfParts.get? index with
      | some k => pure k
      | none => .error .outOfRange
    let boundingBoxGrade : ℚ :=
      f32Mul (f32Div (f32Mul 1 (f32OfInt minBoundingBox)) (f32Mul 1 (f32OfInt b))) wB
    let numOfPartsGrade : ℚ :=
      f32Mul (f32Div (f32Mul 1 (f32OfInt minNumberOfParts)) (f32Mul 1 (f32OfInt k))) wK
    let rest ← gradesLoop wB wK minBoundingBox minNumberOfParts resultsNumOfParts bs
      (index + 1)
    pure ((f32Add boundingBoxGrade numOfPartsGrade, index) :: rest)

/-- The vector `resultsByGrade` as it stands right before `std::sort` is called;
`wB` and `wK` are `BOUNDING_BOX_WEIGHT` and `NUM_OF_PARTS_WEIGHT`. -/
def gradesBeforeSort (wB wK : ℚ) (resultsBoundingBox resultsNumOfParts : List Int) :
    Run (List GradeIndex) :=
  match resultsBoundingBox, resultsNumOfParts with
  | b0 :: bs, k0 :: ks =>
    gradesLoop wB wK (minLoop b0 bs) (minLoop k0 ks) (k0 :: ks) (b0 :: bs) 0
  | _, _ => .error .outOfRange

/-- What `std::sort(first, last, comp)` guarantees of its output: it is a
rearrangement of the input in which no element is `comp`-before an element that
precedes it. The order of elements that `comp` does not separate is left open. -/
def stdSortPost {α : Type} (comp : α → α → Bool) (input output : List α) : Prop :=
  output.Perm input ∧ output.Pairwise (fun x y => comp y x = false)

/-- Embeds `DecomposeAndPack::getResultsByGrade` as the relation between the two
member vectors and a vector the function may return. -/
def getResultsByGrade (wB wK : ℚ) (resultsBoundingBox resultsNumOfParts : List Int)
    (result : List GradeIndex) : Prop :=
  ∃ grades, gradesBeforeSort wB wK resultsBoundingBox resultsNumOfParts = .ok grades ∧
    stdSortPost wayToSort grades result

/-- Modelled from the spec: `BOUNDING_BOX_WEIGHT` of `DFPConfiguration.h`, which is
not among the sources; it is a `float` of default 0.6, that is, the `float`
nearest to 0.6. -/
def BOUNDING_BOX_WEIGHT : ℚ := roundF32 (6 / 10)

/-- Modelled from the spec: `NUM_OF_PARTS_WEIGHT` of `DFPConfiguration.h`, which is
not among the sources; it is a `float` of default 0.4, that is, the `float`
nearest to 0.4. -/
def NUM_OF_PARTS_WEIGHT : ℚ := roundF32 (4 / 10)

/-- The grade that one turn of the grading loop stores for a result of bounding
box `b` and `k` parts: the value of `boundingBoxGrade + numOfPartsGrade`. -/
def storedGrade (wB wK : ℚ) (minBoundingBox b minNumberOfParts k : Int) : ℚ :=
  f32Add (f32Mul (f32Div (f32Mul 1 (f32OfInt minBoundingBox)) (f32Mul 1 (f32OfInt b))) wB)
    (f32Mul (f32Div (f32Mul 1 (f32OfInt minNumberOfParts)) (f32Mul 1 (f32OfInt k))) wK)

/-- Modelled from the spec: the grade formula
`w_B * (min_B / B[i]) + w_K * (min_K / K[i])` in exact arithmetic. -/
def exactGrade (wB wK : ℚ) (minB b minK k : Int) : ℚ :=
  wB * ((minB : ℚ) / b) + wK * ((minK : ℚ) / k)

/-- Index `i` comes before index `j` in a ranking. -/
def appearsBefore (result : List GradeIndex) (i j : Nat) : Prop :=
  i ∈ result.map Prod.snd ∧ j ∈ result.map Prod.snd ∧
    List.indexOf i (result.map Prod.snd) < List.indexOf j (result.map Prod.snd)

/-- The value `m` is a least element of `v`. -/
def IsMinOf (m : Int) (v : List Int) : Prop := m ∈ v ∧ ∀ x ∈ v, m ≤ x

/-! ## Points, placements and the packer (`Packing.cpp`) -/

/-- A lattice point. Modelled from the spec: `Point.h` is not among the sources;
a point is an integer triple with structural equality (its colour plays no part
here). -/
structure Point where
  x : Int
  y : Int
  z : Int
  deriving DecidableEq, Repr

/-- Modelled from the spec: `operator+` of `Point`, coordinate by coordinate. -/
instance : Add Point := ⟨fun p q => ⟨p.x + q.x, p.y + q.y, p.z + q.z⟩⟩

/-- The point list of a part orientation (`getPointList`). -/
abbrev PartOrientation := List Point

/-- The type `PartLocationList` of `DecomposeResult.h`: pairs of a part
orientation and its origin point. -/
abbrev PartLocationList := List (PartOrientation × Point)

/-- The type `PartsCount` of `DecomposeResult.h`: part (by id) to number of
occurrences. -/
abbrev PartsCount := List (Nat × Int)

/-- The largest `int`, `std::numeric_limits<int>::max()`. -/
def INT_MAX : Int := 2147483647

/-- A value of type `int` after an arithmetic operation: the mathematical result
taken into the 32-bit two's complement range. -/
def wrapInt (v : Int) : Int := (v + 2147483648) % 4294967296 - 2147483648

/-- The six running extremes of `getBoundingBoxes`. -/
structure Extents where
  minHorizontal : Int
  maxHorizontal : Int
  minVertical : Int
  maxVertical : Int
  minHeight : Int
  maxHeight : Int
  deriving DecidableEq, Repr

/-- The extremes before any point is seen. -/
def Extents.init : Extents :=
  { minHorizontal := INT_MAX, maxHorizontal := 0, minVertical := INT_MAX,
    maxVertical := 0, minHeight := INT_MAX, maxHeight := 0 }

/-- The six `if` statements of the innermost loop body of `getBoundingBoxes`. -/
def Extents.visit (e : Extents) (relatedPoint : Point) : Extents :=
  let x := relatedPoint.x
  let y := relatedPoint.y
  let z := relatedPoint.z
  let e := if x < e.minHorizontal then { e with minHorizontal := x } else e
  let e := if x > e.maxHorizontal then { e with maxHorizontal := x } else e
  let e := if y < e.minVertical then { e with minVertical := y } else e
  let e := if y > e.maxVertical then { e with maxVertical := y } else e
  let e := if z < e.minHeight then { e with minHeight := z } else e
  let e := if z > e.maxHeight then { e with maxHeight := z } else e
  e

/-- The two nested loops of `getBoundingBoxes` over one placement list. -/
def extentsOf (partLocationList : PartLocationList) : Extents :=
  partLocationList.foldl
    (fun e orientOrigin =>
      orientOrigin.1.foldl (fun e point => e.visit (point + orientOrigin.2)) e)
    Extents.init

/-- The value pushed by `getBoundingBoxes` for one placement list. -/
def boundingBox (partLocationList : PartLocationList) : Int :=
  let e := extentsOf partLocationList
  wrapInt (wrapInt (wrapInt (e.maxHorizontal - e.minHorizontal) + 1) *
    wrapInt (wrapInt (e.maxVertical - e.minVertical) + 1))

/-- Embeds `Packing::getBoundingBoxes`. -/
def getBoundingBoxes (listOfPartLocationLists : List PartLocationList) : List Int :=
  listOfPartLocationLists.map boundingBox

/-- The map `_locationSetToOrient`, from a row's value set to its placement. -/
abbrev SetToOrientationMap := List (DLX_VALUES_SET × (PartOrientation × Point))

/-- The member `at` of the map: a missing key throws. -/
def SetToOrientationMap.at (map : SetToOrientationMap) (locationSet : DLX_VALUES_SET) :
    Run (PartOrientation × Point) :=
  match map.lookup locationSet with
  | some v => pure v
  | none => .error .outOfRange

/-- The inner loop over the value sets of one solution in `pack`. -/
def decodeSolution (map : SetToOrientationMap) : DLX_SOLUTION → Run PartLocationList
  | [] => pure []
  | locationSet :: rest => do
    let placement ← map.at locationSet
    let tail ← decodeSolution map rest
    pure (placement :: tail)

/-- The loop over the solutions in `pack`, filling `listOfPartLocationLists`. -/
def decodeSolutions (map : SetToOrientationMap) :
    List DLX_SOLUTION → Run (List PartLocationList)
  | [] => pure []
  | solution :: rest => do
    let partLocationList ← decodeSolution map solution
    let tail ← decodeSolutions map rest
    pure (partLocationList :: tail)

/-- The loop of `pack` that finds the minimal bounding box, at position `i` of
the vector with the running `minBoundingBox` and `indexOfMin`. -/
def indexOfMinLoop : List Int → Nat → Int → Nat → Int × Nat
  | [], _, minBoundingBox, indexOfMin => (minBoundingBox, indexOfMin)
  | b :: bs, i, minBoundingBox, indexOfMin =>
    if b < minBoundingBox then indexOfMinLoop bs (i + 1) b i
    else indexOfMinLoop bs (i + 1) minBoundingBox indexOfMin

/-- What `pack` has at hand in one turn of its loop once the solver has run: the
vector returned by `dlxSolver->solve()` and the contents of
`_locationSetToOrient` at that moment. -/
structure SolverRun where
  solutions : List DLX_SOLUTION
  locationSetToOrient : SetToOrientationMap
  deriving DecidableEq

/-- What the visitors of one decomposition leave behind. Modelled from the spec:
`PackingPartFitVisitor` and `World::accept` are not among the sources; the
visitors of one decomposition hand `rows` to `addRow` of the solver, one after
the other, and `_locationSetToOrient` then holds `locationSetToOrient`. -/
structure VisitorEffect where
  rows : List DLX_VALUES_SET
  locationSetToOrient : SetToOrientationMap

/-- The state of a `Packing` object that `pack` reads. Modelled from the spec:
`visits i partsCount` stands for the loop of lines 38-45 of `pack` in turn `i`,
which goes through the visitors. -/
structure Packing where
  boxNumberOfPoints : Nat
  partsCountList : List PartsCount
  solutionsNumOfParts : List Int
  visits : Nat → PartsCount → VisitorEffect

/-- Lines 34-47 of `pack` in turn `i`: the solver is made with one optional
column per point of the box and `currDecompositionSize` mandatory columns, the
visitors add their rows, and `solve` runs. -/
def Packing.solverRun (pk : Packing) (fuel i : Nat) (currDecompositionSize : Int)
    (currPartsCount : PartsCount) : Run SolverRun := do
  let effect := pk.visits i currPartsCount
  let dlxSolver ← DLXSolver.build pk.boxNumberOfPoints currDecompositionSize.toNat effect.rows
  let solutions ← DLXSolver.solve fuel dlxSolver
  pure { solutions := solutions, locationSetToOrient := effect.locationSetToOrient }

/-- The body of the loop of `pack` from the call of `solve` on: what is pushed to
`packPerDecompose` and to `_resultsBoundingBox`. -/
def packOne (run : SolverRun) : Run (PartLocationList × Int) :=
  if run.solutions ≠ [] then do
    let listOfPartLocationLists ← decodeSolutions run.locationSetToOrient run.solutions
    match getBoundingBoxes listOfPartLocationLists with
    | [] => .error .outOfRange
    | b0 :: bs =>
      let (minBoundingBox, indexOfMin) := indexOfMinLoop bs 1 b0 0
      match listOfPartLocationLists.get? indexOfMin with
      | some partLocationList => pure (partLocationList, minBoundingBox)
      | none => .error .outOfRange
  else pure ([], INT_MAX)

/-- The loop of `pack` over the decompositions, from decomposition `i` on; `fuel`
is the step budget of each call of `solve`. -/
def packLoop (pk : Packing) (fuel : Nat) :
    List PartsCount → Nat → Run (List PartLocationList × List Int)
  | [], _ => pure ([], [])
  | currPartsCount :: rest, i => do
    let currDecompositionSize ←
      match pk.solutionsNumOfParts.get? i with
      | some n => pure n
      | none => .error .outOfRange
    let run ← pk.solverRun fuel i currDecompositionSize currPartsCount
    let (partLocationList, boundingBox) ← packOne run
    let (packPerDecompose, resultsBoundingBox) ← packLoop pk fuel rest (i + 1)
    pure (partLocationList :: packPerDecompose, boundingBox :: resultsBoundingBox)

/-- Embeds `Packing::pack`: the vector `packPerDecompose` of the returned
`PackResult`, and the member `_resultsBoundingBox` after the call. -/
def Packing.pack (pk : Packing) (fuel : Nat) : Run (List PartLocationList × List Int) :=
  packLoop pk fuel pk.partsCountList 0

/-- The value `mn` stands at position `idx` of `l`, no value of `l` is below it and
every value before position `idx` is above it. -/
def IsEarliestMin (l : List Int) (mn : Int) (idx : Nat) : Prop :=
  l.get? idx = some mn ∧ (∀ k v, l.get? k = some v → mn ≤ v) ∧
    ∀ k v, k < idx → l.get? k = some v → mn < v

/-- Every value set of every solution of the run is a key of the map. -/
def KeysPresent (run : SolverRun) : Prop :=
  ∀ sol ∈ run.solutions, ∀ locationSet ∈ sol,
    (run.locationSetToOrient.lookup locationSet).isSome = true

/-- The list `pl` is the placement list of the earliest returned solution of minimal
bounding box, and `bb` is that bounding box. -/
def PicksEarliestMin (run : SolverRun) (pl : PartLocationList) (bb : Int) : Prop :=
  ∃ lists k, decodeSolutions run.locationSetToOrient run.solutions = .ok lists ∧
    lists.length = run.solutions.length ∧
    lists.get? k = some pl ∧ bb = boundingBox pl ∧
    (∀ k' pl', lists.get? k' = some pl' → boundingBox pl ≤ boundingBox pl') ∧
    ∀ k' pl', k' < k → lists.get? k' = some pl' → boundingBox pl < boundingBox pl'

/-! ## Worlds and the decomposer (`DecomposeAndPack.cpp`) -/

/-- A world, as the five-argument constructor used by `extendDecompose` stores
it (the pixel resolution plays no part here). Modelled from the spec: `World.cpp`
is not among the sources; a world holds its ordered points and its dimensions,
and the getters return what the constructor was given. -/
structure World where
  pointList : List Point
  width : Int
  height : Int
  depth : Int
  deriving DecidableEq, Repr

/-- Modelled from the spec: `World::getIndexFromPoint`, the dense index of a
point of the world, which is its position in the point list; a point that is not
in the world has no index. -/
def World.getIndexFromPoint (world : World) (point : Point) : Run Nat :=
  if point ∈ world.pointList then pure (world.pointList.indexOf point)
  else .error .outOfRange

/-- A part: its id and its orientations. -/
structure Part where
  id : Nat
  orientations : List PartOrientation
  deriving DecidableEq, Repr

/-- The type `PartList` of `Part.h`. -/
abbrev PartList := List Part

/-- The two parallel vectors of a `DecomposeResult`. -/
structure DecomposeResult where
  partsCountList : List PartsCount
  listOfPartLocationLists : List PartLocationList
  deriving DecidableEq, Repr

/-- Adds `n` occurrences of part `part` to a parts count. -/
def PartsCount.addCount (counts : PartsCount) (part : Nat) (n : Int) : PartsCount :=
  match counts with
  | [] => [(part, n)]
  | (q, k) :: rest =>
    if q = part then (q, k + n) :: rest else (q, k) :: PartsCount.addCount rest part n

/-- Modelled from the spec: `DecomposeResult::extend`, declared in
`DecomposeResult.h` and defined in a file that is not among the sources; every
solution of the result is extended by the given parts count and placements. -/
def DecomposeResult.extend (r : DecomposeResult) (partsCount : PartsCount)
    (partLocationList : PartLocationList) : DecomposeResult :=
  { partsCountList := r.partsCountList.map
      (fun c => partsCount.foldl (fun acc e => PartsCount.addCount acc e.1 e.2) c)
    listOfPartLocationLists := r.listOfPartLocationLists.map (fun l => l ++ partLocationList) }

/-- Modelled from the spec: `DecomposeResult::add`, declared in
`DecomposeResult.h` and defined in a file that is not among the sources; the
solutions of the other result are appended. -/
def DecomposeResult.add (total other : DecomposeResult) : DecomposeResult :=
  { partsCountList := total.partsCountList ++ other.partsCountList
    listOfPartLocationLists := total.listOfPartLocationLists ++ other.listOfPartLocationLists }

/-- What `DecomposeAndPack` uses from files that are not among the sources.
Modelled from the spec: `PART_SIZE_PRECENT_OF_WORLD` is the configured integer
percentage of `DFPConfiguration.h`; `buildStandartPartPack` is
`PartBuilder::buildStandartPartPack`; `decompose world partList arg` is
`Decompose(world, partList).decompose(arg)`, where `arg` is `none` for the call
without an argument. -/
structure Collaborators where
  PART_SIZE_PRECENT_OF_WORLD : Int
  buildStandartPartPack : Nat → Bool → PartList
  decompose : World → PartList → Option Bool → DecomposeResult

/-- The two nested loops of `extendDecompose` that fill `pointIndexesToDelete`:
the point looked up has the x and y of the covered point and z equal to 0. -/
def pointIndexesToDelete (world : World) : PartLocationList → Run (List Nat)
  | [] => pure []
  | (partOrient, basePoint) :: rest => do
    let here ← partOrient.mapM (fun pointOffset =>
      world.getIndexFromPoint ⟨pointOffset.x + basePoint.x, pointOffset.y + basePoint.y, 0⟩)
    let later ← pointIndexesToDelete world rest
    pure (here ++ later)

/-- The `erase` loop of `extendDecompose`; erasing past the end is a fault. -/
def eraseIndexes : List Point → List Nat → Run (List Point)
  | newPointList, [] => pure newPointList
  | newPointList, index :: rest =>
    if index < newPointList.length then eraseIndexes (newPointList.eraseIdx index) rest
    else .error .outOfRange

/-- Embeds `DecomposeAndPack::extendDecompose`: the returned pointer (`none` is
`NULL`) and `totalDecomposeResults` after the call. -/
def extendDecompose (env : Collaborators) (world : World) (partList : PartList)
    (partsCount : PartsCount) (partLocationList : PartLocationList)
    (totalDecomposeResults : DecomposeResult) (_isPartial : Bool) :
    Run (Option DecomposeResult × DecomposeResult) := do
  let indexes ← pointIndexesToDelete world partLocationList
  let indexes := indexes.insertionSort (fun a b => a ≥ b)
  let newPointList ← eraseIndexes world.pointList indexes
  let newWorld : World :=
    { pointList := newPointList, width := world.width, height := world.height,
      depth := world.depth }
  if newWorld.height = 0 ∨ newWorld.width = 0 then pure (none, totalDecomposeResults)
  else
    let decomposeResult := env.decompose newWorld partList none
    let decomposeResult := decomposeResult.extend partsCount partLocationList
    pure (some decomposeResult, totalDecomposeResults.add decomposeResult)

/-- The loop over `j` in `decompose`, from solution `j` on, with its `break`. -/
def extendLoop (env : Collaborators) (world : World) (partList : PartList)
    (decomposeResult : DecomposeResult) (isPartial : Bool) :
    List PartLocationList → Nat → DecomposeResult → Run DecomposeResult
  | [], _, newDecomposeResult => pure newDecomposeResult
  | partLocationList :: rest, j, newDecomposeResult => do
    let partsCount ←
      match decomposeResult.partsCountList.get? j with
      | some c => pure c
      | none => .error .outOfRange
    let (nextDecomposition, newDecomposeResult) ←
      extendDecompose env world partList partsCount partLocationList newDecomposeResult
        isPartial
    match nextDecomposition with
    | none => pure newDecomposeResult
    | some _ =>
      extendLoop env world partList decomposeResult isPartial rest (j + 1) newDecomposeResult

/-- The `for` loop of `decompose` over the part sizes, from `partSize` down. -/
def decomposeLoop (env : Collaborators) (world : World) :
    Nat → Option DecomposeResult → Run (Option DecomposeResult)
  | 0, decomposeResult => pure decomposeResult
  | n + 1, decomposeResult => do
    let partSize := n + 1
    let partList := env.buildStandartPartPack partSize (decide (world.depth > 1))
    let isPartial := decide (partSize > 1)
    let decomposeResult ←
      match decomposeResult with
      | none => pure (env.decompose world partList (some isPartial))
      | some d => do
        let newDecomposeResult ←
          extendLoop env world partList d isPartial d.listOfPartLocationLists 0
            { partsCountList := [], listOfPartLocationLists := [] }
        if newDecomposeResult.listOfPartLocationLists.length ≠ 0 then
          pure newDecomposeResult
        else pure d
    if partSize = 1 then pure (some decomposeResult)
    else decomposeLoop env world n (some decomposeResult)

/-- The first part size tried by `decompose`: both operands of the division are
of type `int`, so the quotient is truncated before `round` sees it. -/
def minEdge (env : Collaborators) (world : World) : Int :=
  let e := Int.tdiv (min world.width world.height * env.PART_SIZE_PRECENT_OF_WORLD) 100
  if e = 0 then 1 else e

/-- Embeds `DecomposeAndPack::decompose` on the world `m_world`. -/
def decompose (env : Collaborators) (world : World) : Run (Option DecomposeResult) :=
  decomposeLoop env world (minEdge env world).toNat none

/-- The points covered by one placement. -/
def placementPoints (placement : PartOrientation × Point) : List Point :=
  placement.1.map (fun point => point + placement.2)

/-- Every placement of the list lies inside the world. -/
def InsideWorld (world : World) (pl : PartLocationList) : Prop :=
  ∀ placement ∈ pl, ∀ p ∈ placementPoints placement, p ∈ world.pointList

/-- The point sets of any two placements of the list are disjoint. -/
def PointDisjoint (pl : PartLocationList) : Prop :=
  pl.Pairwise (fun a b => ∀ p ∈ placementPoints a, p ∉ placementPoints b)

/-- Every point of the world is covered by some placement of the list. -/
def CoversWorld (world : World) (pl : PartLocationList) : Prop :=
  ∀ p ∈ world.pointList, ∃ placement ∈ pl, p ∈ placementPoints placement

/-- What the spec asks of `Decompose::decompose`: on a world of distinct points
every solution lies inside the world with disjoint placements, and covers the
world unless the call asked for a partial cover. -/
def DecomposerContract (env : Collaborators) : Prop :=
  ∀ (world : World) (partList : PartList) (arg : Option Bool), world.pointList.Nodup →
    ∀ pl ∈ (env.decompose world partList arg).listOfPartLocationLists,
      InsideWorld world pl ∧ PointDisjoint pl ∧ (arg ≠ some true → CoversWorld world pl)

/-! ## The packing loop of `DecomposeAndPack`

The source computes the box sides with `sqrt`, `pow` and `ceil` on `double`
values. Here that arithmetic is taken as exact: a side is the integer that the
real-valued expression denotes, computed on integers, and theorems
`ceilRoot_two_eq_ceil_sqrt`, `ceilRoot_three_eq_ceil_rpow` and
`growSide_eq_ceil` state the agreement. -/

/-- The search behind `ceilRoot`: the first `s` from the candidate on with
`n ≤ s ^ k`, among at most `fuel` further candidates. -/
def ceilRootFrom (k n : Nat) : Nat → Nat → Nat
  | 0, s => s
  | fuel + 1, s => if n ≤ s ^ k then s else ceilRootFrom k n fuel (s + 1)

/-- The value of `static_cast<int>(ceil(sqrt(n)))` for `k = 2` and of
`static_cast<int>(ceil(pow(n, 1.0 / 3.0)))` for `k = 3`: the `k`-th root of `n`,
rounded up. -/
def ceilRoot (k n : Nat) : Nat := ceilRootFrom k n n 0

/-- The value of `static_cast<int>(ceil(width + 0.1*width))`. -/
def growSide (width : Int) : Int := -((-(11 * width)) / 10)

/-- The three sides handed to `WorldBuilder::buildBox`. -/
structure Box where
  width : Int
  height : Int
  depth : Int
  deriving DecidableEq, Repr

/-- What `DecomposeAndPack::pack` reads of a `PackResult`. Modelled from the
spec: `PackResult.h` is not among the sources; `hasSolution` is the value of
`PackResult::hasSolution()`. -/
structure PackResult where
  packPerDecomposeList : List PartLocationList
  hasSolution : Bool
  deriving DecidableEq, Repr

/-- The first statements of the body of the loop of `DecomposeAndPack::pack`:
`width`, `depth` and `height` are set from the number of points of the world. -/
def boxOf (world : World) : Box :=
  if world.depth > 1 then
    let width : Int := ceilRoot 3 world.pointList.length
    let depth := width
    let height := width
    { width := width, height := height, depth := depth }
  else
    let width : Int := ceilRoot 2 world.pointList.length
    let depth := 1
    let height := width
    { width := width, height := height, depth := depth }

/-- The `do`-`while` loop of `DecomposeAndPack::pack`, with the values of `width`
and `height` on entry of the body: the boxes handed to the packer so far, and
the returned `PackResult` once the loop is left. The packer stands for
`WorldBuilder::buildBox` and `Packing(box, decomposeResult).pack()`. -/
def packAttempts (packer : Box → PackResult) (world : World) :
    Nat → Int → Int → List Box × Option PackResult
  | 0, _, _ => ([], none)
  | fuel + 1, _width, _height =>
    let box := boxOf world
    let width := box.width
    let packResult := packer box
    if packResult.hasSolution then ([box], some packResult)
    else
      let width := growSide width
      let height := width
      if world.width ≥ width ∧ world.height ≥ height then
        let rest := packAttempts packer world fuel width height
        (box :: rest.1, rest.2)
      else ([box], some packResult)

/-- Embeds `DecomposeAndPack::pack`; `width` starts at 0 and `height` is not
initialised, both are assigned before they are read. -/
def DecomposeAndPack.pack (packer : Box → PackResult) (world : World) (fuel : Nat) :
    Run PackResult :=
  match (packAttempts packer world fuel 0 0).2 with
  | some packResult => pure packResult
  | none => .error .outOfFuel

/-! ## The first part size of `decompose`, as the spec has it -/

/-- The first part size in the words of the spec: the product of the smaller
world side and the percentage is divided by 100 exactly, the quotient is rounded
to the nearest integer, and the result is at least 1. -/
def minEdgeSpec (width height percent : Int) : Int :=
  max 1 (round (((min width height * percent : Int) : ℚ) / 100))

/-! ## The residual world of `extendDecompose` -/

/-- The point list `newPointList` of `extendDecompose` once its `erase` loop has
run: the first three steps of `extendDecompose`. -/
def residualPointList (world : World) (partLocationList : PartLocationList) :
    Run (List Point) := do
  let indexes ← pointIndexesToDelete world partLocationList
  let indexes := indexes.insertionSort (fun a b => a ≥ b)
  eraseIndexes world.pointList indexes

/-- The points covered by a placement list: anchor plus offset, in all three
coordinates. -/
def coveredPoints (partLocationList : PartLocationList) : List Point :=
  partLocationList.flatMap placementPoints

/-! ## The placement visitor (`IsPartFitVisitor.cpp`) -/

/-- Modelled from the spec: `World::isPointExist`, declared in `World.h`; the
point belongs to the world. -/
def World.isPointExist (world : World) (point : Point) : Bool :=
  decide (point ∈ world.pointList)

/-- The member `insert` of the ordered set `DLX_VALUES_SET`. -/
def setInsert (v : Nat) : DLX_VALUES_SET → DLX_VALUES_SET
  | [] => [v]
  | x :: xs =>
    if v < x then v :: x :: xs
    else if v = x then x :: xs
    else x :: setInsert v xs

/-- The `while` loop of `IsPartFitVisitor::visit` over the points of the part
that are still to come, with the values of `i` and `partLocationSet`; returns
`i`, `isPartFit` and `partLocationSet` as they are when the loop is left. -/
def visitLoop (world : World) (point : Point) :
    List Point → Nat → DLX_VALUES_SET → Run (Nat × Bool × DLX_VALUES_SET)
  | [], i, partLocationSet => pure (i, true, partLocationSet)
  | partPoint :: rest, i, partLocationSet =>
    let relatedPartPoint := point + partPoint
    if !world.isPointExist relatedPartPoint then pure (i, false, partLocationSet)
    else do
      let index ← world.getIndexFromPoint relatedPartPoint
      visitLoop world point rest (i + 1) (setInsert index partLocationSet)

/-- Embeds `IsPartFitVisitor::visit`: the solver `_dlxSolver` after the call.
The body of the final `if` of the source holds only a comment (the call
`_dlxSolver->addRow(partLocationSet)` is commented out), so both branches leave
the solver as it is. -/
def IsPartFitVisitor.visit (partPointList : List Point) (dlxSolver : DLXSolver)
    (world : World) (point : Point) : Run DLXSolver := do
  let (i, isPartFit, _partLocationSet) ← visitLoop world point partPointList 0 []
  if i = partPointList.length ∧ isPartFit = true then pure dlxSolver
  else pure dlxSolver

/-! ## Worlds from images (`WorldBuilder.cpp`) -/

/-- A raster image: its width, its height and the pixel value `atXY`. -/
structure Image where
  width : Int
  height : Int
  atXY : Int → Int → Int

/-- The pixel value of white. -/
def WHITE : Int := 255

/-- The values `lo, lo + 1, ..., hi` of a `for` loop counter. -/
def intRange (lo hi : Int) : List Int :=
  (List.range (hi - lo + 1).toNat).map (fun k => lo + (k : Int))

/-- The five counters of the first pass of `fromImage`. -/
structure ScanState where
  min_X : Int := -1
  max_X : Int := -1
  min_Y : Int := -1
  max_Y : Int := -1
  numberOfPoints : Int := 0
  deriving DecidableEq, Repr

/-- The body of the inner loop of the first pass of `fromImage` at pixel
`(i, j)`. -/
def scanPixel (st : ScanState) (i j pixel : Int) : ScanState :=
  if WHITE ≠ pixel then
    let st := { st with numberOfPoints := st.numberOfPoints + 1 }
    let st :=
      if -1 = st.min_X then { st with min_X := i }
      else if i > st.max_X then { st with max_X := i } else st
    let st :=
      if -1 = st.min_Y then { st with min_Y := j }
      else if j > st.max_Y then { st with max_Y := j } else st
    st
  else st

/-- The first pass of `fromImage` over all pixels, column by column. -/
def scanImage (img : Image) : ScanState :=
  (intRange 0 (img.width - 1)).foldl
    (fun st i =>
      (intRange 0 (img.height - 1)).foldl (fun st j => scanPixel st i j (img.atXY i j)) st)
    {}

/-- The second pass of `fromImage`: the points pushed to `pointList`. -/
def collectPoints (img : Image) (st : ScanState) : List Point :=
  (intRange st.min_X st.max_X).flatMap (fun i =>
    (intRange st.min_Y st.max_Y).filterMap (fun j =>
      if WHITE ≠ img.atXY i j then some ⟨i - st.min_X, j - st.min_Y, 0⟩ else none))

/-- Embeds `WorldBuilder::fromImage` on a loaded image; the world made by the
three-argument constructor has depth 1. -/
def fromImage (img : Image) : World :=
  let st := scanImage img
  { pointList := collectPoints img st
    width := st.max_X - st.min_X + 1
    height := st.max_Y - st.min_Y + 1
    depth := 1 }

/-- The non-white pixels of an image, column by column. -/
def nonWhitePixels (img : Image) : List (Int × Int) :=
  (intRange 0 (img.width - 1)).flatMap (fun i =>
    (intRange 0 (img.height - 1)).filterMap (fun j =>
      if WHITE ≠ img.atXY i j then some (i, j) else none))

/-! ## The full-cover constructor of `DLXSolver` -/

/-- Embeds the constructor `DLXSolver(int numberOfColumns)`. It delegates to
`DLXSolver(0, _mandatoryColsNum)`: the member is read before any constructor has
given it a value, and `indeterminate` is the value so read. The argument
`numberOfColumns` is not used. -/
def DLXSolver.createFullCover (_numberOfColumns : Nat) (indeterminate : Nat) :
    Run DLXSolver :=
  DLXSolver.create 0 indeterminate

/-- The column indices of the headers met walking right from the master header
until it is met again, at most `fuel` of them. -/
def DLXSolver.headerRingFrom : Nat → DLXSolver → Ptr → List Nat
  | 0, _, _ => []
  | fuel + 1, m, p =>
    if p = m.matrixHead then []
    else
      match m.deref p with
      | .ok node => node.colIndex :: DLXSolver.headerRingFrom fuel m node.right
      | .error _ => []

/-- The column indices of the headers linked in the header ring, left to
right. -/
def DLXSolver.headerRing (m : DLXSolver) : List Nat :=
  match m.right m.matrixHead with
  | .ok first => DLXSolver.headerRingFrom m.nodes.length m first
  | .error _ => []

/-- The value `m` is a greatest element of `v`. -/
def IsMaxOf (m : Int) (v : List Int) : Prop := m ∈ v ∧ ∀ x ∈ v, x ≤ m

/-! ## The vertical structure of the matrix

The statements about columns read five fields of each node only: the two
vertical links, the row and column index, and the size counter. `vstate` keeps
these and drops the horizontal links. -/

/-- The fields of a node that the vertical structure reads. -/
structure VNode where
  up : Ptr
  down : Ptr
  rowIndex : Nat
  colIndex : Nat
  numOfElements : Nat
  deriving DecidableEq, Repr

/-- The vertical fields of a node. -/
def DLXNode.vert (n : DLXNode) : VNode :=
  { up := n.up, down := n.down, rowIndex := n.rowIndex, colIndex := n.colIndex,
    numOfElements := n.numOfElements }

/-- The vertical view of a solver: the vertical fields of every node, the
header mapping and the row counter. -/
structure VState where
  vnodes : List VNode
  mapping : List (Nat × Ptr)
  rowNum : Nat

/-- The vertical view of a solver. -/
def DLXSolver.vstate (m : DLXSolver) : VState :=
  { vnodes := m.nodes.map DLXNode.vert, mapping := m.colHeadersMapping, rowNum := m.rowNum }

/-- The `up` link of node `j`. -/
def VState.upAt (s : VState) (j : Nat) : Ptr :=
  match s.vnodes.get? j with
  | some v => v.up
  | none => none

/-- The `down` link of node `j`. -/
def VState.downAt (s : VState) (j : Nat) : Ptr :=
  match s.vnodes.get? j with
  | some v => v.down
  | none => none

/-- The row index of node `j`. -/
def VState.rowAt (s : VState) (j : Nat) : Nat :=
  match s.vnodes.get? j with
  | some v => v.rowIndex
  | none => 0

/-- The column index of node `j`. -/
def VState.colAt (s : VState) (j : Nat) : Nat :=
  match s.vnodes.get? j with
  | some v => v.colIndex
  | none => 0

/-- The size counter of node `j`. -/
def VState.sizeAt (s : VState) (j : Nat) : Nat :=
  match s.vnodes.get? j with
  | some v => v.numOfElements
  | none => 0

/-- Node `b` is right below node `a`: the `down` link of `a` is `b` and the `up`
link of `b` is `a`. -/
def VState.Linked (s : VState) (a b : Nat) : Prop :=
  s.downAt a = some b ∧ s.upAt b = some a

/-- The invariant of the columns of a solver with `C` columns whose data nodes
have arena indices below `L`: `cols c` lists the data nodes of column `c` from
top to bottom. The header of column `c` is node `c + 1`. -/
structure ColumnsInv (C L : Nat) (s : VState) (cols : Nat → List Nat) : Prop where
  frontier : C + 1 ≤ L ∧ L ≤ s.vnodes.length
  mapping : ∀ c, s.mapping.lookup c = if c < C then some (some (c + 1)) else none
  ring : ∀ c, c < C → List.Chain s.Linked (c + 1) (cols c ++ [c + 1])
  bounds : ∀ c, c < C → ∀ x ∈ cols c, C < x ∧ x < L
  colOf : ∀ c, c < C → ∀ x ∈ cols c, s.colAt x = c
  rowLe : ∀ c, c < C → ∀ x ∈ cols c, s.rowAt x ≤ s.rowNum
  sorted : ∀ c, c < C → ((cols c).map s.rowAt).Pairwise (fun a b => a < b)
  size : ∀ c, c < C → s.sizeAt (c + 1) = (cols c).length
  short : ∀ c, c < C → (cols c).length + 1 ≤ L

/-- The vertical view after `addNodeToColumn` has linked node `i` below node
`last` in the column of header `h`. -/
def VState.linkBelow (s : VState) (i last h : Nat) : VState :=
  { s with
    vnodes :=
      ((((s.vnodes.modify (fun v => { v with up := some last }) i).modify
        (fun v => { v with down := some h }) i).modify
        (fun v => { v with down := some i }) last).modify
        (fun v => { v with up := some i }) h).modify
        (fun v => { v with numOfElements := v.numOfElements + 1 }) h }

/-- Column `c` of the solver is the cyclic vertical list of the data nodes
`ns`, sorted by row index: the walk down from the header `h` visits `ns` in order
and returns to the header, every `up` link is the inverse of the `down` link
before it, every node of `ns` is a data node of column `c`, and the row indices
`rows` of `ns` increase strictly. -/
def DLXSolver.IsSortedColumn (m : DLXSolver) (c : Nat) (ns : List Nat) : Prop :=
  ∃ (h : Nat) (rows : List Nat), m.colHeader c = some h ∧ (∀ x ∈ ns, x ≠ h) ∧
    m.columnNodes c = ns ∧
    List.Chain (fun a b => m.down (some a) = .ok (some b) ∧ m.up (some b) = .ok (some a))
      h (ns ++ [h]) ∧
    ns.map (fun x => m.rowIndex (some x)) = rows.map Except.ok ∧
    ns.map (fun x => m.colIndex (some x)) = ns.map (fun _ => Except.ok c) ∧
    rows.Pairwise (fun a b => a < b)

/-- The rows handed to `addRow` are sets of column indices of the solver. -/
def ValidRows (C : Nat) (rows : List DLX_VALUES_SET) : Prop :=
  ∀ row ∈ rows, row.Nodup ∧ ∀ v ∈ row, v < C

/-- The state `addRows` works on: the columns satisfy the invariant and every
node has a row index below the row counter. -/
def RowsAdded (C : Nat) (m : DLXSolver) (cols : Nat → List Nat) : Prop :=
  ColumnsInv C m.nodes.length m.vstate cols ∧
    ∀ c, c < C → ∀ x ∈ cols c, m.vstate.rowAt x < m.vstate.rowNum

/-! ## Fixtures: the concrete inputs used by the theorems -/

/-- The value of a run that succeeded; the empty solver otherwise. -/
def Run.built (r : Run DLXSolver) : DLXSolver :=
  match r with
  | .ok m => m
  | .error _ => { nodes := [], matrixHead := none, colHeadersMapping := [],
                  mandatoryColsNum := 0, optionalColsNum := 0, rowNum := 0 }

/-- Three mandatory columns and the single row `{0, 1, 2}`. -/
def threeColsOneRow : DLXSolver :=
  Run.built (DLXSolver.build 0 3 [[0, 1, 2]])

/-- The state inside `cover` of column 1 of `threeColsOneRow` once the header is
unlinked from the header ring. -/
def threeColsOneRowUnlinked : DLXSolver :=
  Run.built (DLXSolver.detachNodeFromRow threeColsOneRow (some 2))

/-- The state inside `cover` of column 1 of `threeColsOneRow` after the header is
unlinked and the node of column 2 is unlinked from its column. -/
def threeColsOneRowStuck : DLXSolver :=
  Run.built (DLXSolver.detachNodeFromCol threeColsOneRowUnlinked (some 6))

/-- The "Trivial" scenario: three mandatory columns, four rows. -/
def trivialScenario : DLXSolver :=
  Run.built (DLXSolver.build 0 3 [[0, 1], [1, 2], [0, 2], [0, 1, 2]])

/-- The "Overlapping" scenario: four mandatory columns, four rows. -/
def overlappingScenario : DLXSolver :=
  Run.built (DLXSolver.build 0 4 [[0, 1], [2, 3], [0, 2], [1, 3]])

/-- One mandatory column and the single row `{0}`. -/
def oneColOneRow : DLXSolver :=
  Run.built (DLXSolver.build 0 1 [[0]])

/-- Two mandatory columns and no row. -/
def twoColsNoRow : DLXSolver :=
  Run.built (DLXSolver.build 0 2 [])

/-- Two mandatory columns and the single row `{0, 1}`. -/
def twoColsOneRow : DLXSolver :=
  Run.built (DLXSolver.build 0 2 [[0, 1]])

/-- A horizontal domino, as a part orientation. -/
def dominoH : PartOrientation := [⟨0, 0, 0⟩, ⟨1, 0, 0⟩]

/-- A packing of one decomposition, a single domino, into a box of two points:
the visitors add the one row of the domino lying on both points. -/
def dominoBoxPacking : Packing :=
  { boxNumberOfPoints := 2
    partsCountList := [[(2, 1)]]
    solutionsNumOfParts := [1]
    visits := fun _ _ =>
      { rows := [[0, 1, 2]]
        locationSetToOrient := [([0, 1, 2], (dominoH, ⟨0, 0, 0⟩))] } }

/-- The solver that `pack` builds for `dominoBoxPacking`: two optional columns for
the points of the box, one mandatory column for the domino, and its row. -/
def dominoBoxSolver : DLXSolver :=
  Run.built (DLXSolver.build 2 1 [[0, 1, 2]])

/-- A solver run with three solutions, of bounding boxes 6, 4 and 4. -/
def threeSolutionsRun : SolverRun :=
  { solutions := [[[0, 1, 16], [5, 6, 17]], [[0, 1, 16], [4, 5, 17]],
                  [[0, 1, 16], [2, 3, 17]]]
    locationSetToOrient :=
      [([0, 1, 16], (dominoH, ⟨0, 0, 0⟩)), ([5, 6, 17], (dominoH, ⟨1, 1, 0⟩)),
       ([4, 5, 17], (dominoH, ⟨0, 1, 0⟩)), ([2, 3, 17], (dominoH, ⟨2, 0, 0⟩))] }

/-- The unit part orientation. -/
def unitOrientation : PartOrientation := [⟨0, 0, 0⟩]

/-- Two unit cubes stacked along z, as a part orientation. -/
def dominoZ : PartOrientation := [⟨0, 0, 0⟩, ⟨0, 0, 1⟩]

/-- A stand-in for `Decompose::decompose` that meets `DecomposerContract`: asked
for a partial cover it returns one solution, the first orientation of the first
part at the first world point where it fits (no placement if it fits nowhere);
otherwise it returns the cover of the world by unit parts. -/
def standInDecompose (world : World) (partList : PartList) (arg : Option Bool) :
    DecomposeResult :=
  if arg = some true then
    match partList with
    | ⟨id, orientation :: _⟩ :: _ =>
      match world.pointList.find?
          (fun a => (placementPoints (orientation, a)).all (fun p => p ∈ world.pointList)) with
      | some anchor =>
        { partsCountList := [[(id, 1)]], listOfPartLocationLists := [[(orientation, anchor)]] }
      | none => { partsCountList := [[]], listOfPartLocationLists := [[]] }
    | _ => { partsCountList := [[]], listOfPartLocationLists := [[]] }
  else
    { partsCountList := [[(2, world.pointList.length)]]
      listOfPartLocationLists := [world.pointList.map (fun p => (unitOrientation, p))] }

/-- Collaborators with the default percentage 20, a part pack that is the unit
part for size 1 and a domino for size 2 and up, and `standInDecompose`. -/
def standInCollaborators : Collaborators :=
  { PART_SIZE_PRECENT_OF_WORLD := 20
    buildStandartPartPack := fun partSize is3D =>
      if partSize = 1 then [⟨2, [unitOrientation]⟩]
      else if is3D then [⟨3, [dominoZ]⟩, ⟨2, [unitOrientation]⟩]
      else [⟨3, [dominoH]⟩, ⟨2, [unitOrientation]⟩]
    decompose := standInDecompose }

/-- A world of three points, of width 10, height 10 and depth 2. -/
def threePointWorld : World :=
  { pointList := [⟨0, 0, 0⟩, ⟨9, 9, 0⟩, ⟨0, 0, 1⟩], width := 10, height := 10, depth := 2 }

/-- A world of eight points: two squares of 2 by 2 points in opposite corners
of an area of 10 by 10. -/
def twoSquaresWorld : World :=
  { pointList := [⟨0, 0, 0⟩, ⟨0, 1, 0⟩, ⟨1, 0, 0⟩, ⟨1, 1, 0⟩,
                  ⟨8, 8, 0⟩, ⟨8, 9, 0⟩, ⟨9, 8, 0⟩, ⟨9, 9, 0⟩]
    width := 10, height := 10, depth := 1 }

/-- A packer for two square parts of 2 by 2 points: they fit side by side in a
box that is at least 4 wide and 2 high (or 2 wide and 4 high), in no other. -/
def twoSquaresPacker (box : Box) : PackResult :=
  if (4 ≤ box.width ∧ 2 ≤ box.height) ∨ (2 ≤ box.width ∧ 4 ≤ box.height) then
    { packPerDecomposeList :=
        [[([⟨0, 0, 0⟩, ⟨0, 1, 0⟩, ⟨1, 0, 0⟩, ⟨1, 1, 0⟩], ⟨0, 0, 0⟩),
          ([⟨0, 0, 0⟩, ⟨0, 1, 0⟩, ⟨1, 0, 0⟩, ⟨1, 1, 0⟩],
            if 4 ≤ box.width then ⟨2, 0, 0⟩ else ⟨0, 2, 0⟩)]]
      hasSolution := true }
  else { packPerDecomposeList := [[]], hasSolution := false }

/-- A world of three points in an area of 8 by 8. -/
def eightByEightWorld : World :=
  { pointList := [⟨0, 0, 0⟩, ⟨1, 0, 0⟩, ⟨7, 7, 0⟩], width := 8, height := 8, depth := 1 }

/-- A world of one point. -/
def onePointWorld : World :=
  { pointList := [⟨0, 0, 0⟩], width := 1, height := 1, depth := 1 }

/-- An image of one pixel, which is black. -/
def onePixelImage : Image := { width := 1, height := 1, atXY := fun _ _ => 0 }

/-- An image of 2 by 2 pixels, black at (0,1) and (1,0) and white elsewhere. -/
def antiDiagonalImage : Image :=
  { width := 2, height := 2, atXY := fun i j => if i + j = 1 then 0 else 255 }

/-- An image of 2 by 2 pixels, all black. -/
def blackSquareImage : Image := { width := 2, height := 2, atXY := fun _ _ => 0 }

/-- One optional column, two mandatory columns, rows `{0,1}`, `{0,2}`, `{0,2}`. -/
def oneOptionalTwoMandatory : DLXSolver :=
  Run.built (DLXSolver.build 1 2 [[0, 1], [0, 2], [0, 2]])

/-- A solver without any column. -/
def noColumns : DLXSolver :=
  Run.built (DLXSolver.build 0 0 [])

/-- One optional column, no mandatory column, and the single row `{0}`. -/
def oneOptionalColumn : DLXSolver :=
  Run.built (DLXSolver.build 1 0 [[0]])

/-- A placement list of one part with the two points (0,0,0) and
(46340,46340,0), placed at the origin. -/
def widePlacement : PartLocationList :=
  [([⟨0, 0, 0⟩, ⟨46340, 46340, 0⟩], ⟨0, 0, 0⟩)]

/-- The bounding boxes of seventeen equal results. -/
def seventeenBoxes : List Int := [4, 4, 4, 4, 4, 4, 4, 4, 4, 4, 4, 4, 4, 4, 4, 4, 4]

/-- The numbers of parts of seventeen equal results. -/
def seventeenParts : List Int := [2, 2, 2, 2, 2, 2, 2, 2, 2, 2, 2, 2, 2, 2, 2, 2, 2]

/-- A ranking of seventeen results of grade 1. -/
def seventeenRanking : List GradeIndex :=
  [8, 16, 15, 14, 13, 12, 11, 10, 9, 0, 7, 6, 5, 4, 3, 2, 1].map (fun i => ((1 : ℚ), i))

/-! # Theorems -/

open DLXSolver

/-! ## The solver -/

/-- The inner loop of `cover` never leaves once it sits on a node other than
`rowNode` whose unlinking no longer changes the matrix. -/
theorem coverRow_stuck (m : DLXSolver) (rowNode horzNode : Ptr)
    (hne : horzNode ≠ rowNode) (hfix : detachNodeFromCol m horzNode = .ok m)
    (hr : ∃ r, m.right horzNode = .ok r) :
    ∀ fuel, coverRow fuel m rowNode horzNode = .error .outOfFuel := by
  intro fuel
  induction fuel with
  | zero => rfl
  | succ k ih =>
    obtain ⟨r, hr⟩ := hr
    simp [coverRow, hne, hfix, hr, ih, bind, Except.bind]

/-- The loop of `chooseNextColumn` never leaves when the header to the right of
`currColHeader` is not the master header. -/
theorem chooseNextColumnLoop_stuck (m : DLXSolver) (currColHeader r : Ptr) (n : Nat)
    (hr : m.right currColHeader = .ok r) (hne : r ≠ m.matrixHead)
    (hn : m.numOfElements r = .ok n) :
    ∀ fuel minNumOfElements chosenHeader,
      chooseNextColumnLoop fuel m currColHeader minNumOfElements chosenHeader
        = .error .outOfFuel := by
  intro fuel
  induction fuel with
  | zero => intro _ _; rfl
  | succ k ih =>
    intro mn ch
    by_cases hlt : n < mn <;>
      simp [chooseNextColumnLoop, hr, hne, hn, hlt, ih, bind, Except.bind]

/-- On a column without data nodes `cover` followed by `uncover` gives the matrix
back: the two loops are not entered. -/
theorem cover_uncover_empty_column :
    (do let m ← cover 1 twoColsNoRow (twoColsNoRow.colHeader 0)
        uncover 1 m (twoColsNoRow.colHeader 0)) = .ok twoColsNoRow := by
  decide

/-- C1: on the matrix that the constructor and `addRow` build from three
mandatory columns and the row `{0, 1, 2}`, `cover` of column 1 does not return:
whatever the step budget, its inner loop is still running, so the matching
`uncover` is never reached and the matrix is left with column 1 unlinked. -/
theorem cover_then_uncover_never_returns :
    DLXSolver.build 0 3 [[0, 1, 2]] = .ok threeColsOneRow ∧
    (∀ fuel, cover fuel threeColsOneRow (threeColsOneRow.colHeader 1)
      = .error .outOfFuel) ∧
    (∀ fuel, (do
        let m ← cover fuel threeColsOneRow (threeColsOneRow.colHeader 1)
        uncover fuel m (threeColsOneRow.colHeader 1)) ≠ .ok threeColsOneRow) := by
  have hstuck := coverRow_stuck threeColsOneRowStuck (some 5) (some 6) (by decide)
    (by decide) ⟨some 4, by decide⟩
  have h0 : threeColsOneRow.colHeader 1 = some 2 := by decide
  have h1 : detachNodeFromRow threeColsOneRow (some 2) = .ok threeColsOneRowUnlinked := by
    decide
  have h2 : threeColsOneRowUnlinked.down (some 2) = .ok (some 5) := by decide
  have h3 : threeColsOneRowUnlinked.right (some 5) = .ok (some 6) := by decide
  have h4 : detachNodeFromCol threeColsOneRowUnlinked (some 6) = .ok threeColsOneRowStuck := by
    decide
  have h5 : threeColsOneRowStuck.right (some 6) = .ok (some 4) := by decide
  have hcover : ∀ fuel, cover fuel threeColsOneRow (threeColsOneRow.colHeader 1)
      = .error .outOfFuel := by
    intro fuel
    match fuel with
    | 0 => decide
    | 1 => decide
    | j + 2 =>
      simp [cover, coverRows, coverRow, h0, h1, h2, h3, h4, h5, hstuck, bind, Except.bind]
  refine ⟨by decide, hcover, ?_⟩
  intro fuel
  rw [hcover fuel]
  simp [bind, Except.bind]

/-- C2: `solve` returns the empty vector where an exact cover exists (one
mandatory column, the row `{0}`), and on the "Trivial" and "Overlapping"
scenarios it does not return at all: the loop of `chooseNextColumn` is still
running whatever the step budget. -/
theorem solve_misses_exact_covers :
    (DLXSolver.build 0 1 [[0]] = .ok oneColOneRow ∧
      ∀ fuel, solve fuel oneColOneRow = .ok []) ∧
    (DLXSolver.build 0 3 [[0, 1], [1, 2], [0, 2], [0, 1, 2]] = .ok trivialScenario ∧
      ∀ fuel, solve fuel trivialScenario = .error .outOfFuel) ∧
    (DLXSolver.build 0 4 [[0, 1], [2, 3], [0, 2], [1, 3]] = .ok overlappingScenario ∧
      ∀ fuel, solve fuel overlappingScenario = .error .outOfFuel) := by
  refine ⟨⟨by decide, ?_⟩, ⟨by decide, ?_⟩, ⟨by decide, ?_⟩⟩
  · intro fuel
    have h1 : oneColOneRow.right oneColOneRow.matrixHead = .ok (some 1) := by decide
    have h2 : oneColOneRow.right (some 1) = .ok oneColOneRow.matrixHead := by decide
    have h3 : (some 1 : Ptr) ≠ oneColOneRow.matrixHead := by decide
    simp [solve, chooseNextColumn, h1, h2, h3, bind, Except.bind, pure, Except.pure]
  · intro fuel
    have h1 : trivialScenario.right trivialScenario.matrixHead = .ok (some 1) := by decide
    have h2 : trivialScenario.right (some 1) = .ok (some 2) := by decide
    have h3 : (some 1 : Ptr) ≠ trivialScenario.matrixHead := by decide
    have h4 : (some 2 : Ptr) ≠ trivialScenario.matrixHead := by decide
    have h5 : trivialScenario.numOfElements (some 1) = .ok 0 := by decide
    have hloop := chooseNextColumnLoop_stuck trivialScenario (some 1) (some 2) 2 h2 h4
      (by decide)
    simp [solve, chooseNextColumn, h1, h2, h3, h4, h5, hloop, bind, Except.bind]
  · intro fuel
    have h1 : overlappingScenario.right overlappingScenario.matrixHead = .ok (some 1) := by
      decide
    have h2 : overlappingScenario.right (some 1) = .ok (some 2) := by decide
    have h3 : (some 1 : Ptr) ≠ overlappingScenario.matrixHead := by decide
    have h4 : (some 2 : Ptr) ≠ overlappingScenario.matrixHead := by decide
    have h5 : overlappingScenario.numOfElements (some 1) = .ok 0 := by decide
    have hloop := chooseNextColumnLoop_stuck overlappingScenario (some 1) (some 2) 1 h2 h4
      (by decide)
    simp [solve, chooseNextColumn, h1, h2, h3, h4, h5, hloop, bind, Except.bind]

/-- C4: with two mandatory columns and no row, `solve` does not terminate: the
loop of `chooseNextColumn` is still running whatever the step budget. -/
theorem solve_does_not_terminate :
    DLXSolver.build 0 2 [] = .ok twoColsNoRow ∧
    ∀ fuel, solve fuel twoColsNoRow = .error .outOfFuel := by
  refine ⟨by decide, ?_⟩
  intro fuel
  have h1 : twoColsNoRow.right twoColsNoRow.matrixHead = .ok (some 1) := by decide
  have h2 : twoColsNoRow.right (some 1) = .ok (some 2) := by decide
  have h3 : (some 1 : Ptr) ≠ twoColsNoRow.matrixHead := by decide
  have h4 : (some 2 : Ptr) ≠ twoColsNoRow.matrixHead := by decide
  have h5 : twoColsNoRow.numOfElements (some 1) = .ok 0 := by decide
  have hloop := chooseNextColumnLoop_stuck twoColsNoRow (some 1) (some 2) 0 h2 h4
    (by decide)
  simp [solve, chooseNextColumn, h1, h2, h3, h4, h5, hloop, bind, Except.bind]

/-- C5: after `addRow({0, 1})` on a fresh solver with two mandatory columns,
column 1 holds one data node of row 0 and has size 1, but column 0, the first
value in iteration order, holds no data node and still has size 0: the node made
for the first value is linked into the row only. -/
theorem addRow_skips_first_column :
    DLXSolver.build 0 2 [] = .ok twoColsNoRow ∧
    addRow twoColsNoRow [0, 1] = .ok twoColsOneRow ∧
    twoColsNoRow.columnSize 0 = some 0 ∧ twoColsOneRow.columnSize 0 = some 0 ∧
    twoColsOneRow.columnNodes 0 = [] ∧
    twoColsNoRow.columnSize 1 = some 0 ∧ twoColsOneRow.columnSize 1 = some 1 ∧
    twoColsOneRow.columnNodes 1 = [4] ∧
    twoColsOneRow.rowIndex (some 4) = .ok 0 ∧ twoColsOneRow.colIndex (some 4) = .ok 1 ∧
    twoColsOneRow.rowIndex (some 3) = .ok 0 ∧ twoColsOneRow.colIndex (some 3) = .ok 0 ∧
    twoColsOneRow.right (some 3) = .ok (some 4) ∧
    twoColsOneRow.right (some 4) = .ok (some 3) := by
  decide

/-! ## The arithmetic of `float` -/

theorem floor_le_roundHalfEven (t : ℚ) : ⌊t⌋ ≤ roundHalfEven t := by
  unfold roundHalfEven
  split_ifs <;> omega

theorem roundHalfEven_le (t : ℚ) : roundHalfEven t ≤ ⌊t⌋ + 1 := by
  unfold roundHalfEven
  split_ifs <;> omega

theorem roundHalfEven_intCast (n : Int) : roundHalfEven (n : ℚ) = n := by
  unfold roundHalfEven
  simp

/-- The integer within less than a half of `t` is what `t` is rounded to. -/
theorem roundHalfEven_eq_of_abs_lt (t : ℚ) (m : Int) (h : |t - m| < 1 / 2) :
    roundHalfEven t = m := by
  rw [abs_lt] at h
  unfold roundHalfEven
  by_cases hm : (m : ℚ) ≤ t
  · have hf : ⌊t⌋ = m := by
      rw [Int.floor_eq_iff]
      exact ⟨hm, by linarith⟩
    rw [hf, if_pos (by linarith)]
  · have hf : ⌊t⌋ = m - 1 := by
      rw [Int.floor_eq_iff]
      push_cast
      exact ⟨by linarith, by linarith⟩
    rw [hf]
    push_cast
    rw [if_neg (by linarith), if_pos (by linarith)]
    omega

/-- Halfway between two integers the even one is taken. -/
theorem roundHalfEven_tie (t : ℚ) (m : Int) (h : t - m = 1 / 2 ∨ m - t = 1 / 2)
    (hm : m % 2 = 0) : roundHalfEven t = m := by
  rcases h with h | h
  · have hf : ⌊t⌋ = m := by
      rw [Int.floor_eq_iff]
      exact ⟨by linarith, by linarith⟩
    unfold roundHalfEven
    rw [hf, if_neg (by linarith), if_neg (by linarith), if_pos hm]
  · have hf : ⌊t⌋ = m - 1 := by
      rw [Int.floor_eq_iff]
      push_cast
      exact ⟨by linarith, by linarith⟩
    unfold roundHalfEven
    rw [hf]
    push_cast
    rw [if_neg (by linarith), if_neg (by linarith), if_neg (by omega)]
    omega

theorem roundHalfEven_mono (s t : ℚ) (h : s ≤ t) : roundHalfEven s ≤ roundHalfEven t := by
  have hfl : ⌊s⌋ ≤ ⌊t⌋ := Int.floor_mono h
  rcases lt_or_eq_of_le hfl with hlt | heq
  · have h1 := roundHalfEven_le s
    have h2 := floor_le_roundHalfEven t
    omega
  · unfold roundHalfEven
    rw [heq]
    have hst : s - ⌊t⌋ ≤ t - ⌊t⌋ := by linarith
    split_ifs <;> first | omega | (exfalso; linarith)

theorem two_zpow_pos (k : Int) : (0 : ℚ) < 2 ^ k := zpow_pos (by norm_num) k

/-- The rounding of a positive `x` whose significand has its last bit at `2^k`. -/
theorem roundF32_of_bounds (x : ℚ) (k : Int) (h1 : (2 : ℚ) ^ (k + 23) ≤ x)
    (h2 : x < (2 : ℚ) ^ (k + 24)) :
    roundF32 x = (roundHalfEven (x / 2 ^ k) : ℚ) * 2 ^ k := by
  have hx : 0 < x := lt_of_lt_of_le (two_zpow_pos _) h1
  have habs : |x| = x := abs_of_pos hx
  have hlog : Int.log 2 x = k + 23 := by
    have ha : k + 23 ≤ Int.log 2 x := by
      rw [← Int.zpow_le_iff_le_log (by norm_num) hx]
      exact_mod_cast h1
    have hb : Int.log 2 x < k + 24 := by
      rw [← Int.lt_zpow_iff_log_lt (by norm_num) hx]
      exact_mod_cast h2
    omega
  unfold roundF32
  rw [if_neg (ne_of_gt hx), habs, hlog]
  have : k + 23 - 23 = k := by omega
  rw [this]

/-- Every positive number has its significand somewhere. -/
theorem roundF32_exponent_exists (x : ℚ) (hx : 0 < x) :
    ∃ k : Int, (2 : ℚ) ^ (k + 23) ≤ x ∧ x < (2 : ℚ) ^ (k + 24) := by
  refine ⟨Int.log 2 x - 23, ?_, ?_⟩
  · have := Int.zpow_log_le_self (b := 2) (by norm_num) hx
    have e : Int.log 2 x - 23 + 23 = Int.log 2 x := by omega
    rw [e]
    exact_mod_cast this
  · have := Int.lt_zpow_succ_log_self (b := 2) (by norm_num) x
    have e : Int.log 2 x - 23 + 24 = Int.log 2 x + 1 := by omega
    rw [e]
    exact_mod_cast this

theorem two_zpow_add_23 (k : Int) : (2 : ℚ) ^ (k + 23) = 2 ^ (23 : Nat) * 2 ^ k := by
  rw [zpow_add₀ (by norm_num), mul_comm]
  norm_cast

theorem two_zpow_add_24 (k : Int) : (2 : ℚ) ^ (k + 24) = 2 ^ (24 : Nat) * 2 ^ k := by
  rw [zpow_add₀ (by norm_num), mul_comm]
  norm_cast

theorem roundF32_scaled_bounds (x : ℚ) (k : Int) (h1 : (2 : ℚ) ^ (k + 23) ≤ x)
    (h2 : x < (2 : ℚ) ^ (k + 24)) :
    (2 : ℚ) ^ (23 : Nat) ≤ x / 2 ^ k ∧ x / 2 ^ k < (2 : ℚ) ^ (24 : Nat) := by
  have hk := two_zpow_pos k
  have e1 : (2 : ℚ) ^ (k + 23) = 2 ^ (23 : Nat) * 2 ^ k := by
    rw [zpow_add₀ (by norm_num)]
    rw [mul_comm]
    norm_cast
  have e2 : (2 : ℚ) ^ (k + 24) = 2 ^ (24 : Nat) * 2 ^ k := by
    rw [zpow_add₀ (by norm_num)]
    rw [mul_comm]
    norm_cast
  rw [e1] at h1
  rw [e2] at h2
  exact ⟨(le_div_iff₀ hk).2 h1, (div_lt_iff₀ hk).2 h2⟩

/-- The significand after rounding lies between `2^23` and `2^24`. -/
theorem roundHalfEven_scaled (t : ℚ) (h1 : (2 : ℚ) ^ (23 : Nat) ≤ t)
    (h2 : t < (2 : ℚ) ^ (24 : Nat)) :
    (2 : Int) ^ (23 : Nat) ≤ roundHalfEven t ∧ roundHalfEven t ≤ (2 : Int) ^ (24 : Nat) := by
  constructor
  · have := roundHalfEven_mono ((2 : Int) ^ (23 : Nat) : Int) t (by push_cast; exact h1)
    rwa [roundHalfEven_intCast] at this
  · have hfl : ⌊t⌋ < (2 : Int) ^ (24 : Nat) := by
      rw [Int.floor_lt]
      push_cast
      exact h2
    have := roundHalfEven_le t
    omega

theorem roundF32_pos (x : ℚ) (hx : 0 < x) : 0 < roundF32 x := by
  obtain ⟨k, h1, h2⟩ := roundF32_exponent_exists x hx
  rw [roundF32_of_bounds x k h1 h2]
  obtain ⟨s1, s2⟩ := roundF32_scaled_bounds x k h1 h2
  have := (roundHalfEven_scaled _ s1 s2).1
  have hpos : (0 : ℚ) < (roundHalfEven (x / 2 ^ k) : ℚ) := by
    have : (0 : Int) < roundHalfEven (x / 2 ^ k) := by
      have h23 : (0 : Int) < 2 ^ (23 : Nat) := by norm_num
      omega
    exact_mod_cast this
  exact mul_pos hpos (two_zpow_pos k)

/-- Rounding keeps the order. -/
theorem roundF32_mono (x y : ℚ) (hx : 0 < x) (hxy : x ≤ y) : roundF32 x ≤ roundF32 y := by
  have hy : 0 < y := lt_of_lt_of_le hx hxy
  obtain ⟨k, h1, h2⟩ := roundF32_exponent_exists x hx
  obtain ⟨l, g1, g2⟩ := roundF32_exponent_exists y hy
  rw [roundF32_of_bounds x k h1 h2, roundF32_of_bounds y l g1 g2]
  obtain ⟨s1, s2⟩ := roundF32_scaled_bounds x k h1 h2
  obtain ⟨t1, t2⟩ := roundF32_scaled_bounds y l g1 g2
  have hkl : k ≤ l := by
    have : (2 : ℚ) ^ (k + 23) < 2 ^ (l + 24) := lt_of_le_of_lt (le_trans h1 hxy) g2
    have := (zpow_lt_zpow_iff_right₀ (by norm_num : (1 : ℚ) < 2)).1 this
    omega
  rcases lt_or_eq_of_le hkl with hlt | heq
  · have hxm := (roundHalfEven_scaled _ s1 s2).2
    have hym := (roundHalfEven_scaled _ t1 t2).1
    have hxm' : (roundHalfEven (x / 2 ^ k) : ℚ) ≤ 2 ^ (24 : Nat) := by exact_mod_cast hxm
    have hym' : (2 : ℚ) ^ (23 : Nat) ≤ (roundHalfEven (y / 2 ^ l) : ℚ) := by exact_mod_cast hym
    have hpow : (2 : ℚ) ^ (24 : Nat) * 2 ^ k ≤ 2 ^ (23 : Nat) * 2 ^ l := by
      have e1 : (2 : ℚ) ^ (24 : Nat) * 2 ^ k = 2 ^ (k + 24) := by
        rw [zpow_add₀ (by norm_num), mul_comm]
        norm_cast
      have e2 : (2 : ℚ) ^ (23 : Nat) * 2 ^ l = 2 ^ (l + 23) := by
        rw [zpow_add₀ (by norm_num), mul_comm]
        norm_cast
      rw [e1, e2]
      exact (zpow_le_zpow_iff_right₀ (by norm_num : (1 : ℚ) < 2)).2 (by omega)
    calc (roundHalfEven (x / 2 ^ k) : ℚ) * 2 ^ k
        ≤ 2 ^ (24 : Nat) * 2 ^ k := mul_le_mul_of_nonneg_right hxm' (le_of_lt (two_zpow_pos k))
      _ ≤ 2 ^ (23 : Nat) * 2 ^ l := hpow
      _ ≤ (roundHalfEven (y / 2 ^ l) : ℚ) * 2 ^ l :=
          mul_le_mul_of_nonneg_right hym' (le_of_lt (two_zpow_pos l))
  · subst heq
    have hdiv : x / 2 ^ k ≤ y / 2 ^ k := div_le_div_of_nonneg_right hxy (le_of_lt (two_zpow_pos k))
    have := roundHalfEven_mono _ _ hdiv
    have h' : (roundHalfEven (x / 2 ^ k) : ℚ) ≤ (roundHalfEven (y / 2 ^ k) : ℚ) := by
      exact_mod_cast this
    exact mul_le_mul_of_nonneg_right h' (le_of_lt (two_zpow_pos k))

/-- A rounded number is a `float`: rounding it again changes nothing. -/
theorem roundF32_idem (x : ℚ) (hx : 0 < x) : roundF32 (roundF32 x) = roundF32 x := by
  obtain ⟨k, h1, h2⟩ := roundF32_exponent_exists x hx
  obtain ⟨s1, s2⟩ := roundF32_scaled_bounds x k h1 h2
  obtain ⟨m1, m2⟩ := roundHalfEven_scaled _ s1 s2
  rw [roundF32_of_bounds x k h1 h2]
  set m := roundHalfEven (x / 2 ^ k) with hm
  have hk := two_zpow_pos k
  rcases lt_or_eq_of_le m2 with hlt | heq
  · have b1 : (2 : ℚ) ^ (k + 23) ≤ (m : ℚ) * 2 ^ k := by
      rw [zpow_add₀ (by norm_num), mul_comm]
      refine mul_le_mul_of_nonneg_right ?_ (le_of_lt hk)
      have : ((2 : Int) ^ (23 : Nat) : Int) ≤ m := m1
      exact_mod_cast this
    have b2 : (m : ℚ) * 2 ^ k < (2 : ℚ) ^ (k + 24) := by
      rw [zpow_add₀ (by norm_num), mul_comm ((2 : ℚ) ^ k)]
      refine mul_lt_mul_of_pos_right ?_ hk
      exact_mod_cast hlt
    rw [roundF32_of_bounds _ k b1 b2, mul_div_assoc, div_self (ne_of_gt hk), mul_one,
      roundHalfEven_intCast]
  · have hk1 := two_zpow_pos (k + 1)
    have e : (m : ℚ) * 2 ^ k = 2 ^ (23 : Nat) * 2 ^ (k + 1) := by
      rw [heq, zpow_add₀ (by norm_num)]
      push_cast
      ring
    have b1 : (2 : ℚ) ^ (k + 1 + 23) ≤ (m : ℚ) * 2 ^ k := by
      rw [e, two_zpow_add_23 (k + 1)]
    have b2 : (m : ℚ) * 2 ^ k < (2 : ℚ) ^ (k + 1 + 24) := by
      rw [e, two_zpow_add_24 (k + 1)]
      exact mul_lt_mul_of_pos_right (by norm_num) hk1
    rw [roundF32_of_bounds _ (k + 1) b1 b2, e, mul_div_assoc, div_self (ne_of_gt hk1), mul_one]
    have : ((2 : ℚ) ^ (23 : Nat)) = (((2 : Int) ^ (23 : Nat) : Int) : ℚ) := by push_cast; rfl
    rw [this, roundHalfEven_intCast]

/-- The value `m / 2^n`, of a significand `m` between `2^23` and `2^24`, is what
a number within less than half a last place of it is rounded to, and a number
half a last place away when `m` is even. -/
theorem roundF32_eq_of_div (x v : ℚ) (m : Int) (n : Nat)
    (h1 : (2 : ℚ) ^ (23 : Nat) ≤ x * 2 ^ n) (h2 : x * 2 ^ n < (2 : ℚ) ^ (24 : Nat))
    (h3 : |x * 2 ^ n - m| < 1 / 2 ∨
      ((x * 2 ^ n - m = 1 / 2 ∨ m - x * 2 ^ n = 1 / 2) ∧ m % 2 = 0))
    (hv : v = (m : ℚ) / 2 ^ n) : roundF32 x = v := by
  have hn : (0 : ℚ) < 2 ^ n := pow_pos (by norm_num) n
  have ek : (2 : ℚ) ^ (-(n : Int)) = 1 / 2 ^ n := by
    rw [zpow_neg, zpow_natCast, one_div]
  have b1 : (2 : ℚ) ^ (-(n : Int) + 23) ≤ x := by
    rw [two_zpow_add_23, ek]
    have : ((2 : ℚ) ^ (23 : Nat) * (1 / 2 ^ n)) = 2 ^ (23 : Nat) / 2 ^ n := by ring
    rw [this, div_le_iff₀ hn]
    exact h1
  have b2 : x < (2 : ℚ) ^ (-(n : Int) + 24) := by
    rw [two_zpow_add_24, ek]
    have : ((2 : ℚ) ^ (24 : Nat) * (1 / 2 ^ n)) = 2 ^ (24 : Nat) / 2 ^ n := by ring
    rw [this, lt_div_iff₀ hn]
    exact h2
  rw [roundF32_of_bounds x _ b1 b2, ek, hv]
  have e : x / (1 / 2 ^ n) = x * 2 ^ n := by
    field_simp
  rw [e]
  rcases h3 with h3 | ⟨h3, hm⟩
  · rw [roundHalfEven_eq_of_abs_lt _ m h3]
    ring
  · rw [roundHalfEven_tie _ m h3 hm]
    ring

/-- The same for a last place `2^n` above the binary point. -/
theorem roundF32_eq_of_mul (x v : ℚ) (m : Int) (n : Nat)
    (h1 : (2 : ℚ) ^ (23 : Nat) ≤ x / 2 ^ n) (h2 : x / 2 ^ n < (2 : ℚ) ^ (24 : Nat))
    (h3 : |x / 2 ^ n - m| < 1 / 2 ∨
      ((x / 2 ^ n - m = 1 / 2 ∨ m - x / 2 ^ n = 1 / 2) ∧ m % 2 = 0))
    (hv : v = (m : ℚ) * 2 ^ n) : roundF32 x = v := by
  have hn : (0 : ℚ) < 2 ^ n := pow_pos (by norm_num) n
  have b1 : (2 : ℚ) ^ ((n : Int) + 23) ≤ x := by
    rw [two_zpow_add_23, zpow_natCast, ← le_div_iff₀ hn]
    exact h1
  have b2 : x < (2 : ℚ) ^ ((n : Int) + 24) := by
    rw [two_zpow_add_24, zpow_natCast, ← div_lt_iff₀ hn]
    exact h2
  rw [roundF32_of_bounds x _ b1 b2, zpow_natCast, hv]
  rcases h3 with h3 | ⟨h3, hm⟩
  · rw [roundHalfEven_eq_of_abs_lt _ m h3]
  · rw [roundHalfEven_tie _ m h3 hm]

/-- The error of rounding is at most half a last place, which is at most the
`2^24`-th part of the number. -/
theorem roundF32_error (x : ℚ) (hx : 0 < x) : |roundF32 x - x| ≤ x / 2 ^ (24 : Nat) := by
  obtain ⟨k, h1, h2⟩ := roundF32_exponent_exists x hx
  rw [roundF32_of_bounds x k h1 h2]
  have hk := two_zpow_pos k
  have habs : |(roundHalfEven (x / 2 ^ k) : ℚ) - x / 2 ^ k| ≤ 1 / 2 := by
    have hfl := Int.floor_le (x / 2 ^ k)
    have hlt := Int.lt_floor_add_one (x / 2 ^ k)
    rw [abs_le]
    unfold roundHalfEven
    split_ifs <;> push_cast <;> constructor <;> linarith
  have e : (roundHalfEven (x / 2 ^ k) : ℚ) * 2 ^ k - x
      = ((roundHalfEven (x / 2 ^ k) : ℚ) - x / 2 ^ k) * 2 ^ k := by
    field_simp
  rw [e, abs_mul, abs_of_pos hk]
  have h23 : (2 : ℚ) ^ (23 : Nat) * 2 ^ k ≤ x := by
    rw [← two_zpow_add_23]
    exact h1
  calc |(roundHalfEven (x / 2 ^ k) : ℚ) - x / 2 ^ k| * 2 ^ k
      ≤ 1 / 2 * 2 ^ k := mul_le_mul_of_nonneg_right habs (le_of_lt hk)
    _ = (2 : ℚ) ^ (23 : Nat) * 2 ^ k / 2 ^ (24 : Nat) := by norm_num; ring
    _ ≤ x / 2 ^ (24 : Nat) := div_le_div_of_nonneg_right h23 (by norm_num)

theorem roundF32_one : roundF32 1 = 1 :=
  roundF32_eq_of_div _ _ 8388608 23 (by norm_num) (by norm_num) (Or.inl (by norm_num [abs_lt]))
    (by norm_num)

/-- Rounding changes a positive number by a factor between `1 - u` and `1 + u`. -/
theorem roundF32_near (x : ℚ) (hx : 0 < x) :
    (1 - 1 / 2 ^ (24 : Nat)) * x ≤ roundF32 x ∧ roundF32 x ≤ (1 + 1 / 2 ^ (24 : Nat)) * x := by
  have h := roundF32_error x hx
  rw [abs_le] at h
  constructor <;> linarith [h.1, h.2]

/-- One term of the grade: the rounded product of a weight and the rounded
quotient of two rounded numbers, against the exact product. -/
theorem f32_term_near (u A B w a b q p : ℚ) (hu : 0 < u) (hu1 : u < 1) (hA : 0 < A)
    (hB : 0 < B) (hw : 0 < w)
    (ha : (1 - u) * A ≤ a ∧ a ≤ (1 + u) * A) (hb : (1 - u) * B ≤ b ∧ b ≤ (1 + u) * B)
    (hq : (1 - u) * (a / b) ≤ q ∧ q ≤ (1 + u) * (a / b))
    (hp : (1 - u) * (q * w) ≤ p ∧ p ≤ (1 + u) * (q * w)) :
    (1 - u) ^ 3 / (1 + u) * (A / B * w) ≤ p ∧ p ≤ (1 + u) ^ 3 / (1 - u) * (A / B * w) := by
  have h1u : 0 < 1 - u := by linarith
  have h1u' : 0 < 1 + u := by linarith
  have ha0 : 0 < a := lt_of_lt_of_le (mul_pos h1u hA) ha.1
  have hb0 : 0 < b := lt_of_lt_of_le (mul_pos h1u hB) hb.1
  have hab0 : 0 < a / b := div_pos ha0 hb0
  have hq0 : 0 < q := lt_of_lt_of_le (mul_pos h1u hab0) hq.1
  have hdiv_up : a / b ≤ ((1 + u) * A) / ((1 - u) * B) :=
    div_le_div₀ (le_of_lt (mul_pos h1u' hA)) ha.2 (mul_pos h1u hB) hb.1
  have hdiv_lo : ((1 - u) * A) / ((1 + u) * B) ≤ a / b :=
    div_le_div₀ (le_of_lt ha0) ha.1 hb0 hb.2
  constructor
  · have e : (1 - u) ^ 3 / (1 + u) * (A / B * w)
        = (1 - u) * ((1 - u) * (((1 - u) * A) / ((1 + u) * B)) * w) := by
      field_simp
      ring
    rw [e]
    refine le_trans ?_ hp.1
    refine mul_le_mul_of_nonneg_left ?_ (le_of_lt h1u)
    refine mul_le_mul_of_nonneg_right ?_ (le_of_lt hw)
    refine le_trans ?_ hq.1
    exact mul_le_mul_of_nonneg_left hdiv_lo (le_of_lt h1u)
  · have e : (1 + u) ^ 3 / (1 - u) * (A / B * w)
        = (1 + u) * ((1 + u) * (((1 + u) * A) / ((1 - u) * B)) * w) := by
      field_simp
      ring
    rw [e]
    refine le_trans hp.2 ?_
    refine mul_le_mul_of_nonneg_left ?_ (le_of_lt h1u')
    refine mul_le_mul_of_nonneg_right ?_ (le_of_lt hw)
    refine le_trans hq.2 ?_
    exact mul_le_mul_of_nonneg_left hdiv_up (le_of_lt h1u')

/-- One term of the grade as the code computes it, against the exact product. -/
theorem f32_term_bounds (A B w : ℚ) (hA : 0 < A) (hB : 0 < B) (hw : 0 < w) :
    (1 - 1 / 2 ^ (24 : Nat)) ^ 3 / (1 + 1 / 2 ^ (24 : Nat)) * (A / B * w)
        ≤ f32Mul (f32Div (roundF32 A) (roundF32 B)) w ∧
      f32Mul (f32Div (roundF32 A) (roundF32 B)) w
        ≤ (1 + 1 / 2 ^ (24 : Nat)) ^ 3 / (1 - 1 / 2 ^ (24 : Nat)) * (A / B * w) ∧
      0 < f32Mul (f32Div (roundF32 A) (roundF32 B)) w := by
  have ha0 := roundF32_pos A hA
  have hb0 := roundF32_pos B hB
  have hq0 : 0 < f32Div (roundF32 A) (roundF32 B) := roundF32_pos _ (div_pos ha0 hb0)
  have hp0 : 0 < f32Mul (f32Div (roundF32 A) (roundF32 B)) w := roundF32_pos _ (mul_pos hq0 hw)
  have h := f32_term_near (1 / 2 ^ (24 : Nat)) A B w (roundF32 A) (roundF32 B)
    (f32Div (roundF32 A) (roundF32 B)) (f32Mul (f32Div (roundF32 A) (roundF32 B)) w)
    (by norm_num) (by norm_num) hA hB hw (roundF32_near A hA) (roundF32_near B hB)
    (roundF32_near _ (div_pos ha0 hb0)) (roundF32_near _ (mul_pos hq0 hw))
  exact ⟨h.1, h.2, hp0⟩

/-! ## The grader -/

theorem minLoop_mem (m : Int) (vs : List Int) : minLoop m vs ∈ m :: vs := by
  induction vs generalizing m with
  | nil => simp [minLoop]
  | cons v vs ih =>
    simp only [minLoop]
    split
    · have := ih v
      simp only [List.mem_cons] at this ⊢
      tauto
    · have := ih m
      simp only [List.mem_cons] at this ⊢
      tauto

theorem minLoop_le (m : Int) (vs : List Int) : ∀ x ∈ m :: vs, minLoop m vs ≤ x := by
  induction vs generalizing m with
  | nil => simp [minLoop]
  | cons v vs ih =>
    intro x hx
    simp only [minLoop]
    split
    · next hlt =>
      have h1 := ih v
      simp only [List.mem_cons, forall_eq_or_imp] at h1 hx
      rcases hx with rfl | rfl | hx
      · omega
      · exact h1.1
      · exact h1.2 x hx
    · next hge =>
      have h1 := ih m
      simp only [List.mem_cons, forall_eq_or_imp] at h1 hx
      rcases hx with rfl | rfl | hx
      · exact h1.1
      · omega
      · exact h1.2 x hx

theorem minLoop_eq (m0 : Int) (vs : List Int) (m : Int) (h : IsMinOf m (m0 :: vs)) :
    minLoop m0 vs = m := by
  have h1 := minLoop_le m0 vs m h.1
  have h2 := h.2 _ (minLoop_mem m0 vs)
  omega

/-- The grading loop succeeds when every position it reads exists, and stores
the grade of every position. -/
theorem gradesLoop_ok (wB wK : ℚ) (mB mK : Int) (K : List Int) :
    ∀ (bs : List Int) (index : Nat), index + bs.length ≤ K.length →
      ∃ grades, gradesLoop wB wK mB mK K bs index = .ok grades ∧
        grades.map Prod.snd = List.range' index bs.length ∧
        ∀ t b k, bs.get? t = some b → K.get? (index + t) = some k →
          (storedGrade wB wK mB b mK k, index + t) ∈ grades := by
  intro bs
  induction bs with
  | nil => intro index _; exact ⟨[], rfl, rfl, by simp⟩
  | cons b bs ih =>
    intro index hlen
    simp only [List.length_cons] at hlen
    obtain ⟨rest, hrest, hsnd, hmem⟩ := ih (index + 1) (by omega)
    have hk : index < K.length := by omega
    obtain ⟨k, hk'⟩ : ∃ k, K.get? index = some k := ⟨K.get ⟨index, hk⟩, List.get?_eq_get hk⟩
    refine ⟨(storedGrade wB wK mB b mK k, index) :: rest, ?_, ?_, ?_⟩
    · have hk'' : K[index]? = some k := by simpa using hk'
      simp [gradesLoop, storedGrade, hk'', hrest, bind, Except.bind, pure, Except.pure]
    · simp [hsnd, List.range'_succ]
    · intro t b' k' hb hk2
      cases t with
      | zero =>
        simp only [List.get?_cons_zero, Option.some.injEq] at hb
        simp only [Nat.add_zero] at hk2 ⊢
        rw [hk'] at hk2
        cases hk2
        subst hb
        exact List.mem_cons_self _ _
      | succ t =>
        simp only [List.get?_cons_succ] at hb
        have := hmem t b' k' hb (by rw [← hk2]; congr 1; omega)
        refine List.mem_cons_of_mem _ ?_
        have he : index + (t + 1) = index + 1 + t := by omega
        rw [he]
        exact this

/-- The vector before sorting, for non-empty inputs of equal length. -/
theorem gradesBeforeSort_ok (wB wK : ℚ) (B K : List Int) (hB : B ≠ [])
    (hlen : B.length = K.length) (minB minK : Int) (hminB : IsMinOf minB B)
    (hminK : IsMinOf minK K) :
    ∃ grades, gradesBeforeSort wB wK B K = .ok grades ∧
      grades.map Prod.snd = List.range B.length ∧
      ∀ i b k, B.get? i = some b → K.get? i = some k →
        (storedGrade wB wK minB b minK k, i) ∈ grades := by
  match B, K, hB, hlen, hminB, hminK with
  | b0 :: bs, k0 :: ks, _, hlen, hminB, hminK =>
    have e1 := minLoop_eq b0 bs minB hminB
    have e2 := minLoop_eq k0 ks minK hminK
    obtain ⟨grades, hg, hsnd, hmem⟩ :=
      gradesLoop_ok wB wK minB minK (k0 :: ks) (b0 :: bs) 0 (by simp [hlen])
    refine ⟨grades, ?_, ?_, ?_⟩
    · simp only [gradesBeforeSort, e1, e2]
      exact hg
    · rw [hsnd, List.range_eq_range']
    · intro i b k hb hk
      have := hmem i b k hb (by simpa using hk)
      simpa using this
  | b0 :: bs, [], _, hlen, _, _ => simp at hlen

/-- Every vector has a rearrangement that meets the guarantee of `std::sort` for
`wayToSort`. -/
theorem stdSortPost_exists (grades : List GradeIndex) :
    ∃ result, stdSortPost wayToSort grades result := by
  let r : GradeIndex → GradeIndex → Prop := fun x y => y.1 ≤ x.1
  haveI : DecidableRel r := fun x y => inferInstanceAs (Decidable (y.1 ≤ x.1))
  haveI : IsTotal GradeIndex r := ⟨fun a b => le_total b.1 a.1⟩
  haveI : IsTrans GradeIndex r := ⟨fun a b c hab hbc => le_trans hbc hab⟩
  refine ⟨List.insertionSort r grades, List.perm_insertionSort r grades, ?_⟩
  have hs := List.sorted_insertionSort r grades
  refine List.Pairwise.imp ?_ hs
  intro x y hxy
  simpa [wayToSort, r] using hxy

/-- The product of `1.0f` and a converted positive `int` is the converted `int`. -/
theorem f32Mul_one_ofInt (n : Int) (hn : 0 < n) : f32Mul 1 (f32OfInt n) = f32OfInt n := by
  unfold f32Mul f32OfInt
  rw [one_mul]
  exact roundF32_idem _ (by exact_mod_cast hn)

/-- The stored grade of positive operands without the two products by `1.0f`. -/
theorem storedGrade_of_pos (wB wK : ℚ) (mB b mK k : Int) (h1 : 0 < mB) (h2 : 0 < b)
    (h3 : 0 < mK) (h4 : 0 < k) :
    storedGrade wB wK mB b mK k =
      f32Add (f32Mul (f32Div (f32OfInt mB) (f32OfInt b)) wB)
        (f32Mul (f32Div (f32OfInt mK) (f32OfInt k)) wK) := by
  unfold storedGrade
  rw [f32Mul_one_ofInt mB h1, f32Mul_one_ofInt b h2, f32Mul_one_ofInt mK h3,
    f32Mul_one_ofInt k h4]

/-- The stored grade from the values of its nine roundings. -/
theorem storedGrade_eval (wB wK : ℚ) (mB b mK k : Int) (a b' q p c d r s g : ℚ)
    (h1 : 0 < mB) (h2 : 0 < b) (h3 : 0 < mK) (h4 : 0 < k)
    (ha : roundF32 (mB : ℚ) = a) (hb : roundF32 (b : ℚ) = b') (hq : roundF32 (a / b') = q)
    (hp : roundF32 (q * wB) = p) (hc : roundF32 (mK : ℚ) = c) (hd : roundF32 (k : ℚ) = d)
    (hr : roundF32 (c / d) = r) (hs : roundF32 (r * wK) = s) (hg : roundF32 (p + s) = g) :
    storedGrade wB wK mB b mK k = g := by
  rw [storedGrade_of_pos wB wK mB b mK k h1 h2 h3 h4]
  unfold f32Add f32Mul f32Div f32OfInt
  rw [ha, hb, hq, hp, hc, hd, hr, hs, hg]

/-- The `float` nearest to 0.6. -/
theorem BOUNDING_BOX_WEIGHT_eq : BOUNDING_BOX_WEIGHT = 10066330 / 16777216 :=
  roundF32_eq_of_div _ _ 10066330 24 (by norm_num) (by norm_num)
    (Or.inl (by norm_num [abs_lt])) (by norm_num)

/-- The `float` nearest to 0.4. -/
theorem NUM_OF_PARTS_WEIGHT_eq : NUM_OF_PARTS_WEIGHT = 13421773 / 33554432 :=
  roundF32_eq_of_div _ _ 13421773 25 (by norm_num) (by norm_num)
    (Or.inl (by norm_num [abs_lt])) (by norm_num)

/-- The stored grade for the minima 4 and 2 at a result of bounding box 4 and 4
parts. -/
theorem storedGrade_4_4_2_4 :
    storedGrade BOUNDING_BOX_WEIGHT NUM_OF_PARTS_WEIGHT 4 4 2 4
      = 13421773 / 16777216 := by
  rw [BOUNDING_BOX_WEIGHT_eq, NUM_OF_PARTS_WEIGHT_eq]
  exact storedGrade_eval _ _ 4 4 2 4
    (4) (4) (1) (5033165 / 8388608)
    (2) (4) (1 / 2) (13421773 / 67108864) _
    (by decide) (by decide) (by decide) (by decide)
    (roundF32_eq_of_div _ _ 8388608 21 (by norm_num) (by norm_num)
      (Or.inl (by norm_num [abs_lt])) (by norm_num))
    (roundF32_eq_of_div _ _ 8388608 21 (by norm_num) (by norm_num)
      (Or.inl (by norm_num [abs_lt])) (by norm_num))
    (roundF32_eq_of_div _ _ 8388608 23 (by norm_num) (by norm_num)
      (Or.inl (by norm_num [abs_lt])) (by norm_num))
    (roundF32_eq_of_div _ _ 10066330 24 (by norm_num) (by norm_num)
      (Or.inl (by norm_num [abs_lt])) (by norm_num))
    (roundF32_eq_of_div _ _ 8388608 22 (by norm_num) (by norm_num)
      (Or.inl (by norm_num [abs_lt])) (by norm_num))
    (roundF32_eq_of_div _ _ 8388608 21 (by norm_num) (by norm_num)
      (Or.inl (by norm_num [abs_lt])) (by norm_num))
    (roundF32_eq_of_div _ _ 8388608 24 (by norm_num) (by norm_num)
      (Or.inl (by norm_num [abs_lt])) (by norm_num))
    (roundF32_eq_of_div _ _ 13421773 26 (by norm_num) (by norm_num)
      (Or.inl (by norm_num [abs_lt])) (by norm_num))
    (roundF32_eq_of_div _ _ 13421773 24 (by norm_num) (by norm_num)
      (Or.inl (by norm_num [abs_lt])) (by norm_num))

/-- The stored grade for the minima 4 and 2 at a result of bounding box 4 and 2
parts. -/
theorem storedGrade_4_4_2_2 :
    storedGrade BOUNDING_BOX_WEIGHT NUM_OF_PARTS_WEIGHT 4 4 2 2
      = 1 := by
  rw [BOUNDING_BOX_WEIGHT_eq, NUM_OF_PARTS_WEIGHT_eq]
  exact storedGrade_eval _ _ 4 4 2 2
    (4) (4) (1) (5033165 / 8388608)
    (2) (2) (1) (13421773 / 33554432) _
    (by decide) (by decide) (by decide) (by decide)
    (roundF32_eq_of_div _ _ 8388608 21 (by norm_num) (by norm_num)
      (Or.inl (by norm_num [abs_lt])) (by norm_num))
    (roundF32_eq_of_div _ _ 8388608 21 (by norm_num) (by norm_num)
      (Or.inl (by norm_num [abs_lt])) (by norm_num))
    (roundF32_eq_of_div _ _ 8388608 23 (by norm_num) (by norm_num)
      (Or.inl (by norm_num [abs_lt])) (by norm_num))
    (roundF32_eq_of_div _ _ 10066330 24 (by norm_num) (by norm_num)
      (Or.inl (by norm_num [abs_lt])) (by norm_num))
    (roundF32_eq_of_div _ _ 8388608 22 (by norm_num) (by norm_num)
      (Or.inl (by norm_num [abs_lt])) (by norm_num))
    (roundF32_eq_of_div _ _ 8388608 22 (by norm_num) (by norm_num)
      (Or.inl (by norm_num [abs_lt])) (by norm_num))
    (roundF32_eq_of_div _ _ 8388608 23 (by norm_num) (by norm_num)
      (Or.inl (by norm_num [abs_lt])) (by norm_num))
    (roundF32_eq_of_div _ _ 13421773 25 (by norm_num) (by norm_num)
      (Or.inl (by norm_num [abs_lt])) (by norm_num))
    (roundF32_eq_of_div _ _ 8388608 23 (by norm_num) (by norm_num)
      (Or.inl (by norm_num [abs_lt])) (by norm_num))

/-- The stored grade for the minima 4 and 2 at a result of bounding box 9 and 2
parts. -/
theorem storedGrade_4_9_2_2 :
    storedGrade BOUNDING_BOX_WEIGHT NUM_OF_PARTS_WEIGHT 4 9 2 2
      = 11184811 / 16777216 := by
  rw [BOUNDING_BOX_WEIGHT_eq, NUM_OF_PARTS_WEIGHT_eq]
  exact storedGrade_eval _ _ 4 9 2 2
    (4) (9) (14913081 / 33554432) (8947849 / 33554432)
    (2) (2) (1) (13421773 / 33554432) _
    (by decide) (by decide) (by decide) (by decide)
    (roundF32_eq_of_div _ _ 8388608 21 (by norm_num) (by norm_num)
      (Or.inl (by norm_num [abs_lt])) (by norm_num))
    (roundF32_eq_of_div _ _ 9437184 20 (by norm_num) (by norm_num)
      (Or.inl (by norm_num [abs_lt])) (by norm_num))
    (roundF32_eq_of_div _ _ 14913081 25 (by norm_num) (by norm_num)
      (Or.inl (by norm_num [abs_lt])) (by norm_num))
    (roundF32_eq_of_div _ _ 8947849 25 (by norm_num) (by norm_num)
      (Or.inl (by norm_num [abs_lt])) (by norm_num))
    (roundF32_eq_of_div _ _ 8388608 22 (by norm_num) (by norm_num)
      (Or.inl (by norm_num [abs_lt])) (by norm_num))
    (roundF32_eq_of_div _ _ 8388608 22 (by norm_num) (by norm_num)
      (Or.inl (by norm_num [abs_lt])) (by norm_num))
    (roundF32_eq_of_div _ _ 8388608 23 (by norm_num) (by norm_num)
      (Or.inl (by norm_num [abs_lt])) (by norm_num))
    (roundF32_eq_of_div _ _ 13421773 25 (by norm_num) (by norm_num)
      (Or.inl (by norm_num [abs_lt])) (by norm_num))
    (roundF32_eq_of_div _ _ 11184811 24 (by norm_num) (by norm_num)
      (Or.inl (by norm_num [abs_lt])) (by norm_num))

/-- The stored grade for the minima 1871 and 976 at a result of bounding box 1871 and 3687
parts. -/
theorem storedGrade_1871_1871_976_3687 :
    storedGrade BOUNDING_BOX_WEIGHT NUM_OF_PARTS_WEIGHT 1871 1871 976 3687
      = 11842795 / 16777216 := by
  rw [BOUNDING_BOX_WEIGHT_eq, NUM_OF_PARTS_WEIGHT_eq]
  exact storedGrade_eval _ _ 1871 1871 976 3687
    (1871) (1871) (1) (5033165 / 8388608)
    (976) (3687) (8882323 / 33554432) (14211717 / 134217728) _
    (by decide) (by decide) (by decide) (by decide)
    (roundF32_eq_of_div _ _ 15327232 13 (by norm_num) (by norm_num)
      (Or.inl (by norm_num [abs_lt])) (by norm_num))
    (roundF32_eq_of_div _ _ 15327232 13 (by norm_num) (by norm_num)
      (Or.inl (by norm_num [abs_lt])) (by norm_num))
    (roundF32_eq_of_div _ _ 8388608 23 (by norm_num) (by norm_num)
      (Or.inl (by norm_num [abs_lt])) (by norm_num))
    (roundF32_eq_of_div _ _ 10066330 24 (by norm_num) (by norm_num)
      (Or.inl (by norm_num [abs_lt])) (by norm_num))
    (roundF32_eq_of_div _ _ 15990784 14 (by norm_num) (by norm_num)
      (Or.inl (by norm_num [abs_lt])) (by norm_num))
    (roundF32_eq_of_div _ _ 15101952 12 (by norm_num) (by norm_num)
      (Or.inl (by norm_num [abs_lt])) (by norm_num))
    (roundF32_eq_of_div _ _ 8882323 25 (by norm_num) (by norm_num)
      (Or.inl (by norm_num [abs_lt])) (by norm_num))
    (roundF32_eq_of_div _ _ 14211717 27 (by norm_num) (by norm_num)
      (Or.inl (by norm_num [abs_lt])) (by norm_num))
    (roundF32_eq_of_div _ _ 11842795 24 (by norm_num) (by norm_num)
      (Or.inl (by norm_num [abs_lt])) (by norm_num))

/-- The stored grade for the minima 1871 and 976 at a result of bounding box 3670 and 976
parts. -/
theorem storedGrade_1871_3670_976_976 :
    storedGrade BOUNDING_BOX_WEIGHT NUM_OF_PARTS_WEIGHT 1871 3670 976 976
      = 11842794 / 16777216 := by
  rw [BOUNDING_BOX_WEIGHT_eq, NUM_OF_PARTS_WEIGHT_eq]
  exact storedGrade_eval _ _ 1871 3670 976 976
    (1871) (3670) (2138295 / 4194304) (1282977 / 4194304)
    (976) (976) (1) (13421773 / 33554432) _
    (by decide) (by decide) (by decide) (by decide)
    (roundF32_eq_of_div _ _ 15327232 13 (by norm_num) (by norm_num)
      (Or.inl (by norm_num [abs_lt])) (by norm_num))
    (roundF32_eq_of_div _ _ 15032320 12 (by norm_num) (by norm_num)
      (Or.inl (by norm_num [abs_lt])) (by norm_num))
    (roundF32_eq_of_div _ _ 8553180 24 (by norm_num) (by norm_num)
      (Or.inl (by norm_num [abs_lt])) (by norm_num))
    (roundF32_eq_of_div _ _ 10263816 25 (by norm_num) (by norm_num)
      (Or.inl (by norm_num [abs_lt])) (by norm_num))
    (roundF32_eq_of_div _ _ 15990784 14 (by norm_num) (by norm_num)
      (Or.inl (by norm_num [abs_lt])) (by norm_num))
    (roundF32_eq_of_div _ _ 15990784 14 (by norm_num) (by norm_num)
      (Or.inl (by norm_num [abs_lt])) (by norm_num))
    (roundF32_eq_of_div _ _ 8388608 23 (by norm_num) (by norm_num)
      (Or.inl (by norm_num [abs_lt])) (by norm_num))
    (roundF32_eq_of_div _ _ 13421773 25 (by norm_num) (by norm_num)
      (Or.inl (by norm_num [abs_lt])) (by norm_num))
    (roundF32_eq_of_div _ _ 11842794 24 (by norm_num) (by norm_num)
      (Or.inr ⟨Or.inl (by norm_num), by decide⟩) (by norm_num))

/-- The stored grade for the minima 16777216 and 1 at a result of bounding box 16777216 and 1
parts. -/
theorem storedGrade_16777216_16777216_1_1 :
    storedGrade BOUNDING_BOX_WEIGHT NUM_OF_PARTS_WEIGHT 16777216 16777216 1 1
      = 1 := by
  rw [BOUNDING_BOX_WEIGHT_eq, NUM_OF_PARTS_WEIGHT_eq]
  exact storedGrade_eval _ _ 16777216 16777216 1 1
    (16777216) (16777216) (1) (5033165 / 8388608)
    (1) (1) (1) (13421773 / 33554432) _
    (by decide) (by decide) (by decide) (by decide)
    (roundF32_eq_of_mul _ _ 8388608 1 (by norm_num) (by norm_num)
      (Or.inl (by norm_num [abs_lt])) (by norm_num))
    (roundF32_eq_of_mul _ _ 8388608 1 (by norm_num) (by norm_num)
      (Or.inl (by norm_num [abs_lt])) (by norm_num))
    (roundF32_eq_of_div _ _ 8388608 23 (by norm_num) (by norm_num)
      (Or.inl (by norm_num [abs_lt])) (by norm_num))
    (roundF32_eq_of_div _ _ 10066330 24 (by norm_num) (by norm_num)
      (Or.inl (by norm_num [abs_lt])) (by norm_num))
    (roundF32_eq_of_div _ _ 8388608 23 (by norm_num) (by norm_num)
      (Or.inl (by norm_num [abs_lt])) (by norm_num))
    (roundF32_eq_of_div _ _ 8388608 23 (by norm_num) (by norm_num)
      (Or.inl (by norm_num [abs_lt])) (by norm_num))
    (roundF32_eq_of_div _ _ 8388608 23 (by norm_num) (by norm_num)
      (Or.inl (by norm_num [abs_lt])) (by norm_num))
    (roundF32_eq_of_div _ _ 13421773 25 (by norm_num) (by norm_num)
      (Or.inl (by norm_num [abs_lt])) (by norm_num))
    (roundF32_eq_of_div _ _ 8388608 23 (by norm_num) (by norm_num)
      (Or.inl (by norm_num [abs_lt])) (by norm_num))

/-- The stored grade for the minima 16777216 and 1 at a result of bounding box 16777217 and 1
parts. -/
theorem storedGrade_16777216_16777217_1_1 :
    storedGrade BOUNDING_BOX_WEIGHT NUM_OF_PARTS_WEIGHT 16777216 16777217 1 1
      = 1 := by
  rw [BOUNDING_BOX_WEIGHT_eq, NUM_OF_PARTS_WEIGHT_eq]
  exact storedGrade_eval _ _ 16777216 16777217 1 1
    (16777216) (16777216) (1) (5033165 / 8388608)
    (1) (1) (1) (13421773 / 33554432) _
    (by decide) (by decide) (by decide) (by decide)
    (roundF32_eq_of_mul _ _ 8388608 1 (by norm_num) (by norm_num)
      (Or.inl (by norm_num [abs_lt])) (by norm_num))
    (roundF32_eq_of_mul _ _ 8388608 1 (by norm_num) (by norm_num)
      (Or.inr ⟨Or.inl (by norm_num), by decide⟩) (by norm_num))
    (roundF32_eq_of_div _ _ 8388608 23 (by norm_num) (by norm_num)
      (Or.inl (by norm_num [abs_lt])) (by norm_num))
    (roundF32_eq_of_div _ _ 10066330 24 (by norm_num) (by norm_num)
      (Or.inl (by norm_num [abs_lt])) (by norm_num))
    (roundF32_eq_of_div _ _ 8388608 23 (by norm_num) (by norm_num)
      (Or.inl (by norm_num [abs_lt])) (by norm_num))
    (roundF32_eq_of_div _ _ 8388608 23 (by norm_num) (by norm_num)
      (Or.inl (by norm_num [abs_lt])) (by norm_num))
    (roundF32_eq_of_div _ _ 8388608 23 (by norm_num) (by norm_num)
      (Or.inl (by norm_num [abs_lt])) (by norm_num))
    (roundF32_eq_of_div _ _ 13421773 25 (by norm_num) (by norm_num)
      (Or.inl (by norm_num [abs_lt])) (by norm_num))
    (roundF32_eq_of_div _ _ 8388608 23 (by norm_num) (by norm_num)
      (Or.inl (by norm_num [abs_lt])) (by norm_num))

/-- The stored grade lies within `2^-21` of the exact value of the grade formula
with the weights 0.6 and 0.4, when the two quotients are at most 1. -/
theorem storedGrade_near_exact (mB b mK k : Int) (h1 : 0 < mB) (h2 : mB ≤ b) (h3 : 0 < mK)
    (h4 : mK ≤ k) :
    |storedGrade BOUNDING_BOX_WEIGHT NUM_OF_PARTS_WEIGHT mB b mK k
        - exactGrade (6 / 10) (4 / 10) mB b mK k| ≤ 1 / 2 ^ (21 : Nat) := by
  have hb : 0 < b := lt_of_lt_of_le h1 h2
  have hk : 0 < k := lt_of_lt_of_le h3 h4
  have hA : (0 : ℚ) < (mB : ℚ) := by exact_mod_cast h1
  have hB : (0 : ℚ) < (b : ℚ) := by exact_mod_cast hb
  have hC : (0 : ℚ) < (mK : ℚ) := by exact_mod_cast h3
  have hD : (0 : ℚ) < (k : ℚ) := by exact_mod_cast hk
  have hqB0 : 0 < (mB : ℚ) / b := div_pos hA hB
  have hqK0 : 0 < (mK : ℚ) / k := div_pos hC hD
  have hqB1 : (mB : ℚ) / b ≤ 1 := (div_le_one hB).2 (by exact_mod_cast h2)
  have hqK1 : (mK : ℚ) / k ≤ 1 := (div_le_one hD).2 (by exact_mod_cast h4)
  rw [storedGrade_of_pos _ _ mB b mK k h1 hb h3 hk, BOUNDING_BOX_WEIGHT_eq,
    NUM_OF_PARTS_WEIGHT_eq]
  unfold exactGrade f32OfInt
  obtain ⟨l1, u1, p1⟩ := f32_term_bounds (mB : ℚ) (b : ℚ) (10066330 / 16777216) hA hB
    (by norm_num)
  obtain ⟨l2, u2, p2⟩ := f32_term_bounds (mK : ℚ) (k : ℚ) (13421773 / 33554432) hC hD
    (by norm_num)
  set T1 := f32Mul (f32Div (roundF32 (mB : ℚ)) (roundF32 (b : ℚ))) (10066330 / 16777216)
  set T2 := f32Mul (f32Div (roundF32 (mK : ℚ)) (roundF32 (k : ℚ))) (13421773 / 33554432)
  set qB := (mB : ℚ) / b
  set qK := (mK : ℚ) / k
  obtain ⟨s1, s2⟩ := roundF32_near (T1 + T2) (add_pos p1 p2)
  have cl1 : (6 / 10 - 3 / 2 ^ (24 : Nat) : ℚ) * qB ≤ T1 := by
    refine le_trans ?_ l1
    have hc : (6 / 10 - 3 / 2 ^ (24 : Nat) : ℚ)
        ≤ (1 - 1 / 2 ^ (24 : Nat)) ^ 3 / (1 + 1 / 2 ^ (24 : Nat)) * (10066330 / 16777216) := by
      norm_num
    calc (6 / 10 - 3 / 2 ^ (24 : Nat) : ℚ) * qB
        ≤ ((1 - 1 / 2 ^ (24 : Nat)) ^ 3 / (1 + 1 / 2 ^ (24 : Nat)) * (10066330 / 16777216))
            * qB := mul_le_mul_of_nonneg_right hc (le_of_lt hqB0)
      _ = (1 - 1 / 2 ^ (24 : Nat)) ^ 3 / (1 + 1 / 2 ^ (24 : Nat))
            * (qB * (10066330 / 16777216)) := by ring
  have cl2 : (4 / 10 - 2 / 2 ^ (24 : Nat) : ℚ) * qK ≤ T2 := by
    refine le_trans ?_ l2
    have hc : (4 / 10 - 2 / 2 ^ (24 : Nat) : ℚ)
        ≤ (1 - 1 / 2 ^ (24 : Nat)) ^ 3 / (1 + 1 / 2 ^ (24 : Nat)) * (13421773 / 33554432) := by
      norm_num
    calc (4 / 10 - 2 / 2 ^ (24 : Nat) : ℚ) * qK
        ≤ ((1 - 1 / 2 ^ (24 : Nat)) ^ 3 / (1 + 1 / 2 ^ (24 : Nat)) * (13421773 / 33554432))
            * qK := mul_le_mul_of_nonneg_right hc (le_of_lt hqK0)
      _ = (1 - 1 / 2 ^ (24 : Nat)) ^ 3 / (1 + 1 / 2 ^ (24 : Nat))
            * (qK * (13421773 / 33554432)) := by ring
  have cu1 : T1 ≤ (6 / 10 + 3 / 2 ^ (24 : Nat) : ℚ) * qB := by
    refine le_trans u1 ?_
    have hc : (1 + 1 / 2 ^ (24 : Nat)) ^ 3 / (1 - 1 / 2 ^ (24 : Nat)) * (10066330 / 16777216)
        ≤ (6 / 10 + 3 / 2 ^ (24 : Nat) : ℚ) := by
      norm_num
    calc (1 + 1 / 2 ^ (24 : Nat)) ^ 3 / (1 - 1 / 2 ^ (24 : Nat))
            * (qB * (10066330 / 16777216))
        = ((1 + 1 / 2 ^ (24 : Nat)) ^ 3 / (1 - 1 / 2 ^ (24 : Nat)) * (10066330 / 16777216))
            * qB := by ring
      _ ≤ (6 / 10 + 3 / 2 ^ (24 : Nat) : ℚ) * qB :=
          mul_le_mul_of_nonneg_right hc (le_of_lt hqB0)
  have cu2 : T2 ≤ (4 / 10 + 2 / 2 ^ (24 : Nat) : ℚ) * qK := by
    refine le_trans u2 ?_
    have hc : (1 + 1 / 2 ^ (24 : Nat)) ^ 3 / (1 - 1 / 2 ^ (24 : Nat)) * (13421773 / 33554432)
        ≤ (4 / 10 + 2 / 2 ^ (24 : Nat) : ℚ) := by
      norm_num
    calc (1 + 1 / 2 ^ (24 : Nat)) ^ 3 / (1 - 1 / 2 ^ (24 : Nat))
            * (qK * (13421773 / 33554432))
        = ((1 + 1 / 2 ^ (24 : Nat)) ^ 3 / (1 - 1 / 2 ^ (24 : Nat)) * (13421773 / 33554432))
            * qK := by ring
      _ ≤ (4 / 10 + 2 / 2 ^ (24 : Nat) : ℚ) * qK :=
          mul_le_mul_of_nonneg_right hc (le_of_lt hqK0)
  have hT : T1 + T2 ≤ 1 + 5 / 2 ^ (24 : Nat) := by
    have e1 : (6 / 10 + 3 / 2 ^ (24 : Nat) : ℚ) * qB ≤ 6 / 10 + 3 / 2 ^ (24 : Nat) := by
      have := mul_le_mul_of_nonneg_left hqB1 (by norm_num : (0 : ℚ) ≤ 6 / 10 + 3 / 2 ^ (24 : Nat))
      linarith
    have e2 : (4 / 10 + 2 / 2 ^ (24 : Nat) : ℚ) * qK ≤ 4 / 10 + 2 / 2 ^ (24 : Nat) := by
      have := mul_le_mul_of_nonneg_left hqK1 (by norm_num : (0 : ℚ) ≤ 4 / 10 + 2 / 2 ^ (24 : Nat))
      linarith
    linarith
  have hqB3 : 3 / 2 ^ (24 : Nat) * qB ≤ (3 / 2 ^ (24 : Nat) : ℚ) := by
    have := mul_le_mul_of_nonneg_left hqB1 (by norm_num : (0 : ℚ) ≤ 3 / 2 ^ (24 : Nat))
    linarith
  have hqK2 : 2 / 2 ^ (24 : Nat) * qK ≤ (2 / 2 ^ (24 : Nat) : ℚ) := by
    have := mul_le_mul_of_nonneg_left hqK1 (by norm_num : (0 : ℚ) ≤ 2 / 2 ^ (24 : Nat))
    linarith
  have hT0 : 0 < T1 + T2 := add_pos p1 p2
  unfold f32Add
  rw [abs_le]
  constructor
  · have : (1 - 1 / 2 ^ (24 : Nat)) * (T1 + T2)
        ≥ T1 + T2 - (1 + 5 / 2 ^ (24 : Nat)) / 2 ^ (24 : Nat) := by
      have := mul_le_mul_of_nonneg_left hT (by norm_num : (0 : ℚ) ≤ 1 / 2 ^ (24 : Nat))
      linarith
    norm_num at this s1 cl1 cl2 hqB3 hqK2 ⊢
    linarith
  · have : (1 + 1 / 2 ^ (24 : Nat)) * (T1 + T2)
        ≤ T1 + T2 + (1 + 5 / 2 ^ (24 : Nat)) / 2 ^ (24 : Nat) := by
      have := mul_le_mul_of_nonneg_left hT (by norm_num : (0 : ℚ) ≤ 1 / 2 ^ (24 : Nat))
      linarith
    norm_num at this s2 cu1 cu2 hqB3 hqK2 ⊢
    linarith

/-- The grades of a result are the stored grades of its indices. -/
theorem getResultsByGrade_mem (wB wK : ℚ) (B K : List Int) (hB : B ≠ [])
    (hlen : B.length = K.length) (minB minK : Int) (hminB : IsMinOf minB B)
    (hminK : IsMinOf minK K) :
    (∃ result, getResultsByGrade wB wK B K result) ∧
    ∀ result, getResultsByGrade wB wK B K result →
      ∀ i b k, B.get? i = some b → K.get? i = some k →
        (storedGrade wB wK minB b minK k, i) ∈ result := by
  obtain ⟨grades, hg, _, hmem⟩ := gradesBeforeSort_ok wB wK B K hB hlen minB minK hminB hminK
  constructor
  · obtain ⟨result, hres⟩ := stdSortPost_exists grades
    exact ⟨result, grades, hg, hres⟩
  · rintro result ⟨grades', hg', hperm, _⟩ i b k hb hk
    rw [hg] at hg'
    cases hg'
    exact hperm.mem_iff.mpr (hmem i b k hb hk)

/-- C6, as the code has it: for non-empty vectors of equal length with positive
entries the function has a result, and every result holds, for every index `i`,
the pair of grade and `i` whose grade is the `float` evaluation of
`(minB / B[i]) * w_B + (minK / K[i]) * w_K`: the operands converted to `float`,
each quotient, product and the sum rounded to `float`, the weights being the
`float`s nearest to 0.6 and 0.4. That grade lies within `2^-21` of the exact
value of the grade formula. -/
theorem getResultsByGrade_grade_formula (B K : List Int) (hB : B ≠ [])
    (hlen : B.length = K.length) (hBpos : ∀ b ∈ B, 0 < b) (hKpos : ∀ k ∈ K, 0 < k)
    (minB minK : Int) (hminB : IsMinOf minB B) (hminK : IsMinOf minK K) :
    (∃ result, getResultsByGrade BOUNDING_BOX_WEIGHT NUM_OF_PARTS_WEIGHT B K result) ∧
    ∀ result, getResultsByGrade BOUNDING_BOX_WEIGHT NUM_OF_PARTS_WEIGHT B K result →
      ∀ i b k, B.get? i = some b → K.get? i = some k →
        ∃ grade, (grade, i) ∈ result ∧
          grade = f32Add
            (f32Mul (f32Div (f32OfInt minB) (f32OfInt b)) BOUNDING_BOX_WEIGHT)
            (f32Mul (f32Div (f32OfInt minK) (f32OfInt k)) NUM_OF_PARTS_WEIGHT) ∧
          |grade - exactGrade (6 / 10) (4 / 10) minB b minK k| ≤ 1 / 2 ^ (21 : Nat) := by
  obtain ⟨hex, hall⟩ := getResultsByGrade_mem BOUNDING_BOX_WEIGHT NUM_OF_PARTS_WEIGHT B K hB
    hlen minB minK hminB hminK
  refine ⟨hex, ?_⟩
  intro result hres i b k hb hk
  have hbB := List.get?_mem hb
  have hkK := List.get?_mem hk
  refine ⟨_, hall result hres i b k hb hk, ?_, ?_⟩
  · exact storedGrade_of_pos _ _ minB b minK k (hBpos _ hminB.1) (hBpos _ hbB)
      (hKpos _ hminK.1) (hKpos _ hkK)
  · exact storedGrade_near_exact minB b minK k (hBpos _ hminB.1) (hminB.2 _ hbB)
      (hKpos _ hminK.1) (hminK.2 _ hkK)

/-- Witness for C6 on the results (4,4), (4,2), (9,2). -/
theorem getResultsByGrade_grade_formula_witness :
    (∃ result, getResultsByGrade BOUNDING_BOX_WEIGHT NUM_OF_PARTS_WEIGHT
        [4, 4, 9] [4, 2, 2] result) ∧
    ∀ result, getResultsByGrade BOUNDING_BOX_WEIGHT NUM_OF_PARTS_WEIGHT
        [4, 4, 9] [4, 2, 2] result →
      ∀ i b k, ([4, 4, 9] : List Int).get? i = some b →
        ([4, 2, 2] : List Int).get? i = some k →
        ∃ grade, (grade, i) ∈ result ∧
          grade = f32Add
            (f32Mul (f32Div (f32OfInt 4) (f32OfInt b)) BOUNDING_BOX_WEIGHT)
            (f32Mul (f32Div (f32OfInt 2) (f32OfInt k)) NUM_OF_PARTS_WEIGHT) ∧
          |grade - exactGrade (6 / 10) (4 / 10) 4 b 2 k| ≤ 1 / 2 ^ (21 : Nat) :=
  getResultsByGrade_grade_formula [4, 4, 9] [4, 2, 2] (by simp) (by simp)
    (by decide) (by decide) 4 2 (by unfold IsMinOf; decide) (by unfold IsMinOf; decide)

theorem exists_isMinOf (v : List Int) (hv : v ≠ []) : ∃ m, IsMinOf m v := by
  match v, hv with
  | v0 :: vs, _ => exact ⟨minLoop v0 vs, minLoop_mem v0 vs, minLoop_le v0 vs⟩

theorem gradesLoop_nil (wB wK : ℚ) (mB mK : Int) (K : List Int) (index : Nat) :
    gradesLoop wB wK mB mK K [] index = .ok [] := rfl

/-- One turn of the grading loop, in terms of the stored grade. -/
theorem gradesLoop_cons (wB wK : ℚ) (mB mK : Int) (K : List Int) (b k : Int) (bs : List Int)
    (index : Nat) (rest : List GradeIndex) (hk : K.get? index = some k)
    (hrest : gradesLoop wB wK mB mK K bs (index + 1) = .ok rest) :
    gradesLoop wB wK mB mK K (b :: bs) index
      = .ok ((storedGrade wB wK mB b mK k, index) :: rest) := by
  have hk' : K[index]? = some k := by simpa using hk
  simp [gradesLoop, storedGrade, hk', hrest, bind, Except.bind, pure, Except.pure]

/-- A vector with strictly falling grades is the only outcome of sorting its
rearrangements. -/
theorem stdSortPost_unique (grades sorted : List GradeIndex) (hperm : sorted.Perm grades)
    (hstrict : sorted.Pairwise (fun x y => x.1 > y.1)) (r : List GradeIndex)
    (h : stdSortPost wayToSort grades r) : r = sorted := by
  obtain ⟨hp, hs⟩ := h
  have hs' : List.Sorted (fun x y : GradeIndex => wayToSort y x = false) r := hs
  have hsorted : List.Sorted (fun x y : GradeIndex => wayToSort y x = false) sorted := by
    refine List.Pairwise.imp ?_ hstrict
    intro x y hxy
    simp only [wayToSort, decide_eq_false_iff_not, not_lt]
    exact le_of_lt hxy
  refine List.Perm.eq_of_sorted ?_ hs' hsorted (hp.trans hperm.symm)
  intro a b ha hb hab hba
  have ha' : a ∈ sorted := (hp.trans hperm.symm).mem_iff.mp ha
  by_contra hne
  have hsym : Symmetric (fun x y : GradeIndex => x.1 > y.1 ∨ y.1 > x.1) :=
    fun x y hxy => hxy.symm
  have := (List.Pairwise.imp (fun {x y} (hxy : x.1 > y.1) => (Or.inl hxy : x.1 > y.1 ∨ y.1 > x.1))
    hstrict).forall hsym ha' hb hne
  simp only [wayToSort, decide_eq_false_iff_not, not_lt] at hab hba
  rcases this with h1 | h1
  · exact absurd h1 (not_lt.mpr hba)
  · exact absurd h1 (not_lt.mpr hab)

/-- The grades of the "Grader ranking" scenario before sorting. -/
theorem gradesBeforeSort_scenario :
    gradesBeforeSort BOUNDING_BOX_WEIGHT NUM_OF_PARTS_WEIGHT [4, 4, 9] [4, 2, 2]
      = .ok [(13421773 / 16777216, 0), (1, 1), (11184811 / 16777216, 2)] := by
  have h2 := gradesLoop_cons BOUNDING_BOX_WEIGHT NUM_OF_PARTS_WEIGHT 4 2 [4, 2, 2] 9 2 [] 2 []
    rfl (gradesLoop_nil _ _ _ _ _ _)
  have h1 := gradesLoop_cons BOUNDING_BOX_WEIGHT NUM_OF_PARTS_WEIGHT 4 2 [4, 2, 2] 4 2 [9] 1 _
    rfl h2
  have h0 := gradesLoop_cons BOUNDING_BOX_WEIGHT NUM_OF_PARTS_WEIGHT 4 2 [4, 2, 2] 4 4 [4, 9] 0
    _ rfl h1
  rw [storedGrade_4_4_2_4, storedGrade_4_4_2_2, storedGrade_4_9_2_2] at h0
  have e1 : minLoop 4 [4, 9] = 4 := by decide
  have e2 : minLoop 4 [2, 2] = 2 := by decide
  simp only [gradesBeforeSort, e1, e2]
  exact h0

/-- The ranking of the "Grader ranking" scenario is a possible result. -/
theorem getResultsByGrade_scenario :
    getResultsByGrade BOUNDING_BOX_WEIGHT NUM_OF_PARTS_WEIGHT [4, 4, 9] [4, 2, 2]
      [(1, 1), (13421773 / 16777216, 0), (11184811 / 16777216, 2)] := by
  refine ⟨_, gradesBeforeSort_scenario, ?_, ?_⟩
  · exact (List.Perm.swap _ _ _)
  · simp [wayToSort]
    norm_num

/-- The ranking of the "Grader ranking" scenario is the only possible result. -/
theorem getResultsByGrade_scenario_unique (r : List GradeIndex)
    (h : getResultsByGrade BOUNDING_BOX_WEIGHT NUM_OF_PARTS_WEIGHT [4, 4, 9] [4, 2, 2] r) :
    r = [(1, 1), (13421773 / 16777216, 0), (11184811 / 16777216, 2)] := by
  obtain ⟨grades, hg, hsort⟩ := h
  rw [gradesBeforeSort_scenario] at hg
  cases hg
  refine stdSortPost_unique _ _ (List.Perm.swap _ _ _) ?_ r hsort
  simp
  norm_num

/-- C6, as stated, fails: on the results (4,4), (4,2), (9,2), whose minima are 4
and 2, the exact value of the grade formula for index 0 is 0.8; every result of
the function holds index 0 with the grade 13421773 / 2^24, the `float` nearest
to 0.8, and does not hold the pair of 0.8 and index 0. -/
theorem getResultsByGrade_grade_not_exact :
    IsMinOf 4 [4, 4, 9] ∧ IsMinOf 2 [4, 2, 2] ∧
    exactGrade (6 / 10) (4 / 10) 4 4 2 4 = 8 / 10 ∧
    (∃ r, getResultsByGrade BOUNDING_BOX_WEIGHT NUM_OF_PARTS_WEIGHT [4, 4, 9] [4, 2, 2] r) ∧
    ∀ r, getResultsByGrade BOUNDING_BOX_WEIGHT NUM_OF_PARTS_WEIGHT [4, 4, 9] [4, 2, 2] r →
      ((13421773 / 16777216 : ℚ), 0) ∈ r ∧ ((8 / 10 : ℚ), 0) ∉ r := by
  refine ⟨by unfold IsMinOf; decide, by unfold IsMinOf; decide, ?_,
    ⟨_, getResultsByGrade_scenario⟩, ?_⟩
  · unfold exactGrade
    norm_num
  · intro r hr
    rw [getResultsByGrade_scenario_unique r hr]
    constructor
    · simp
    · simp
      norm_num

/-- C7, as the code has it: every result of `getResultsByGrade` lists each index
`0..n-1` exactly once, in order of non-increasing stored grade, the grade being
the `float` that the grading loop computes; on the results (4,4), (4,2), (9,2)
the only possible result is index 1 with grade 1, then index 0 with grade
13421773 / 2^24 (the `float` nearest to 0.8), then index 2 with grade
11184811 / 2^24 (the `float` computed for `0.6 * (4/9) + 0.4`). -/
theorem getResultsByGrade_ranking (B K : List Int) (hB : B ≠ [])
    (hlen : B.length = K.length) (_hBpos : ∀ b ∈ B, 0 < b) (_hKpos : ∀ k ∈ K, 0 < k)
    (result : List GradeIndex)
    (h : getResultsByGrade BOUNDING_BOX_WEIGHT NUM_OF_PARTS_WEIGHT B K result) :
    ((result.map Prod.snd).Perm (List.range B.length) ∧
      result.Pairwise (fun x y => x.1 ≥ y.1)) ∧
    ∀ r, getResultsByGrade BOUNDING_BOX_WEIGHT NUM_OF_PARTS_WEIGHT [4, 4, 9] [4, 2, 2] r →
      r = [(1, 1), (13421773 / 16777216, 0), (11184811 / 16777216, 2)] := by
  refine ⟨?_, getResultsByGrade_scenario_unique⟩
  have hK : K ≠ [] := by
    intro hK
    subst hK
    exact hB (List.length_eq_zero.mp hlen)
  obtain ⟨minB, hminB⟩ := exists_isMinOf B hB
  obtain ⟨minK, hminK⟩ := exists_isMinOf K hK
  obtain ⟨grades, hg, hsnd, _⟩ := gradesBeforeSort_ok BOUNDING_BOX_WEIGHT
    NUM_OF_PARTS_WEIGHT B K hB hlen minB minK hminB hminK
  obtain ⟨grades', hg', hperm, hsorted⟩ := h
  rw [hg] at hg'
  cases hg'
  refine ⟨?_, ?_⟩
  · rw [← hsnd]
    exact hperm.map _
  · refine List.Pairwise.imp ?_ hsorted
    intro x y hxy
    simpa [wayToSort] using hxy

/-- Witness for C7 on the results (4,4), (4,2), (9,2). -/
theorem getResultsByGrade_ranking_witness :
    (((([(1, 1), (13421773 / 16777216, 0), (11184811 / 16777216, 2)] : List GradeIndex).map
        Prod.snd).Perm (List.range 3) ∧
      ([(1, 1), (13421773 / 16777216, 0), (11184811 / 16777216, 2)] : List GradeIndex).Pairwise
        (fun x y => x.1 ≥ y.1)) ∧
    ∀ r, getResultsByGrade BOUNDING_BOX_WEIGHT NUM_OF_PARTS_WEIGHT [4, 4, 9] [4, 2, 2] r →
      r = [(1, 1), (13421773 / 16777216, 0), (11184811 / 16777216, 2)]) :=
  getResultsByGrade_ranking [4, 4, 9] [4, 2, 2] (by simp) (by simp) (by decide) (by decide)
    _ getResultsByGrade_scenario

/-- The grades of the results (1871, 3687), (3670, 976) before sorting. -/
theorem gradesBeforeSort_closeGrades :
    gradesBeforeSort BOUNDING_BOX_WEIGHT NUM_OF_PARTS_WEIGHT [1871, 3670] [3687, 976]
      = .ok [(11842795 / 16777216, 0), (11842794 / 16777216, 1)] := by
  have h1 := gradesLoop_cons BOUNDING_BOX_WEIGHT NUM_OF_PARTS_WEIGHT 1871 976 [3687, 976]
    3670 976 [] 1 [] rfl (gradesLoop_nil _ _ _ _ _ _)
  have h0 := gradesLoop_cons BOUNDING_BOX_WEIGHT NUM_OF_PARTS_WEIGHT 1871 976 [3687, 976]
    1871 3687 [3670] 0 _ rfl h1
  rw [storedGrade_1871_1871_976_3687, storedGrade_1871_3670_976_976] at h0
  have e1 : minLoop 1871 [3670] = 1871 := by decide
  have e2 : minLoop 3687 [976] = 976 := by decide
  simp only [gradesBeforeSort, e1, e2]
  exact h0

/-- C7, as stated, fails: on the results (1871, 3687), (3670, 976), whose minima
are 1871 and 976, the exact value of the grade formula is lower for index 0 than
for index 1, and the only result of the function lists index 0 first: its stored
grade 11842795 / 2^24 is above the stored grade 11842794 / 2^24 of index 1. -/
theorem getResultsByGrade_not_by_exact_grade :
    IsMinOf 1871 [1871, 3670] ∧ IsMinOf 976 [3687, 976] ∧
    exactGrade (6 / 10) (4 / 10) 1871 1871 976 3687
      < exactGrade (6 / 10) (4 / 10) 1871 3670 976 976 ∧
    (∃ r, getResultsByGrade BOUNDING_BOX_WEIGHT NUM_OF_PARTS_WEIGHT
      [1871, 3670] [3687, 976] r) ∧
    ∀ r, getResultsByGrade BOUNDING_BOX_WEIGHT NUM_OF_PARTS_WEIGHT
        [1871, 3670] [3687, 976] r →
      r = [(11842795 / 16777216, 0), (11842794 / 16777216, 1)] := by
  have hsorted : stdSortPost wayToSort
      [((11842795 / 16777216 : ℚ), 0), ((11842794 / 16777216 : ℚ), 1)]
      [((11842795 / 16777216 : ℚ), 0), ((11842794 / 16777216 : ℚ), 1)] := by
    refine ⟨List.Perm.refl _, ?_⟩
    simp [wayToSort]
    norm_num
  refine ⟨by unfold IsMinOf; decide, by unfold IsMinOf; decide, ?_,
    ⟨_, _, gradesBeforeSort_closeGrades, hsorted⟩, ?_⟩
  · unfold exactGrade
    norm_num
  · rintro r ⟨grades, hg, hsort⟩
    rw [gradesBeforeSort_closeGrades] at hg
    cases hg
    refine stdSortPost_unique _ _ (List.Perm.refl _) ?_ r hsort
    simp
    norm_num

/-- The indices written by the grading loop are consecutive from `index`. -/
theorem gradesLoop_snd (wB wK : ℚ) (mB mK : Int) (K : List Int) :
    ∀ (bs : List Int) (index : Nat) (grades : List GradeIndex),
      gradesLoop wB wK mB mK K bs index = .ok grades →
      grades.map Prod.snd = List.range' index bs.length := by
  intro bs
  induction bs with
  | nil =>
    intro index grades h
    simp only [gradesLoop, pure, Except.pure, Except.ok.injEq] at h
    subst h
    rfl
  | cons b bs ih =>
    intro index grades h
    simp only [gradesLoop, bind, Except.bind, List.get?_eq_getElem?] at h
    cases hk : K[index]? with
    | none => simp [hk] at h
    | some k =>
      cases hrest : gradesLoop wB wK mB mK K bs (index + 1) with
      | error e => simp [hk, hrest, pure, Except.pure] at h
      | ok rest =>
        simp only [hk, hrest, pure, Except.pure, Except.ok.injEq] at h
        subst h
        simp [ih (index + 1) rest hrest, List.range'_succ]

/-- No index occurs twice in a result of `getResultsByGrade`. -/
theorem getResultsByGrade_nodup (wB wK : ℚ) (B K : List Int) (result : List GradeIndex)
    (h : getResultsByGrade wB wK B K result) : (result.map Prod.snd).Nodup := by
  obtain ⟨grades, hg, hperm, _⟩ := h
  have hsnd : (grades.map Prod.snd).Nodup := by
    match B, K, hg with
    | b0 :: bs, k0 :: ks, hg =>
      simp only [gradesBeforeSort] at hg
      rw [gradesLoop_snd _ _ _ _ _ _ _ _ hg]
      exact List.nodup_range' _ _
  exact (hperm.map Prod.snd).nodup_iff.mpr hsnd

/-- C8, as the code has it: in every result of `getResultsByGrade` an index with
a strictly higher grade comes before an index with a lower grade; how indices
of equal grade are ordered is up to `std::sort`. -/
theorem getResultsByGrade_higher_grade_first (wB wK : ℚ) (B K : List Int)
    (result : List GradeIndex) (h : getResultsByGrade wB wK B K result)
    (gi gj : ℚ) (i j : Nat) (hi : (gi, i) ∈ result) (hj : (gj, j) ∈ result)
    (hgt : gi > gj) : appearsBefore result i j := by
  have hnodup := getResultsByGrade_nodup wB wK B K result h
  obtain ⟨grades, _, _, hsorted⟩ := h
  have hinj := List.inj_on_of_nodup_map hnodup
  have hmi : i ∈ result.map Prod.snd := List.mem_map.mpr ⟨(gi, i), hi, rfl⟩
  have hmj : j ∈ result.map Prod.snd := List.mem_map.mpr ⟨(gj, j), hj, rfl⟩
  refine ⟨hmi, hmj, ?_⟩
  have hpi := List.indexOf_lt_length.mpr hmi
  have hpj := List.indexOf_lt_length.mpr hmj
  have hpi' : List.indexOf i (result.map Prod.snd) < result.length := by simpa using hpi
  have hpj' : List.indexOf j (result.map Prod.snd) < result.length := by simpa using hpj
  -- the entries at the two positions are the two pairs
  have hei : result.get ⟨_, hpi'⟩ = (gi, i) := by
    apply hinj (List.get_mem _ _ _) hi
    have := List.getElem_indexOf hpi
    simp only [List.getElem_map] at this
    exact this
  have hej : result.get ⟨_, hpj'⟩ = (gj, j) := by
    apply hinj (List.get_mem _ _ _) hj
    have := List.getElem_indexOf hpj
    simp only [List.getElem_map] at this
    exact this
  by_contra hnot
  have hle : List.indexOf j (result.map Prod.snd) ≤ List.indexOf i (result.map Prod.snd) :=
    Nat.le_of_not_lt hnot
  rcases Nat.lt_or_eq_of_le hle with hlt | heq
  · have hrel := List.pairwise_iff_get.mp hsorted ⟨_, hpj'⟩ ⟨_, hpi'⟩ hlt
    rw [hei, hej] at hrel
    simp [wayToSort] at hrel
    exact absurd hgt (not_lt.mpr hrel)
  · have hsame : result.get ⟨_, hpj'⟩ = result.get ⟨_, hpi'⟩ := by
      congr 1
      exact Fin.ext heq
    rw [hei, hej] at hsame
    have : gj = gi := congrArg Prod.fst hsame
    exact absurd hgt (by rw [this]; exact lt_irrefl _)

/-- Witness for C8 as amended, on the results (4,4), (4,2), (9,2): index 1
(grade 1) comes before index 0 (grade 13421773 / 2^24). -/
theorem getResultsByGrade_higher_grade_first_witness :
    appearsBefore [(1, 1), (13421773 / 16777216, 0), (11184811 / 16777216, 2)] 1 0 :=
  getResultsByGrade_higher_grade_first BOUNDING_BOX_WEIGHT NUM_OF_PARTS_WEIGHT
    [4, 4, 9] [4, 2, 2] _ getResultsByGrade_scenario 1 (13421773 / 16777216) 1 0
    (by simp) (by simp) (by norm_num)

/-- The grades of seventeen equal results before sorting: all are 1. -/
theorem gradesBeforeSort_seventeenEqual :
    gradesBeforeSort BOUNDING_BOX_WEIGHT NUM_OF_PARTS_WEIGHT seventeenBoxes seventeenParts
      = .ok ((List.range 17).map (fun i => ((1 : ℚ), i))) := by
  have step : ∀ (index : Nat) (bs : List Int) (rest : List GradeIndex),
      index < 17 →
      gradesLoop BOUNDING_BOX_WEIGHT NUM_OF_PARTS_WEIGHT 4 2 seventeenParts bs (index + 1)
        = .ok rest →
      gradesLoop BOUNDING_BOX_WEIGHT NUM_OF_PARTS_WEIGHT 4 2 seventeenParts (4 :: bs) index
        = .ok ((1, index) :: rest) := by
    intro index bs rest hi hrest
    have hk : seventeenParts.get? index = some 2 := by
      have : ∀ j, j < 17 → seventeenParts.get? j = some 2 := by decide
      exact this index hi
    have := gradesLoop_cons BOUNDING_BOX_WEIGHT NUM_OF_PARTS_WEIGHT 4 2 seventeenParts 4 2 bs
      index rest hk hrest
    rw [storedGrade_4_4_2_2] at this
    exact this
  have e1 : minLoop 4 [4, 4, 4, 4, 4, 4, 4, 4, 4, 4, 4, 4, 4, 4, 4, 4] = 4 := by decide
  have e2 : minLoop 2 [2, 2, 2, 2, 2, 2, 2, 2, 2, 2, 2, 2, 2, 2, 2, 2] = 2 := by decide
  simp only [gradesBeforeSort, seventeenBoxes, e1, e2]
  have h17 := gradesLoop_nil BOUNDING_BOX_WEIGHT NUM_OF_PARTS_WEIGHT 4 2 seventeenParts 17
  have h16 := step 16 _ _ (by decide) h17
  have h15 := step 15 _ _ (by decide) h16
  have h14 := step 14 _ _ (by decide) h15
  have h13 := step 13 _ _ (by decide) h14
  have h12 := step 12 _ _ (by decide) h13
  have h11 := step 11 _ _ (by decide) h12
  have h10 := step 10 _ _ (by decide) h11
  have h9 := step 9 _ _ (by decide) h10
  have h8 := step 8 _ _ (by decide) h9
  have h7 := step 7 _ _ (by decide) h8
  have h6 := step 6 _ _ (by decide) h7
  have h5 := step 5 _ _ (by decide) h6
  have h4 := step 4 _ _ (by decide) h5
  have h3 := step 3 _ _ (by decide) h4
  have h2 := step 2 _ _ (by decide) h3
  have h1 := step 1 _ _ (by decide) h2
  have h0 := step 0 _ _ (by decide) h1
  exact h0

/-- C8, as stated, fails: for seventeen results of equal grade 1, the vector
that begins with the indices 8, 16, 15 and holds index 0 in tenth place is a
result the sort may deliver (it is the order in which the `std::sort` of GCC
leaves seventeen equal elements); in it index 16 comes before index 0. -/
theorem getResultsByGrade_ties_not_stable :
    getResultsByGrade BOUNDING_BOX_WEIGHT NUM_OF_PARTS_WEIGHT seventeenBoxes seventeenParts
      seventeenRanking ∧
    ((1 : ℚ), 0) ∈ seventeenRanking ∧ ((1 : ℚ), 16) ∈ seventeenRanking ∧
    seventeenRanking.map Prod.snd
      = [8, 16, 15, 14, 13, 12, 11, 10, 9, 0, 7, 6, 5, 4, 3, 2, 1] ∧
    ¬ appearsBefore seventeenRanking 0 16 := by
  have hsnd : seventeenRanking.map Prod.snd
      = [8, 16, 15, 14, 13, 12, 11, 10, 9, 0, 7, 6, 5, 4, 3, 2, 1] := by
    simp [seventeenRanking]
  refine ⟨⟨_, gradesBeforeSort_seventeenEqual, ?_, ?_⟩, ?_, ?_, hsnd, ?_⟩
  · unfold seventeenRanking
    refine List.Perm.map _ ?_
    decide
  · unfold seventeenRanking
    rw [List.pairwise_map]
    refine List.pairwise_of_forall ?_
    intro x y
    simp [wayToSort]
  · unfold seventeenRanking
    exact List.mem_map.mpr ⟨0, by decide, rfl⟩
  · unfold seventeenRanking
    exact List.mem_map.mpr ⟨16, by decide, rfl⟩
  · unfold appearsBefore
    rw [hsnd]
    decide

/-! ## The packer -/

theorem get?_append_of_lt {α : Type} (l₁ l₂ : List α) {n : Nat} (h : n < l₁.length) :
    (l₁ ++ l₂).get? n = l₁.get? n := by
  simp [List.getElem?_append_left h]

theorem get?_map_eq {α β : Type} (f : α → β) (l : List α) (n : Nat) :
    (l.map f).get? n = (l.get? n).map f := by
  simp

theorem indexOfMinLoop_spec :
    ∀ (vs pre : List Int) (mn : Int) (idx : Nat), IsEarliestMin pre mn idx →
      IsEarliestMin (pre ++ vs) (indexOfMinLoop vs pre.length mn idx).1
        (indexOfMinLoop vs pre.length mn idx).2 := by
  intro vs
  induction vs with
  | nil => intro pre mn idx h; simpa [indexOfMinLoop] using h
  | cons v vs ih =>
    intro pre mn idx h
    obtain ⟨h1, h2, h3⟩ := h
    have hidx : idx < pre.length := by
      by_contra hge
      rw [List.get?_eq_none.mpr (Nat.le_of_not_lt hge)] at h1
      cases h1
    have happ : pre ++ v :: vs = (pre ++ [v]) ++ vs := by simp
    have hlen : (pre ++ [v]).length = pre.length + 1 := by simp
    simp only [indexOfMinLoop]
    split
    · next hlt =>
      rw [happ, ← hlen]
      apply ih
      refine ⟨by simp, ?_, ?_⟩
      · intro k w hk
        by_cases hkl : k < pre.length
        · rw [get?_append_of_lt _ _ hkl] at hk
          exact le_of_lt (lt_of_lt_of_le hlt (h2 k w hk))
        · have : k = pre.length := by
            by_contra hne
            have hk2 : (pre ++ [v]).length ≤ k := by rw [hlen]; omega
            rw [List.get?_eq_none.mpr hk2] at hk
            cases hk
          subst this
          simp at hk
          omega
      · intro k w hk hw
        rw [get?_append_of_lt _ _ hk] at hw
        exact lt_of_lt_of_le hlt (h2 k w hw)
    · next hge =>
      rw [happ, ← hlen]
      apply ih
      refine ⟨?_, ?_, ?_⟩
      · rw [get?_append_of_lt _ _ hidx]
        exact h1
      · intro k w hk
        by_cases hkl : k < pre.length
        · rw [get?_append_of_lt _ _ hkl] at hk
          exact h2 k w hk
        · have : k = pre.length := by
            by_contra hne
            have hk2 : (pre ++ [v]).length ≤ k := by rw [hlen]; omega
            rw [List.get?_eq_none.mpr hk2] at hk
            cases hk
          subst this
          simp at hk
          omega
      · intro k w hk hw
        rw [get?_append_of_lt _ _ (by omega)] at hw
        exact h3 k w hk hw

theorem decodeSolution_ok (map : SetToOrientationMap) :
    ∀ sol : DLX_SOLUTION, (∀ set ∈ sol, (map.lookup set).isSome = true) →
      ∃ pl, decodeSolution map sol = .ok pl := by
  intro sol
  induction sol with
  | nil => intro _; exact ⟨[], rfl⟩
  | cons set rest ih =>
    intro h
    obtain ⟨tail, htail⟩ := ih (fun s hs => h s (List.mem_cons_of_mem _ hs))
    obtain ⟨v, hv⟩ := Option.isSome_iff_exists.mp (h set (List.mem_cons_self _ _))
    exact ⟨v :: tail, by
      simp [decodeSolution, SetToOrientationMap.at, hv, htail, bind, Except.bind, pure,
        Except.pure]⟩

theorem decodeSolutions_ok (map : SetToOrientationMap) :
    ∀ sols : List DLX_SOLUTION,
      (∀ sol ∈ sols, ∀ set ∈ sol, (map.lookup set).isSome = true) →
      ∃ lists, decodeSolutions map sols = .ok lists ∧ lists.length = sols.length := by
  intro sols
  induction sols with
  | nil => intro _; exact ⟨[], rfl, rfl⟩
  | cons sol rest ih =>
    intro h
    obtain ⟨tail, htail, hlen⟩ := ih (fun s hs => h s (List.mem_cons_of_mem _ hs))
    obtain ⟨pl, hpl⟩ := decodeSolution_ok map sol (h sol (List.mem_cons_self _ _))
    exact ⟨pl :: tail, by
      simp [decodeSolutions, hpl, htail, bind, Except.bind, pure, Except.pure], by
      simp [hlen]⟩

/-- One turn of the loop of `pack` on a run with at least one solution. -/
theorem packOne_spec (run : SolverRun) (hne : run.solutions ≠ []) (hkeys : KeysPresent run) :
    ∃ pl bb, packOne run = .ok (pl, bb) ∧ PicksEarliestMin run pl bb := by
  obtain ⟨lists, hdec, hlen⟩ :=
    decodeSolutions_ok run.locationSetToOrient run.solutions hkeys
  match lists, hdec, hlen with
  | [], _, hlen =>
    exact absurd (List.length_eq_zero.mp hlen.symm) hne
  | l0 :: ls, hdec, hlen =>
    have hinit : IsEarliestMin [boundingBox l0] (boundingBox l0) 0 := by
      refine ⟨rfl, ?_, ?_⟩
      · intro k v hk
        cases k with
        | zero => simp at hk; omega
        | succ k => simp at hk
      · intro k v hk _
        omega
    have hspec := indexOfMinLoop_spec (ls.map boundingBox) [boundingBox l0] _ _ hinit
    simp only [List.length_singleton, List.singleton_append] at hspec
    obtain ⟨h1, h2, h3⟩ := hspec
    have hmap : boundingBox l0 :: ls.map boundingBox = (l0 :: ls).map boundingBox := rfl
    rw [hmap] at h1 h2 h3
    rw [get?_map_eq] at h1
    cases hget : (l0 :: ls).get? (indexOfMinLoop (ls.map boundingBox) 1 (boundingBox l0) 0).2 with
    | none => rw [hget] at h1; cases h1
    | some pl =>
      rw [hget] at h1
      simp only [Option.map_some', Option.some.injEq] at h1
      refine ⟨pl, boundingBox pl, ?_, l0 :: ls, _, hdec, hlen, hget, rfl, ?_, ?_⟩
      · simp only [packOne, hne, ne_eq, not_false_eq_true, if_true, hdec, bind, Except.bind,
          getBoundingBoxes, List.map_cons, hget, pure, Except.pure, h1]
      · intro k' pl' hk'
        rw [h1]
        apply h2 k' (boundingBox pl')
        rw [get?_map_eq, hk']
        rfl
      · intro k' pl' hlt hk'
        rw [h1]
        apply h3 k' (boundingBox pl') hlt
        rw [get?_map_eq, hk']
        rfl

set_option maxRecDepth 8000 in
/-- The branch of `pack` for a non-empty vector of solutions, on a run with three
solutions of bounding boxes 6, 4 and 4: the second one is kept. -/
theorem packOne_threeSolutions :
    packOne threeSolutionsRun
      = .ok ([(dominoH, ⟨0, 0, 0⟩), (dominoH, ⟨0, 1, 0⟩)], 4) ∧
    (decodeSolutions threeSolutionsRun.locationSetToOrient threeSolutionsRun.solutions).map
      getBoundingBoxes = .ok [6, 4, 4] := by
  constructor <;> decide

/-- With a box of two points and one domino, whose one placement fills the box,
`pack` does not return: the solver has three columns, and `solve` is still
choosing a column whatever the step budget. -/
theorem pack_never_returns_on_domino_box :
    DLXSolver.build 2 1 [[0, 1, 2]] = .ok dominoBoxSolver ∧
    ∀ fuel, dominoBoxPacking.pack fuel = .error .outOfFuel := by
  have hb : DLXSolver.build 2 1 [[0, 1, 2]] = .ok dominoBoxSolver := by decide
  refine ⟨hb, ?_⟩
  intro fuel
  have h1 : dominoBoxSolver.right dominoBoxSolver.matrixHead = .ok (some 1) := by decide
  have h2 : dominoBoxSolver.right (some 1) = .ok (some 2) := by decide
  have h3 : (some 1 : Ptr) ≠ dominoBoxSolver.matrixHead := by decide
  have h4 : (some 2 : Ptr) ≠ dominoBoxSolver.matrixHead := by decide
  have h5 : dominoBoxSolver.numOfElements (some 1) = .ok 0 := by decide
  have hloop := chooseNextColumnLoop_stuck dominoBoxSolver (some 1) (some 2) 1 h2 h4
    (by decide)
  have hsolve : solve fuel dominoBoxSolver = .error .outOfFuel := by
    simp [solve, chooseNextColumn, h1, h2, h3, h4, h5, hloop, bind, Except.bind]
  have hrun : dominoBoxPacking.solverRun fuel 0 1 [(2, 1)] = .error .outOfFuel := by
    unfold Packing.solverRun
    have hb' : DLXSolver.build dominoBoxPacking.boxNumberOfPoints (1 : Int).toNat
        (dominoBoxPacking.visits 0 [(2, 1)]).rows = .ok dominoBoxSolver := hb
    simp only [bind, Except.bind, hb', hsolve]
  show packLoop dominoBoxPacking fuel [[(2, 1)]] 0 = _
  unfold packLoop
  have hn : dominoBoxPacking.solutionsNumOfParts.get? 0 = some 1 := rfl
  simp only [hn, bind, Except.bind, pure, Except.pure, hrun]

/-! ## The decomposer -/

theorem placementPoints_unit (p : Point) : placementPoints (unitOrientation, p) = [p] := by
  obtain ⟨x, y, z⟩ := p
  show [Point.mk (0 + x) (0 + y) (0 + z)] = [Point.mk x y z]
  simp

/-- The stand-in decomposer meets the contract asked of `Decompose::decompose`. -/
theorem standInCollaborators_contract : DecomposerContract standInCollaborators := by
  intro world partList arg hnodup pl hpl
  simp only [standInCollaborators, standInDecompose] at hpl
  split at hpl
  · next harg =>
    split at hpl
    · next id orientation _ _ =>
      split at hpl
      · next anchor hfind =>
        simp only [List.mem_singleton] at hpl
        subst hpl
        have hfit := List.find?_some hfind
        refine ⟨?_, ?_, fun h => absurd harg h⟩
        · intro placement hplacement p hp
          simp only [List.mem_singleton] at hplacement
          subst hplacement
          simp only [List.all_eq_true, decide_eq_true_eq] at hfit
          exact hfit p hp
        · simp [PointDisjoint]
      · simp only [List.mem_singleton] at hpl
        subst hpl
        exact ⟨by simp [InsideWorld], by simp [PointDisjoint], fun h => absurd harg h⟩
    · simp only [List.mem_singleton] at hpl
      subst hpl
      exact ⟨by simp [InsideWorld], by simp [PointDisjoint], fun h => absurd harg h⟩
  · simp only [List.mem_singleton] at hpl
    subst hpl
    refine ⟨?_, ?_, fun _ => ?_⟩
    · intro placement hplacement p hp
      obtain ⟨q, hq, rfl⟩ := List.mem_map.mp hplacement
      rw [placementPoints_unit] at hp
      simp only [List.mem_singleton] at hp
      subst hp
      exact hq
    · unfold PointDisjoint
      rw [List.pairwise_map]
      refine List.Pairwise.imp ?_ hnodup
      intro a b hab p hp
      rw [placementPoints_unit] at hp ⊢
      simp only [List.mem_singleton] at hp ⊢
      subst hp
      exact hab
    · intro p hp
      exact ⟨(unitOrientation, p), List.mem_map.mpr ⟨p, hp, rfl⟩, by
        rw [placementPoints_unit]; exact List.mem_singleton.mpr rfl⟩

set_option maxRecDepth 8000 in
/-- C9: on a three-point world of depth 2, with a decomposer that meets its
contract, `decompose` returns a solution that is not a decomposition of the
world: the unit part at (0,0,1) and the part stacked on (0,0,0) both cover
(0,0,1), and the world point (9,9,0) is covered by nothing. The residual was built
from points with z = 0, so (9,9,0) was removed in place of (0,0,1). -/
theorem decompose_residual_ignores_z :
    DecomposerContract standInCollaborators ∧ threePointWorld.pointList.Nodup ∧
    decompose standInCollaborators threePointWorld
      = .ok (some { partsCountList := [[(2, 1), (3, 1)]]
                    listOfPartLocationLists :=
                      [[(unitOrientation, ⟨0, 0, 1⟩), (dominoZ, ⟨0, 0, 0⟩)]] }) ∧
    ¬ PointDisjoint [(unitOrientation, ⟨0, 0, 1⟩), (dominoZ, ⟨0, 0, 0⟩)] ∧
    ¬ CoversWorld threePointWorld [(unitOrientation, ⟨0, 0, 1⟩), (dominoZ, ⟨0, 0, 0⟩)] := by
  refine ⟨standInCollaborators_contract, by decide, by decide, ?_, ?_⟩
  · unfold PointDisjoint
    decide
  · unfold CoversWorld
    decide

/-! ## The packer: decompositions without a solution -/

theorem ceilRootFrom_spec (k n : Nat) :
    ∀ (fuel s : Nat), (∀ t, t < s → ¬ n ≤ t ^ k) →
      (∀ t, t < ceilRootFrom k n fuel s → ¬ n ≤ t ^ k) ∧
        (n ≤ (ceilRootFrom k n fuel s) ^ k ∨ ceilRootFrom k n fuel s = s + fuel) := by
  intro fuel
  induction fuel with
  | zero => intro s h; exact ⟨h, Or.inr rfl⟩
  | succ f ih =>
    intro s h
    simp only [ceilRootFrom]
    split
    · next hle => exact ⟨h, Or.inl hle⟩
    · next hnle =>
      have h' : ∀ t, t < s + 1 → ¬ n ≤ t ^ k := by
        intro t ht
        rcases Nat.lt_succ_iff_lt_or_eq.mp ht with hlt | rfl
        · exact h t hlt
        · exact hnle
      obtain ⟨h1, h2⟩ := ih (s + 1) h'
      refine ⟨h1, ?_⟩
      rcases h2 with h2 | h2
      · exact Or.inl h2
      · exact Or.inr (by omega)

/-- The side `ceilRoot k n` is the least `s` with `n ≤ s ^ k`. -/
theorem ceilRoot_spec (k n : Nat) (hk : k ≠ 0) :
    n ≤ (ceilRoot k n) ^ k ∧ ∀ t, n ≤ t ^ k → ceilRoot k n ≤ t := by
  obtain ⟨h1, h2⟩ := ceilRootFrom_spec k n n 0 (by intro t ht; omega)
  refine ⟨?_, ?_⟩
  · rcases h2 with h2 | h2
    · exact h2
    · unfold ceilRoot
      rw [h2, Nat.zero_add]
      exact Nat.le_self_pow hk n
  · intro t ht
    by_contra hlt
    exact h1 t (Nat.lt_of_not_le hlt) ht

/-- The model of `ceil(sqrt(n))` is the ceiling of the real square root. -/
theorem ceilRoot_two_eq_ceil_sqrt (n : Nat) (hn : 1 ≤ n) :
    ((ceilRoot 2 n : Nat) : ℤ) = ⌈Real.sqrt (n : ℝ)⌉ := by
  obtain ⟨h1, h2⟩ := ceilRoot_spec 2 n (by decide)
  symm
  rw [Int.ceil_eq_iff]
  have hpos : ceilRoot 2 n ≠ 0 := by
    intro h0
    rw [h0] at h1
    simp at h1
    omega
  obtain ⟨t, ht⟩ : ∃ t, ceilRoot 2 n = t + 1 := Nat.exists_eq_succ_of_ne_zero hpos
  have hlt : t ^ 2 < n := by
    by_contra hge
    have := h2 t (Nat.le_of_not_lt hge)
    omega
  rw [ht] at h1
  rw [ht]
  refine ⟨?_, ?_⟩
  · have : (t : ℝ) < Real.sqrt (n : ℝ) := by
      rw [Real.lt_sqrt (Nat.cast_nonneg t)]
      exact_mod_cast hlt
    push_cast
    linarith
  · rw [Real.sqrt_le_iff]
    refine ⟨by positivity, ?_⟩
    exact_mod_cast h1

/-- The model of `ceil(pow(n, 1.0 / 3.0))` is the ceiling of the real cube
root. -/
theorem ceilRoot_three_eq_ceil_rpow (n : Nat) (hn : 1 ≤ n) :
    ((ceilRoot 3 n : Nat) : ℤ) = ⌈((n : ℝ) ^ ((1 : ℝ) / 3))⌉ := by
  obtain ⟨h1, h2⟩ := ceilRoot_spec 3 n (by decide)
  have hroot : (((n : ℝ) ^ ((1 : ℝ) / 3)) ^ 3 : ℝ) = n := by
    have := Real.rpow_inv_natCast_pow (Nat.cast_nonneg n : (0 : ℝ) ≤ n) (by decide : (3 : ℕ) ≠ 0)
    have h3 : ((1 : ℝ) / 3) = (((3 : ℕ) : ℝ))⁻¹ := by norm_num
    rw [h3]
    exact this
  have hnonneg : (0 : ℝ) ≤ (n : ℝ) ^ ((1 : ℝ) / 3) := Real.rpow_nonneg (Nat.cast_nonneg n) _
  symm
  rw [Int.ceil_eq_iff]
  have hpos : ceilRoot 3 n ≠ 0 := by
    intro h0
    rw [h0] at h1
    simp at h1
    omega
  obtain ⟨t, ht⟩ : ∃ t, ceilRoot 3 n = t + 1 := Nat.exists_eq_succ_of_ne_zero hpos
  have hlt : t ^ 3 < n := by
    by_contra hge
    have := h2 t (Nat.le_of_not_lt hge)
    omega
  rw [ht] at h1
  rw [ht]
  refine ⟨?_, ?_⟩
  · have : (t : ℝ) < (n : ℝ) ^ ((1 : ℝ) / 3) := by
      by_contra hge
      have hle : (n : ℝ) ^ ((1 : ℝ) / 3) ≤ t := not_lt.mp hge
      have := pow_le_pow_left₀ hnonneg hle 3
      rw [hroot] at this
      have hlt' : ((t : ℝ) ^ 3) < n := by exact_mod_cast hlt
      linarith
    push_cast
    linarith
  · by_contra hgt
    have hlt' : ((t + 1 : ℕ) : ℝ) < (n : ℝ) ^ ((1 : ℝ) / 3) := by
      have := not_le.mp hgt
      exact_mod_cast this
    have := pow_lt_pow_left₀ hlt' (by positivity) (by decide : (3 : ℕ) ≠ 0)
    rw [hroot] at this
    have h1' : (n : ℝ) ≤ ((t + 1 : ℕ) : ℝ) ^ 3 := by exact_mod_cast h1
    linarith

/-- The model of `ceil(width + 0.1*width)` is the ceiling of the exact sum. -/
theorem growSide_eq_ceil (width : Int) :
    growSide width = ⌈(width : ℚ) + (1 / 10) * width⌉ := by
  have h : (width : ℚ) + (1 / 10) * width = -(((-(11 * width) : ℤ) : ℚ) / ((10 : ℕ) : ℚ)) := by
    push_cast
    ring
  rw [h, Int.ceil_neg, Rat.floor_intCast_div_natCast]
  rfl

/-- C13: the box of the first attempt of `DecomposeAndPack::pack` is `boxOf` of
the world; for a world of `N ≥ 1` points and depth 1 it has width and height
`s`, the least integer with `s * s ≥ N`, and depth 1; for a world of depth above
1 all three sides are the least integer `s` with `s * s * s ≥ N`. -/
theorem first_box_sides (packer : Box → PackResult) (world : World)
    (hN : 1 ≤ world.pointList.length) :
    (∀ fuel width height,
      (packAttempts packer world (fuel + 1) width height).1.head? = some (boxOf world)) ∧
    (world.depth = 1 → ∃ s : Nat,
      boxOf world = { width := s, height := s, depth := 1 } ∧
      world.pointList.length ≤ s * s ∧ (∀ t : Nat, world.pointList.length ≤ t * t → s ≤ t) ∧
      ((s : ℤ) = ⌈Real.sqrt (world.pointList.length : ℝ)⌉)) ∧
    (world.depth > 1 → ∃ s : Nat,
      boxOf world = { width := s, height := s, depth := s } ∧
      world.pointList.length ≤ s * s * s ∧
      (∀ t : Nat, world.pointList.length ≤ t * t * t → s ≤ t) ∧
      ((s : ℤ) = ⌈((world.pointList.length : ℝ) ^ ((1 : ℝ) / 3))⌉)) := by
  refine ⟨?_, ?_, ?_⟩
  · intro fuel width height
    simp only [packAttempts]
    split
    · rfl
    · split <;> rfl
  · intro hd
    obtain ⟨h1, h2⟩ := ceilRoot_spec 2 world.pointList.length (by decide)
    refine ⟨ceilRoot 2 world.pointList.length, ?_, ?_, ?_, ?_⟩
    · simp [boxOf, hd]
    · simpa [pow_two] using h1
    · intro t ht
      exact h2 t (by simpa [pow_two] using ht)
    · exact ceilRoot_two_eq_ceil_sqrt _ hN
  · intro hd
    obtain ⟨h1, h2⟩ := ceilRoot_spec 3 world.pointList.length (by decide)
    refine ⟨ceilRoot 3 world.pointList.length, ?_, ?_, ?_, ?_⟩
    · simp [boxOf, hd]
    · have : (ceilRoot 3 world.pointList.length) ^ 3
          = ceilRoot 3 world.pointList.length * ceilRoot 3 world.pointList.length *
            ceilRoot 3 world.pointList.length := by ring
      rw [← this]
      exact h1
    · intro t ht
      apply h2 t
      have : t ^ 3 = t * t * t := by ring
      rw [this]
      exact ht
    · exact ceilRoot_three_eq_ceil_rpow _ hN

/-- Witness for C13: for the world of eight points and depth 1 the first box is 3
by 3 by 1, and for the three-point world of depth 2 it is 2 by 2 by 2. -/
theorem first_box_sides_witness :
    ((∀ fuel width height,
      (packAttempts twoSquaresPacker twoSquaresWorld (fuel + 1) width height).1.head?
        = some (boxOf twoSquaresWorld)) ∧
    (twoSquaresWorld.depth = 1 → ∃ s : Nat,
      boxOf twoSquaresWorld = { width := s, height := s, depth := 1 } ∧
      twoSquaresWorld.pointList.length ≤ s * s ∧
      (∀ t : Nat, twoSquaresWorld.pointList.length ≤ t * t → s ≤ t) ∧
      ((s : ℤ) = ⌈Real.sqrt (twoSquaresWorld.pointList.length : ℝ)⌉)) ∧
    (twoSquaresWorld.depth > 1 → ∃ s : Nat,
      boxOf twoSquaresWorld = { width := s, height := s, depth := s } ∧
      twoSquaresWorld.pointList.length ≤ s * s * s ∧
      (∀ t : Nat, twoSquaresWorld.pointList.length ≤ t * t * t → s ≤ t) ∧
      ((s : ℤ) = ⌈((twoSquaresWorld.pointList.length : ℝ) ^ ((1 : ℝ) / 3))⌉))) ∧
    boxOf twoSquaresWorld = { width := 3, height := 3, depth := 1 } ∧
    boxOf threePointWorld = { width := 2, height := 2, depth := 2 } :=
  ⟨first_box_sides twoSquaresPacker twoSquaresWorld (by decide), by decide, by decide⟩

/-- C14: for a world of 8 by 8 and the percentage 20 the first (largest) part
size of `decompose` is 1, not `round(1.6) = 2`: the product 160 is divided by
100 in `int` arithmetic, which gives 1 before `round` is applied, and the
decomposition uses unit parts only. -/
theorem minEdge_truncates_before_rounding :
    standInCollaborators.PART_SIZE_PRECENT_OF_WORLD = 20 ∧
    min eightByEightWorld.width eightByEightWorld.height = 8 ∧
    minEdge standInCollaborators eightByEightWorld = 1 ∧
    minEdgeSpec 8 8 20 = 2 ∧
    decompose standInCollaborators eightByEightWorld
      = decomposeLoop standInCollaborators eightByEightWorld 1 none ∧
    decompose standInCollaborators eightByEightWorld
      = .ok (some { partsCountList := [[(2, 3)]]
                    listOfPartLocationLists :=
                      [[(unitOrientation, ⟨0, 0, 0⟩), (unitOrientation, ⟨1, 0, 0⟩),
                        (unitOrientation, ⟨7, 7, 0⟩)]] }) := by
  refine ⟨rfl, by decide, by decide, ?_, by decide, by decide⟩
  have h : (((min (8 : Int) 8 * 20 : Int) : ℚ) / 100) = 8 / 5 := by norm_num
  rw [minEdgeSpec, h, round_eq]
  have hf : ⌊(8 / 5 : ℚ) + 1 / 2⌋ = 2 := by
    rw [Int.floor_eq_iff]
    constructor <;> norm_num
  rw [hf]
  rfl

/-! ## The placement visitor -/

theorem visitLoop_ok (world : World) (point : Point) :
    ∀ (rest : List Point) (i : Nat) (partLocationSet : DLX_VALUES_SET),
      ∃ r, visitLoop world point rest i partLocationSet = .ok r := by
  intro rest
  induction rest with
  | nil => intro i set; exact ⟨_, rfl⟩
  | cons partPoint rest ih =>
    intro i set
    simp only [visitLoop]
    by_cases hex : world.isPointExist (point + partPoint) = true
    · have hmem : point + partPoint ∈ world.pointList := by
        simpa [World.isPointExist] using hex
      obtain ⟨r, hr⟩ := ih (i + 1)
        (setInsert (world.pointList.indexOf (point + partPoint)) set)
      refine ⟨r, ?_⟩
      simp [hex, World.getIndexFromPoint, hmem, bind, Except.bind, pure, Except.pure, hr]
    · refine ⟨(i, false, set), ?_⟩
      simp [hex, pure, Except.pure]

/-- C15: `visit` leaves the solver as it is on every input, also when the part
fits: the unit part at the point of the one-point world fits, and the solver
that had no row before the call has no row after it. -/
theorem visit_never_adds_a_row :
    (∀ (partPointList : List Point) (dlxSolver : DLXSolver) (world : World) (point : Point),
      IsPartFitVisitor.visit partPointList dlxSolver world point = .ok dlxSolver) ∧
    (∀ partPoint ∈ unitOrientation,
      onePointWorld.isPointExist ((⟨0, 0, 0⟩ : Point) + partPoint) = true) ∧
    visitLoop onePointWorld ⟨0, 0, 0⟩ unitOrientation 0 [] = .ok (1, true, [0]) ∧
    IsPartFitVisitor.visit unitOrientation twoColsNoRow onePointWorld ⟨0, 0, 0⟩
      = .ok twoColsNoRow ∧
    twoColsNoRow.rowNum = 0 ∧ twoColsNoRow.columnNodes 0 = [] ∧
    twoColsNoRow.columnNodes 1 = [] := by
  refine ⟨?_, by decide, by decide, by decide, by decide, by decide, by decide⟩
  intro partPointList dlxSolver world point
  obtain ⟨r, hr⟩ := visitLoop_ok world point partPointList 0 []
  simp only [IsPartFitVisitor.visit, hr, bind, Except.bind]
  split <;> rfl

/-! ## Worlds from images -/

/-- C16: for the image of one black pixel `fromImage` returns a world without
points, of width 0 and height 0: the first non-white pixel sets `min_X` and
`min_Y` only, so `max_X` and `max_Y` stay at -1. For the image that is black
at (0,1) and (1,0) it returns a world without points as well: `min_Y` is the y
of the first non-white pixel met and is never lowered. The all-black image of 2
by 2 pixels gives its four points. -/
theorem fromImage_loses_pixels :
    nonWhitePixels onePixelImage = [(0, 0)] ∧
    scanImage onePixelImage
      = { min_X := 0, max_X := -1, min_Y := 0, max_Y := -1, numberOfPoints := 1 } ∧
    fromImage onePixelImage = { pointList := [], width := 0, height := 0, depth := 1 } ∧
    nonWhitePixels antiDiagonalImage = [(0, 1), (1, 0)] ∧
    scanImage antiDiagonalImage
      = { min_X := 0, max_X := 1, min_Y := 1, max_Y := 0, numberOfPoints := 2 } ∧
    fromImage antiDiagonalImage = { pointList := [], width := 2, height := 0, depth := 1 } ∧
    fromImage blackSquareImage
      = { pointList := [⟨0, 0, 0⟩, ⟨0, 1, 0⟩, ⟨1, 0, 0⟩, ⟨1, 1, 0⟩]
          width := 2, height := 2, depth := 1 } := by
  decide

/-! ## The full-cover constructor -/

/-- C17: the solver built by `DLXSolver(n)` is `DLXSolver(0, g)` for the value
`g` read from the member that is not yet initialised, whatever `n` is; with
`g = 0` the solver of `DLXSolver(3)` has no column header in its ring and 0
mandatory columns, where `DLXSolver(0, 3)` has the headers 0, 1, 2. -/
theorem createFullCover_ignores_numberOfColumns :
    (∀ n g, DLXSolver.createFullCover n g = DLXSolver.create 0 g) ∧
    (∀ n n' g, DLXSolver.createFullCover n g = DLXSolver.createFullCover n' g) ∧
    (Run.built (DLXSolver.createFullCover 3 0)).headerRing = [] ∧
    (Run.built (DLXSolver.createFullCover 3 0)).mandatoryColsNum = 0 ∧
    (Run.built (DLXSolver.create 0 3)).headerRing = [0, 1, 2] ∧
    (Run.built (DLXSolver.create 0 3)).mandatoryColsNum = 3 ∧
    DLXSolver.createFullCover 3 0 ≠ DLXSolver.create 0 3 := by
  refine ⟨fun _ _ => rfl, fun _ _ _ => rfl, by decide, by decide, by decide, by decide,
    by decide⟩

/-! ## The column choice -/

/-- C18: with one optional and two mandatory columns linked, of sizes 0, 1 and
2, `chooseNextColumn` does not return the mandatory column of size 1: it does
not return at all, its loop is still running whatever the step budget. -/
theorem chooseNextColumn_never_returns :
    DLXSolver.build 1 2 [[0, 1], [0, 2], [0, 2]] = .ok oneOptionalTwoMandatory ∧
    oneOptionalTwoMandatory.optionalColsNum = 1 ∧
    oneOptionalTwoMandatory.headerRing = [0, 1, 2] ∧
    oneOptionalTwoMandatory.columnSize 1 = some 1 ∧
    oneOptionalTwoMandatory.columnSize 2 = some 2 ∧
    ∀ fuel, chooseNextColumn fuel oneOptionalTwoMandatory = .error .outOfFuel := by
  refine ⟨by decide, by decide, by decide, by decide, by decide, ?_⟩
  intro fuel
  have h1 : oneOptionalTwoMandatory.right oneOptionalTwoMandatory.matrixHead
      = .ok (some 1) := by decide
  have h2 : oneOptionalTwoMandatory.right (some 1) = .ok (some 2) := by decide
  have h3 : (some 1 : Ptr) ≠ oneOptionalTwoMandatory.matrixHead := by decide
  have h4 : (some 2 : Ptr) ≠ oneOptionalTwoMandatory.matrixHead := by decide
  have h5 : oneOptionalTwoMandatory.numOfElements (some 1) = .ok 0 := by decide
  have hloop := chooseNextColumnLoop_stuck oneOptionalTwoMandatory (some 1) (some 2) 1 h2 h4
    (by decide)
  simp [chooseNextColumn, h1, h2, h3, h4, h5, hloop, bind, Except.bind]

/-! ## The residual world -/

/-- The function `extendDecompose` goes on from the residual point list. -/
theorem extendDecompose_eq (env : Collaborators) (world : World) (partList : PartList)
    (partsCount : PartsCount) (partLocationList : PartLocationList)
    (total : DecomposeResult) (isPartial : Bool) :
    extendDecompose env world partList partsCount partLocationList total isPartial
      = (do
        let newPointList ← residualPointList world partLocationList
        if world.height = 0 ∨ world.width = 0 then pure (none, total)
        else
          let decomposeResult :=
            (env.decompose { pointList := newPointList, width := world.width,
                             height := world.height, depth := world.depth } partList none).extend
              partsCount partLocationList
          pure (some decomposeResult, total.add decomposeResult)) := by
  simp only [extendDecompose, residualPointList, bind, Except.bind]
  cases pointIndexesToDelete world partLocationList with
  | error e => rfl
  | ok indexes => rfl

/-- C19: in the three-point world of depth 2, the part stacked on (0,0,0) covers
(0,0,0) and (0,0,1), both points of the world; the residual point list built by
`extendDecompose` is not the world without these two points, which is (9,9,0):
it is (0,0,1), because both covered points are looked up with z = 0. -/
theorem residual_ignores_z :
    coveredPoints [(dominoZ, ⟨0, 0, 0⟩)] = [⟨0, 0, 0⟩, ⟨0, 0, 1⟩] ∧
    (∀ p ∈ coveredPoints [(dominoZ, ⟨0, 0, 0⟩)], p ∈ threePointWorld.pointList) ∧
    (coveredPoints [(dominoZ, ⟨0, 0, 0⟩)]).Nodup ∧
    pointIndexesToDelete threePointWorld [(dominoZ, ⟨0, 0, 0⟩)] = .ok [0, 0] ∧
    residualPointList threePointWorld [(dominoZ, ⟨0, 0, 0⟩)] = .ok [⟨0, 0, 1⟩] ∧
    threePointWorld.pointList.filter
      (fun p => decide (p ∉ coveredPoints [(dominoZ, ⟨0, 0, 0⟩)])) = [⟨9, 9, 0⟩] := by
  decide

/-- C20: `extendDecompose` returns `NULL` exactly when the height or the width
of the world it was given is 0, whatever is left of the points: for the
one-point world and the unit part on its point the residual has no points, and
the function decomposes the empty residual and returns a result, not `NULL`. -/
theorem extendDecompose_null_by_dimensions :
    (∀ (env : Collaborators) (world : World) (partList : PartList) (partsCount : PartsCount)
        (partLocationList : PartLocationList) (total : DecomposeResult) (isPartial : Bool)
        (ret : Option DecomposeResult) (total' : DecomposeResult),
      extendDecompose env world partList partsCount partLocationList total isPartial
        = .ok (ret, total') →
      (ret = none ↔ (world.height = 0 ∨ world.width = 0))) ∧
    residualPointList onePointWorld [(unitOrientation, ⟨0, 0, 0⟩)] = .ok [] ∧
    extendDecompose standInCollaborators onePointWorld [⟨2, [unitOrientation]⟩] [(2, 1)]
        [(unitOrientation, ⟨0, 0, 0⟩)] { partsCountList := [], listOfPartLocationLists := [] }
        false
      = .ok (some { partsCountList := [[(2, 1)]]
                    listOfPartLocationLists := [[(unitOrientation, ⟨0, 0, 0⟩)]] },
             { partsCountList := [[(2, 1)]]
               listOfPartLocationLists := [[(unitOrientation, ⟨0, 0, 0⟩)]] }) := by
  refine ⟨?_, by decide, by decide⟩
  intro env world partList partsCount partLocationList total isPartial ret total' h
  rw [extendDecompose_eq] at h
  simp only [bind, Except.bind] at h
  cases hres : residualPointList world partLocationList with
  | error e => rw [hres] at h; cases h
  | ok newPointList =>
    rw [hres] at h
    simp only at h
    by_cases hd : world.height = 0 ∨ world.width = 0
    · rw [if_pos hd] at h
      simp only [pure, Except.pure, Except.ok.injEq, Prod.mk.injEq] at h
      exact ⟨fun _ => hd, fun _ => h.1.symm⟩
    · rw [if_neg hd] at h
      simp only [pure, Except.pure, Except.ok.injEq, Prod.mk.injEq] at h
      constructor
      · intro hnone
        rw [hnone] at h
        exact absurd h.1 (by simp)
      · intro hd'
        exact absurd hd' hd

/-! ## The solver without mandatory columns -/

/-- C24: for the solver without columns and for the solver with one optional
column and the row `{0}`, in both of which no mandatory column is in the header
ring, `solve` returns the empty vector: it holds no solution, not the empty
assignment either. -/
theorem solve_emits_no_empty_assignment :
    (DLXSolver.build 0 0 [] = .ok noColumns ∧ noColumns.mandatoryColsNum = 0 ∧
      noColumns.headerRing = [] ∧ ∀ fuel, solve fuel noColumns = .ok []) ∧
    (DLXSolver.build 1 0 [[0]] = .ok oneOptionalColumn ∧
      oneOptionalColumn.mandatoryColsNum = 0 ∧ oneOptionalColumn.optionalColsNum = 1 ∧
      oneOptionalColumn.headerRing = [0] ∧ ∀ fuel, solve fuel oneOptionalColumn = .ok []) := by
  refine ⟨⟨by decide, by decide, by decide, ?_⟩, ⟨by decide, by decide, by decide, by decide, ?_⟩⟩
  · intro fuel
    have h1 : noColumns.right noColumns.matrixHead = .ok noColumns.matrixHead := by decide
    simp [solve, chooseNextColumn, h1, bind, Except.bind, pure, Except.pure]
  · intro fuel
    have h1 : oneOptionalColumn.right oneOptionalColumn.matrixHead = .ok (some 1) := by decide
    have h2 : oneOptionalColumn.right (some 1) = .ok oneOptionalColumn.matrixHead := by decide
    have h3 : (some 1 : Ptr) ≠ oneOptionalColumn.matrixHead := by decide
    simp [solve, chooseNextColumn, h1, h2, h3, bind, Except.bind, pure, Except.pure]

/-! ## The range of the grades -/

/-- The rounded quotient of two rounded positive numbers, the first at most the
second, lies in (0, 1], and is 1 when the two are equal. -/
theorem f32Div_rounded_le_one (A B : ℚ) (hA : 0 < A) (hAB : A ≤ B) :
    0 < f32Div (roundF32 A) (roundF32 B) ∧ f32Div (roundF32 A) (roundF32 B) ≤ 1 ∧
      (A = B → f32Div (roundF32 A) (roundF32 B) = 1) := by
  have hB : 0 < B := lt_of_lt_of_le hA hAB
  have ha := roundF32_pos A hA
  have hb := roundF32_pos B hB
  have hab := roundF32_mono A B hA hAB
  have hq : 0 < roundF32 A / roundF32 B := div_pos ha hb
  refine ⟨roundF32_pos _ hq, ?_, ?_⟩
  · have := roundF32_mono _ 1 hq ((div_le_one hb).2 hab)
    rwa [roundF32_one] at this
  · intro h
    subst h
    unfold f32Div
    rw [div_self (ne_of_gt ha), roundF32_one]

/-- The rounded product of a quotient in (0, 1] and a positive `float` weight
lies between 0 and the weight, and is the weight when the quotient is 1. -/
theorem f32Mul_weight_le (q w : ℚ) (hq : 0 < q) (hq1 : q ≤ 1) (hw : 0 < w)
    (hfw : roundF32 w = w) :
    0 < f32Mul q w ∧ f32Mul q w ≤ w ∧ (q = 1 → f32Mul q w = w) := by
  have hqw : 0 < q * w := mul_pos hq hw
  refine ⟨roundF32_pos _ hqw, ?_, ?_⟩
  · have := roundF32_mono (q * w) w hqw (by nlinarith)
    rwa [hfw] at this
  · intro h
    subst h
    unfold f32Mul
    rw [one_mul, hfw]

/-- The stored grade of a result lies in (0, 1] when the minima are at most the
entries and the `float` sum of the weights is 1; it is 1 when the entries are
the minima. -/
theorem storedGrade_range (wB wK : ℚ) (hwB : 0 < wB) (hwK : 0 < wK)
    (hfB : roundF32 wB = wB) (hfK : roundF32 wK = wK) (hsum : f32Add wB wK = 1)
    (mB b mK k : Int) (h1 : 0 < mB) (h2 : mB ≤ b) (h3 : 0 < mK) (h4 : mK ≤ k) :
    0 < storedGrade wB wK mB b mK k ∧ storedGrade wB wK mB b mK k ≤ 1 ∧
      (b = mB ∧ k = mK → storedGrade wB wK mB b mK k = 1) := by
  have hb : 0 < b := lt_of_lt_of_le h1 h2
  have hk : 0 < k := lt_of_lt_of_le h3 h4
  rw [storedGrade_of_pos wB wK mB b mK k h1 hb h3 hk]
  unfold f32OfInt
  obtain ⟨q0, q1, qe⟩ := f32Div_rounded_le_one (mB : ℚ) (b : ℚ) (by exact_mod_cast h1)
    (by exact_mod_cast h2)
  obtain ⟨r0, r1, re⟩ := f32Div_rounded_le_one (mK : ℚ) (k : ℚ) (by exact_mod_cast h3)
    (by exact_mod_cast h4)
  obtain ⟨p0, p1, pe⟩ := f32Mul_weight_le _ wB q0 q1 hwB hfB
  obtain ⟨s0, s1, se⟩ := f32Mul_weight_le _ wK r0 r1 hwK hfK
  refine ⟨roundF32_pos _ (add_pos p0 s0), ?_, ?_⟩
  · have := roundF32_mono _ (wB + wK) (add_pos p0 s0) (add_le_add p1 s1)
    unfold f32Add at hsum ⊢
    rwa [hsum] at this
  · rintro ⟨e1, e2⟩
    have e1' : (mB : ℚ) = (b : ℚ) := by exact_mod_cast e1.symm
    have e2' : (mK : ℚ) = (k : ℚ) := by exact_mod_cast e2.symm
    rw [pe (qe e1'), se (re e2')]
    exact hsum

/-- The `float` sum of the `float`s nearest to 0.6 and 0.4 is 1. -/
theorem weights_sum_one : f32Add BOUNDING_BOX_WEIGHT NUM_OF_PARTS_WEIGHT = 1 := by
  rw [BOUNDING_BOX_WEIGHT_eq, NUM_OF_PARTS_WEIGHT_eq]
  exact roundF32_eq_of_div _ _ 8388608 23 (by norm_num) (by norm_num)
    (Or.inl (by norm_num [abs_lt])) (by norm_num)

/-- C25, as the code has it: for non-empty vectors of equal length with positive
entries and positive `float` weights whose `float` sum is 1, every grade in a
result of `getResultsByGrade` lies in the interval (0, 1], and the grade of
index `i` is 1 when `B[i]` is the minimum of `B` and `K[i]` is the minimum of
`K`. -/
theorem grade_in_unit_interval (wB wK : ℚ) (hwB : 0 < wB) (hwK : 0 < wK)
    (hfB : roundF32 wB = wB) (hfK : roundF32 wK = wK) (hsum : f32Add wB wK = 1)
    (B K : List Int) (hB : B ≠ []) (hlen : B.length = K.length)
    (hBpos : ∀ b ∈ B, 0 < b) (hKpos : ∀ k ∈ K, 0 < k) (minB minK : Int)
    (hminB : IsMinOf minB B) (hminK : IsMinOf minK K) (result : List GradeIndex)
    (h : getResultsByGrade wB wK B K result) (g : ℚ) (i : Nat) (hg : (g, i) ∈ result) :
    0 < g ∧ g ≤ 1 ∧
      ∃ b k, B.get? i = some b ∧ K.get? i = some k ∧ (b = minB ∧ k = minK → g = 1) := by
  have hnodup := getResultsByGrade_nodup wB wK B K result h
  obtain ⟨grades, hgr, hsnd, hmem⟩ := gradesBeforeSort_ok wB wK B K hB hlen minB minK hminB hminK
  obtain ⟨grades', hgr', hperm, _⟩ := h
  rw [hgr] at hgr'
  cases hgr'
  have hi : i < B.length := by
    have : i ∈ grades.map Prod.snd :=
      List.mem_map.mpr ⟨(g, i), hperm.mem_iff.mp hg, rfl⟩
    rw [hsnd] at this
    exact List.mem_range.mp this
  have hiK : i < K.length := hlen ▸ hi
  have hb : B.get? i = some (B.get ⟨i, hi⟩) := List.get?_eq_get hi
  have hk : K.get? i = some (K.get ⟨i, hiK⟩) := List.get?_eq_get hiK
  have hform := hperm.mem_iff.mpr (hmem i _ _ hb hk)
  have hgeq : g = storedGrade wB wK minB (B.get ⟨i, hi⟩) minK (K.get ⟨i, hiK⟩) := by
    have := List.inj_on_of_nodup_map hnodup hg hform rfl
    exact congrArg Prod.fst this
  obtain ⟨r0, r1, re⟩ := storedGrade_range wB wK hwB hwK hfB hfK hsum minB (B.get ⟨i, hi⟩)
    minK (K.get ⟨i, hiK⟩) (hBpos _ hminB.1) (hminB.2 _ (List.get_mem _ _ _))
    (hKpos _ hminK.1) (hminK.2 _ (List.get_mem _ _ _))
  rw [hgeq]
  exact ⟨r0, r1, _, _, hb, hk, re⟩

/-- Witness for C25 on the results (4,4), (4,2), (9,2) with the weights 0.6 and
0.4: the grade 1 of index 1 lies in (0, 1], and index 1 holds both minima. -/
theorem grade_in_unit_interval_witness :
    (0 : ℚ) < 1 ∧ (1 : ℚ) ≤ 1 ∧
      ∃ b k, ([4, 4, 9] : List Int).get? 1 = some b ∧ ([4, 2, 2] : List Int).get? 1 = some k ∧
        (b = 4 ∧ k = 2 → (1 : ℚ) = 1) :=
  grade_in_unit_interval BOUNDING_BOX_WEIGHT NUM_OF_PARTS_WEIGHT
    (by rw [BOUNDING_BOX_WEIGHT_eq]; norm_num) (by rw [NUM_OF_PARTS_WEIGHT_eq]; norm_num)
    (roundF32_idem _ (by norm_num)) (roundF32_idem _ (by norm_num)) weights_sum_one
    [4, 4, 9] [4, 2, 2] (by simp) (by simp) (by decide) (by decide) 4 2
    (by unfold IsMinOf; decide) (by unfold IsMinOf; decide) _ getResultsByGrade_scenario
    1 1 (by simp)

/-- C25, as stated, fails: on the results (16777216, 1), (16777217, 1), whose
minima are 16777216 and 1, every result of the function holds index 1 with the
grade 1, although 16777217 is not the minimum: the conversion to `float` rounds
16777217 to 16777216. -/
theorem grade_one_without_minimum :
    IsMinOf 16777216 [16777216, 16777217] ∧ IsMinOf 1 [1, 1] ∧
    (16777217 : Int) ≠ 16777216 ∧
    f32OfInt 16777217 = 16777216 ∧
    (∃ r, getResultsByGrade BOUNDING_BOX_WEIGHT NUM_OF_PARTS_WEIGHT
      [16777216, 16777217] [1, 1] r) ∧
    ∀ r, getResultsByGrade BOUNDING_BOX_WEIGHT NUM_OF_PARTS_WEIGHT
        [16777216, 16777217] [1, 1] r → ((1 : ℚ), 1) ∈ r := by
  have hB : IsMinOf 16777216 [16777216, 16777217] := by unfold IsMinOf; decide
  have hK : IsMinOf 1 [1, 1] := by unfold IsMinOf; decide
  obtain ⟨hex, hall⟩ := getResultsByGrade_mem BOUNDING_BOX_WEIGHT NUM_OF_PARTS_WEIGHT
    [16777216, 16777217] [1, 1] (by simp) (by simp) 16777216 1 hB hK
  refine ⟨hB, hK, by decide, ?_, hex, ?_⟩
  · unfold f32OfInt
    exact roundF32_eq_of_mul _ _ 8388608 1 (by norm_num) (by norm_num)
      (Or.inr ⟨Or.inl (by norm_num), by decide⟩) (by norm_num)
  · intro r hr
    have := hall r hr 1 16777217 1 rfl rfl
    rw [storedGrade_16777216_16777217_1_1] at this
    exact this

/-! ## The bounding boxes -/

theorem visit_minHorizontal (e : Extents) (p : Point) :
    (e.visit p).minHorizontal = if p.x < e.minHorizontal then p.x else e.minHorizontal := by
  simp only [Extents.visit, apply_ite Extents.minHorizontal, ite_self]

theorem visit_maxHorizontal (e : Extents) (p : Point) :
    (e.visit p).maxHorizontal = if p.x > e.maxHorizontal then p.x else e.maxHorizontal := by
  simp only [Extents.visit, apply_ite Extents.maxHorizontal, ite_self]

theorem visit_minVertical (e : Extents) (p : Point) :
    (e.visit p).minVertical = if p.y < e.minVertical then p.y else e.minVertical := by
  simp only [Extents.visit, apply_ite Extents.minVertical, ite_self]

theorem visit_maxVertical (e : Extents) (p : Point) :
    (e.visit p).maxVertical = if p.y > e.maxVertical then p.y else e.maxVertical := by
  simp only [Extents.visit, apply_ite Extents.maxVertical, ite_self]

/-- The two nested loops of `getBoundingBoxes` visit the covered points in
order. -/
theorem extentsOf_eq_foldl (pl : PartLocationList) :
    extentsOf pl = (coveredPoints pl).foldl Extents.visit Extents.init := by
  unfold extentsOf coveredPoints
  generalize Extents.init = e
  induction pl generalizing e with
  | nil => rfl
  | cons placement rest ih =>
    simp only [List.foldl_cons, List.flatMap_cons, List.foldl_append]
    rw [ih]
    congr 1
    simp only [placementPoints, List.foldl_map]

theorem foldl_visit_minHorizontal (ps : List Point) (e : Extents) (v : Int) :
    v ≤ (ps.foldl Extents.visit e).minHorizontal ↔
      v ≤ e.minHorizontal ∧ ∀ p ∈ ps, v ≤ p.x := by
  induction ps generalizing e with
  | nil => simp
  | cons p ps ih =>
    simp only [List.foldl_cons, ih, visit_minHorizontal, List.mem_cons, forall_eq_or_imp]
    split_ifs with hlt
    · constructor
      · rintro ⟨h1, h2⟩; exact ⟨by omega, h1, h2⟩
      · rintro ⟨_, h1, h2⟩; exact ⟨h1, h2⟩
    · constructor
      · rintro ⟨h1, h2⟩; exact ⟨h1, by omega, h2⟩
      · rintro ⟨h1, _, h2⟩; exact ⟨h1, h2⟩

theorem foldl_visit_maxHorizontal (ps : List Point) (e : Extents) (v : Int) :
    (ps.foldl Extents.visit e).maxHorizontal ≤ v ↔
      e.maxHorizontal ≤ v ∧ ∀ p ∈ ps, p.x ≤ v := by
  induction ps generalizing e with
  | nil => simp
  | cons p ps ih =>
    simp only [List.foldl_cons, ih, visit_maxHorizontal, List.mem_cons, forall_eq_or_imp]
    split_ifs with hlt
    · constructor
      · rintro ⟨h1, h2⟩; exact ⟨by omega, h1, h2⟩
      · rintro ⟨_, h1, h2⟩; exact ⟨h1, h2⟩
    · constructor
      · rintro ⟨h1, h2⟩; exact ⟨h1, by omega, h2⟩
      · rintro ⟨h1, _, h2⟩; exact ⟨h1, h2⟩

theorem foldl_visit_minVertical (ps : List Point) (e : Extents) (v : Int) :
    v ≤ (ps.foldl Extents.visit e).minVertical ↔
      v ≤ e.minVertical ∧ ∀ p ∈ ps, v ≤ p.y := by
  induction ps generalizing e with
  | nil => simp
  | cons p ps ih =>
    simp only [List.foldl_cons, ih, visit_minVertical, List.mem_cons, forall_eq_or_imp]
    split_ifs with hlt
    · constructor
      · rintro ⟨h1, h2⟩; exact ⟨by omega, h1, h2⟩
      · rintro ⟨_, h1, h2⟩; exact ⟨h1, h2⟩
    · constructor
      · rintro ⟨h1, h2⟩; exact ⟨h1, by omega, h2⟩
      · rintro ⟨h1, _, h2⟩; exact ⟨h1, h2⟩

theorem foldl_visit_maxVertical (ps : List Point) (e : Extents) (v : Int) :
    (ps.foldl Extents.visit e).maxVertical ≤ v ↔
      e.maxVertical ≤ v ∧ ∀ p ∈ ps, p.y ≤ v := by
  induction ps generalizing e with
  | nil => simp
  | cons p ps ih =>
    simp only [List.foldl_cons, ih, visit_maxVertical, List.mem_cons, forall_eq_or_imp]
    split_ifs with hlt
    · constructor
      · rintro ⟨h1, h2⟩; exact ⟨by omega, h1, h2⟩
      · rintro ⟨_, h1, h2⟩; exact ⟨h1, h2⟩
    · constructor
      · rintro ⟨h1, h2⟩; exact ⟨h1, by omega, h2⟩
      · rintro ⟨h1, _, h2⟩; exact ⟨h1, h2⟩

theorem wrapInt_of_fits (v : Int) (h1 : -2147483648 ≤ v) (h2 : v ≤ 2147483647) :
    wrapInt v = v := by
  unfold wrapInt
  omega

/-- The four extremes kept by `getBoundingBoxes` are the extremes of the covered
points, when the coordinates are non-negative values of type `int`. -/
theorem extentsOf_extremes (pl : PartLocationList)
    (hx : ∀ p ∈ coveredPoints pl, 0 ≤ p.x ∧ p.x ≤ INT_MAX)
    (hy : ∀ p ∈ coveredPoints pl, 0 ≤ p.y ∧ p.y ≤ INT_MAX)
    (minX maxX minY maxY : Int)
    (hminX : IsMinOf minX ((coveredPoints pl).map (fun p => p.x)))
    (hmaxX : IsMaxOf maxX ((coveredPoints pl).map (fun p => p.x)))
    (hminY : IsMinOf minY ((coveredPoints pl).map (fun p => p.y)))
    (hmaxY : IsMaxOf maxY ((coveredPoints pl).map (fun p => p.y))) :
    (extentsOf pl).minHorizontal = minX ∧ (extentsOf pl).maxHorizontal = maxX ∧
    (extentsOf pl).minVertical = minY ∧ (extentsOf pl).maxVertical = maxY := by
  rw [extentsOf_eq_foldl]
  obtain ⟨pa, hpa, hpax⟩ := List.mem_map.mp hminX.1
  obtain ⟨pb, hpb, hpbx⟩ := List.mem_map.mp hmaxX.1
  obtain ⟨pc, hpc, hpcy⟩ := List.mem_map.mp hminY.1
  obtain ⟨pd, hpd, hpdy⟩ := List.mem_map.mp hmaxY.1
  refine ⟨?_, ?_, ?_, ?_⟩
  · apply le_antisymm
    · have := (foldl_visit_minHorizontal (coveredPoints pl) Extents.init _).mp (le_refl _)
      rw [← hpax]
      exact this.2 pa hpa
    · rw [foldl_visit_minHorizontal]
      refine ⟨?_, fun p hp => hminX.2 _ (List.mem_map.mpr ⟨p, hp, rfl⟩)⟩
      rw [← hpax]
      exact (hx pa hpa).2
  · apply le_antisymm
    · rw [foldl_visit_maxHorizontal]
      refine ⟨?_, fun p hp => hmaxX.2 _ (List.mem_map.mpr ⟨p, hp, rfl⟩)⟩
      rw [← hpbx]
      exact (hx pb hpb).1
    · have := (foldl_visit_maxHorizontal (coveredPoints pl) Extents.init _).mp (le_refl _)
      rw [← hpbx]
      exact this.2 pb hpb
  · apply le_antisymm
    · have := (foldl_visit_minVertical (coveredPoints pl) Extents.init _).mp (le_refl _)
      rw [← hpcy]
      exact this.2 pc hpc
    · rw [foldl_visit_minVertical]
      refine ⟨?_, fun p hp => hminY.2 _ (List.mem_map.mpr ⟨p, hp, rfl⟩)⟩
      rw [← hpcy]
      exact (hy pc hpc).2
  · apply le_antisymm
    · rw [foldl_visit_maxVertical]
      refine ⟨?_, fun p hp => hmaxY.2 _ (List.mem_map.mpr ⟨p, hp, rfl⟩)⟩
      rw [← hpdy]
      exact (hy pd hpd).1
    · have := (foldl_visit_maxVertical (coveredPoints pl) Extents.init _).mp (le_refl _)
      rw [← hpdy]
      exact this.2 pd hpd

/-- The value pushed for a placement list whose covered points have
non-negative `int` coordinates and whose box area fits in an `int`. -/
theorem boundingBox_eq (pl : PartLocationList)
    (hx : ∀ p ∈ coveredPoints pl, 0 ≤ p.x ∧ p.x ≤ INT_MAX)
    (hy : ∀ p ∈ coveredPoints pl, 0 ≤ p.y ∧ p.y ≤ INT_MAX)
    (minX maxX minY maxY : Int)
    (hminX : IsMinOf minX ((coveredPoints pl).map (fun p => p.x)))
    (hmaxX : IsMaxOf maxX ((coveredPoints pl).map (fun p => p.x)))
    (hminY : IsMinOf minY ((coveredPoints pl).map (fun p => p.y)))
    (hmaxY : IsMaxOf maxY ((coveredPoints pl).map (fun p => p.y)))
    (hfit : (maxX - minX + 1) * (maxY - minY + 1) ≤ INT_MAX) :
    boundingBox pl = (maxX - minX + 1) * (maxY - minY + 1) := by
  obtain ⟨e1, e2, e3, e4⟩ := extentsOf_extremes pl hx hy minX maxX minY maxY hminX hmaxX
    hminY hmaxY
  obtain ⟨pa, hpa, hpax⟩ := List.mem_map.mp hminX.1
  obtain ⟨pb, hpb, hpbx⟩ := List.mem_map.mp hmaxX.1
  obtain ⟨pc, hpc, hpcy⟩ := List.mem_map.mp hminY.1
  obtain ⟨pd, hpd, hpdy⟩ := List.mem_map.mp hmaxY.1
  have hX : minX ≤ maxX := hminX.2 _ hmaxX.1
  have hY : minY ≤ maxY := hminY.2 _ hmaxY.1
  have hminX0 : 0 ≤ minX := by rw [← hpax]; exact (hx pa hpa).1
  have hminY0 : 0 ≤ minY := by rw [← hpcy]; exact (hy pc hpc).1
  have hmaxXm : maxX ≤ 2147483647 := by rw [← hpbx]; exact (hx pb hpb).2
  have hmaxYm : maxY ≤ 2147483647 := by rw [← hpdy]; exact (hy pd hpd).2
  have hA : 1 ≤ maxX - minX + 1 := by omega
  have hB : 1 ≤ maxY - minY + 1 := by omega
  have hfit' : (maxX - minX + 1) * (maxY - minY + 1) ≤ 2147483647 := hfit
  have hAle : maxX - minX + 1 ≤ 2147483647 :=
    le_trans (le_mul_of_one_le_right (by omega) hB) hfit'
  have hBle : maxY - minY + 1 ≤ 2147483647 :=
    le_trans (le_mul_of_one_le_left (by omega) hA) hfit'
  have hpos : 0 ≤ (maxX - minX + 1) * (maxY - minY + 1) :=
    mul_nonneg (by omega) (by omega)
  simp only [boundingBox, e1, e2, e3, e4]
  rw [wrapInt_of_fits (maxX - minX) (by omega) (by omega),
    wrapInt_of_fits (maxY - minY) (by omega) (by omega),
    wrapInt_of_fits (maxX - minX + 1) (by omega) (by omega),
    wrapInt_of_fits (maxY - minY + 1) (by omega) (by omega),
    wrapInt_of_fits _ (by omega) hfit']

/-- C21, as the code has it: for a placement list whose covered points have
non-negative coordinates, with extreme values `minX`, `maxX`, `minY`, `maxY`,
and whose area `(maxX - minX + 1) * (maxY - minY + 1)` is at most the largest
`int`, `getBoundingBoxes` yields that area; a placement list with the same x
and y coordinates of its covered points, whatever their z, yields the same
value; and the output has one entry per input placement list, in order. -/
theorem getBoundingBoxes_area (pl : PartLocationList)
    (hx : ∀ p ∈ coveredPoints pl, 0 ≤ p.x ∧ p.x ≤ INT_MAX)
    (hy : ∀ p ∈ coveredPoints pl, 0 ≤ p.y ∧ p.y ≤ INT_MAX)
    (minX maxX minY maxY : Int)
    (hminX : IsMinOf minX ((coveredPoints pl).map (fun p => p.x)))
    (hmaxX : IsMaxOf maxX ((coveredPoints pl).map (fun p => p.x)))
    (hminY : IsMinOf minY ((coveredPoints pl).map (fun p => p.y)))
    (hmaxY : IsMaxOf maxY ((coveredPoints pl).map (fun p => p.y)))
    (hfit : (maxX - minX + 1) * (maxY - minY + 1) ≤ INT_MAX) :
    getBoundingBoxes [pl] = [(maxX - minX + 1) * (maxY - minY + 1)] ∧
    (∀ pl' : PartLocationList,
      (coveredPoints pl').map (fun p => (p.x, p.y))
        = (coveredPoints pl).map (fun p => (p.x, p.y)) →
      boundingBox pl' = boundingBox pl) ∧
    ∀ lists : List PartLocationList,
      (getBoundingBoxes lists).length = lists.length ∧
      ∀ i, (getBoundingBoxes lists).get? i = (lists.get? i).map boundingBox := by
  have hmain := boundingBox_eq pl hx hy minX maxX minY maxY hminX hmaxX hminY hmaxY hfit
  refine ⟨by simp [getBoundingBoxes, hmain], ?_, ?_⟩
  · intro pl' hxy
    have hxs : (coveredPoints pl').map (fun p => p.x) = (coveredPoints pl).map (fun p => p.x) := by
      have := congrArg (List.map Prod.fst) hxy
      simpa [List.map_map, Function.comp_def] using this
    have hys : (coveredPoints pl').map (fun p => p.y) = (coveredPoints pl).map (fun p => p.y) := by
      have := congrArg (List.map Prod.snd) hxy
      simpa [List.map_map, Function.comp_def] using this
    have hx' : ∀ p ∈ coveredPoints pl', 0 ≤ p.x ∧ p.x ≤ INT_MAX := by
      intro p hp
      have : p.x ∈ (coveredPoints pl).map (fun p => p.x) := by
        rw [← hxs]; exact List.mem_map.mpr ⟨p, hp, rfl⟩
      obtain ⟨q, hq, hqx⟩ := List.mem_map.mp this
      rw [← hqx]
      exact hx q hq
    have hy' : ∀ p ∈ coveredPoints pl', 0 ≤ p.y ∧ p.y ≤ INT_MAX := by
      intro p hp
      have : p.y ∈ (coveredPoints pl).map (fun p => p.y) := by
        rw [← hys]; exact List.mem_map.mpr ⟨p, hp, rfl⟩
      obtain ⟨q, hq, hqy⟩ := List.mem_map.mp this
      rw [← hqy]
      exact hy q hq
    rw [hmain]
    exact boundingBox_eq pl' hx' hy' minX maxX minY maxY (hxs ▸ hminX) (hxs ▸ hmaxX)
      (hys ▸ hminY) (hys ▸ hmaxY) hfit
  · intro lists
    refine ⟨by simp [getBoundingBoxes], fun i => ?_⟩
    simp [getBoundingBoxes]

/-- Witness for C21 as amended: two horizontal dominoes, at (0,0,0) and at
(1,1,5), span x from 0 to 2 and y from 0 to 1, and the value is 3 * 2. -/
theorem getBoundingBoxes_area_witness :
    getBoundingBoxes [[(dominoH, ⟨0, 0, 0⟩), (dominoH, ⟨1, 1, 5⟩)]]
        = [((2 : Int) - 0 + 1) * (1 - 0 + 1)] ∧
    (∀ pl' : PartLocationList,
      (coveredPoints pl').map (fun p => (p.x, p.y))
        = (coveredPoints [(dominoH, ⟨0, 0, 0⟩), (dominoH, ⟨1, 1, 5⟩)]).map
            (fun p => (p.x, p.y)) →
      boundingBox pl' = boundingBox [(dominoH, ⟨0, 0, 0⟩), (dominoH, ⟨1, 1, 5⟩)]) ∧
    ∀ lists : List PartLocationList,
      (getBoundingBoxes lists).length = lists.length ∧
      ∀ i, (getBoundingBoxes lists).get? i = (lists.get? i).map boundingBox :=
  getBoundingBoxes_area [(dominoH, ⟨0, 0, 0⟩), (dominoH, ⟨1, 1, 5⟩)]
    (by decide) (by decide) 0 2 0 1 (by unfold IsMinOf; decide) (by unfold IsMaxOf; decide)
    (by unfold IsMinOf; decide) (by unfold IsMaxOf; decide) (by decide)

/-- C21, as stated, fails: the part with the points (0,0,0) and
(46340,46340,0) has non-negative coordinates and extents 46341 by 46341, whose
product 2147488281 is above the largest `int`; the value pushed is the wrapped
product -2147479015. -/
theorem getBoundingBoxes_overflows :
    coveredPoints widePlacement = [⟨0, 0, 0⟩, ⟨46340, 46340, 0⟩] ∧
    (∀ p ∈ coveredPoints widePlacement,
      0 ≤ p.x ∧ p.x ≤ INT_MAX ∧ 0 ≤ p.y ∧ p.y ≤ INT_MAX ∧ 0 ≤ p.z) ∧
    IsMinOf 0 ((coveredPoints widePlacement).map (fun p => p.x)) ∧
    IsMaxOf 46340 ((coveredPoints widePlacement).map (fun p => p.x)) ∧
    IsMinOf 0 ((coveredPoints widePlacement).map (fun p => p.y)) ∧
    IsMaxOf 46340 ((coveredPoints widePlacement).map (fun p => p.y)) ∧
    getBoundingBoxes [widePlacement] = [-2147479015] ∧
    getBoundingBoxes [widePlacement] ≠ [((46340 : Int) - 0 + 1) * (46340 - 0 + 1)] := by
  refine ⟨by decide, by decide, by unfold IsMinOf; decide, by unfold IsMaxOf; decide,
    by unfold IsMinOf; decide, by unfold IsMaxOf; decide, by decide, by decide⟩

/-! ## The columns are sorted rings -/

theorem vstate_length (m : DLXSolver) : m.vstate.vnodes.length = m.nodes.length := by
  simp [DLXSolver.vstate]

theorem vstate_get? (m : DLXSolver) (j : Nat) :
    m.vstate.vnodes.get? j = (m.nodes.get? j).map DLXNode.vert := by
  show (m.nodes.map DLXNode.vert).get? j = _
  rw [List.get?_eq_getElem?, List.get?_eq_getElem?, List.getElem?_map]

theorem deref_ok (m : DLXSolver) (i : Nat) (hi : i < m.nodes.length) :
    ∃ n, m.nodes.get? i = some n ∧ m.deref (some i) = .ok n := by
  refine ⟨m.nodes.get ⟨i, hi⟩, List.get?_eq_get hi, ?_⟩
  show (match m.nodes.get? i with
    | some n => Except.ok n
    | none => Except.error Fault.nullDeref) = _
  rw [List.get?_eq_get hi]

theorem up_ok (m : DLXSolver) (i : Nat) (hi : i < m.nodes.length) :
    m.up (some i) = .ok (m.vstate.upAt i) := by
  obtain ⟨n, hn, hd⟩ := deref_ok m i hi
  unfold DLXSolver.up VState.upAt
  rw [hd, vstate_get?, hn]
  rfl

theorem down_ok (m : DLXSolver) (i : Nat) (hi : i < m.nodes.length) :
    m.down (some i) = .ok (m.vstate.downAt i) := by
  obtain ⟨n, hn, hd⟩ := deref_ok m i hi
  unfold DLXSolver.down VState.downAt
  rw [hd, vstate_get?, hn]
  rfl

theorem rowIndex_ok (m : DLXSolver) (i : Nat) (hi : i < m.nodes.length) :
    m.rowIndex (some i) = .ok (m.vstate.rowAt i) := by
  obtain ⟨n, hn, hd⟩ := deref_ok m i hi
  unfold DLXSolver.rowIndex VState.rowAt
  rw [hd, vstate_get?, hn]
  rfl

theorem colIndex_ok (m : DLXSolver) (i : Nat) (hi : i < m.nodes.length) :
    m.colIndex (some i) = .ok (m.vstate.colAt i) := by
  obtain ⟨n, hn, hd⟩ := deref_ok m i hi
  unfold DLXSolver.colIndex VState.colAt
  rw [hd, vstate_get?, hn]
  rfl

theorem numOfElements_ok (m : DLXSolver) (i : Nat) (hi : i < m.nodes.length) :
    m.numOfElements (some i) = .ok (m.vstate.sizeAt i) := by
  obtain ⟨n, hn, hd⟩ := deref_ok m i hi
  unfold DLXSolver.numOfElements VState.sizeAt
  rw [hd, vstate_get?, hn]
  rfl

/-- An update of node `i` by `f` changes the vertical view by `g` at `i` when
`g` is what `f` does to the vertical fields. -/
theorem update_vstate (m : DLXSolver) (i : Nat) (hi : i < m.nodes.length)
    (f : DLXNode → DLXNode) (g : VNode → VNode) (hfg : ∀ n, (f n).vert = g n.vert) :
    ∃ m', m.update (some i) f = .ok m' ∧ m'.nodes.length = m.nodes.length ∧
      m'.matrixHead = m.matrixHead ∧
      m'.vstate = { m.vstate with vnodes := m.vstate.vnodes.modify g i } := by
  refine ⟨{ m with nodes := m.nodes.set i (f (m.nodes.get ⟨i, hi⟩)) }, ?_, by simp, rfl, ?_⟩
  · show (match m.nodes.get? i with
      | some n => Except.ok { m with nodes := m.nodes.set i (f n) }
      | none => Except.error Fault.nullDeref) = _
    rw [List.get?_eq_get hi]
  · simp only [DLXSolver.vstate, VState.mk.injEq, and_true]
    apply List.ext_getElem?
    intro j
    rw [List.getElem?_modify]
    by_cases hij : i = j
    · subst hij
      simp [List.getElem?_map, List.getElem?_set, hi, hfg]
    · simp [List.getElem?_map, List.getElem?_set, hij]

theorem modify_id_eq {α : Type} (l : List α) (i : Nat) : l.modify (fun v => v) i = l := by
  apply List.ext_getElem?
  intro j
  rw [List.getElem?_modify]
  cases l[j]? <;> simp

/-- An update that leaves the vertical fields alone leaves the vertical view
alone. -/
theorem update_horizontal (m : DLXSolver) (i : Nat) (hi : i < m.nodes.length)
    (f : DLXNode → DLXNode) (hf : ∀ n, (f n).vert = n.vert) :
    ∃ m', m.update (some i) f = .ok m' ∧ m'.nodes.length = m.nodes.length ∧
      m'.matrixHead = m.matrixHead ∧ m'.vstate = m.vstate := by
  obtain ⟨m', h1, h2, h3, h4⟩ := update_vstate m i hi f (fun v => v) hf
  refine ⟨m', h1, h2, h3, ?_⟩
  rw [h4, modify_id_eq]

theorem setLeft_ok (m : DLXSolver) (i : Nat) (hi : i < m.nodes.length) (q : Ptr) :
    ∃ m', m.setLeft (some i) q = .ok m' ∧ m'.nodes.length = m.nodes.length ∧
      m'.matrixHead = m.matrixHead ∧ m'.vstate = m.vstate :=
  update_horizontal m i hi _ (fun _ => rfl)

theorem setRight_ok (m : DLXSolver) (i : Nat) (hi : i < m.nodes.length) (q : Ptr) :
    ∃ m', m.setRight (some i) q = .ok m' ∧ m'.nodes.length = m.nodes.length ∧
      m'.matrixHead = m.matrixHead ∧ m'.vstate = m.vstate :=
  update_horizontal m i hi _ (fun _ => rfl)

theorem setHead_ok (m : DLXSolver) (i : Nat) (hi : i < m.nodes.length) (q : Ptr) :
    ∃ m', m.setHead (some i) q = .ok m' ∧ m'.nodes.length = m.nodes.length ∧
      m'.matrixHead = m.matrixHead ∧ m'.vstate = m.vstate :=
  update_horizontal m i hi _ (fun _ => rfl)

theorem setUp_ok (m : DLXSolver) (i : Nat) (hi : i < m.nodes.length) (q : Ptr) :
    ∃ m', m.setUp (some i) q = .ok m' ∧ m'.nodes.length = m.nodes.length ∧
      m'.matrixHead = m.matrixHead ∧
      m'.vstate = { m.vstate with
        vnodes := m.vstate.vnodes.modify (fun v => { v with up := q }) i } :=
  update_vstate m i hi _ _ (fun _ => rfl)

theorem setDown_ok (m : DLXSolver) (i : Nat) (hi : i < m.nodes.length) (q : Ptr) :
    ∃ m', m.setDown (some i) q = .ok m' ∧ m'.nodes.length = m.nodes.length ∧
      m'.matrixHead = m.matrixHead ∧
      m'.vstate = { m.vstate with
        vnodes := m.vstate.vnodes.modify (fun v => { v with down := q }) i } :=
  update_vstate m i hi _ _ (fun _ => rfl)

theorem incNumOfElements_ok (m : DLXSolver) (i : Nat) (hi : i < m.nodes.length) :
    ∃ m', m.incNumOfElements (some i) = .ok m' ∧ m'.nodes.length = m.nodes.length ∧
      m'.matrixHead = m.matrixHead ∧
      m'.vstate = { m.vstate with
        vnodes := m.vstate.vnodes.modify
          (fun v => { v with numOfElements := v.numOfElements + 1 }) i } :=
  update_vstate m i hi _ _ (fun _ => rfl)

theorem get?_modify {α : Type} (f : α → α) (n : Nat) (l : List α) (j : Nat) :
    (l.modify f n).get? j = (l.get? j).map (fun a => if n = j then f a else a) := by
  rw [List.get?_eq_getElem?, List.get?_eq_getElem?, List.getElem?_modify]
  rfl

theorem linkBelow_get? (s : VState) (i last h j : Nat) :
    (s.linkBelow i last h).vnodes.get? j =
      (s.vnodes.get? j).map (fun v =>
        { up := if h = j then some i else if i = j then some last else v.up
          down := if last = j then some i else if i = j then some h else v.down
          rowIndex := v.rowIndex
          colIndex := v.colIndex
          numOfElements := if h = j then v.numOfElements + 1 else v.numOfElements }) := by
  unfold VState.linkBelow
  simp only [get?_modify]
  cases s.vnodes.get? j with
  | none => rfl
  | some v =>
    simp only [Option.map_some']
    by_cases h1 : h = j <;> by_cases h2 : i = j <;> by_cases h3 : last = j <;> simp [h1, h2, h3]

theorem linkBelow_length (s : VState) (i last h : Nat) :
    (s.linkBelow i last h).vnodes.length = s.vnodes.length := by
  simp [VState.linkBelow]

theorem get?_some_of_lt {α : Type} (l : List α) (j : Nat) (hj : j < l.length) :
    ∃ v, l.get? j = some v := ⟨l.get ⟨j, hj⟩, List.get?_eq_get hj⟩

theorem linkBelow_rowAt (s : VState) (i last h j : Nat) :
    (s.linkBelow i last h).rowAt j = s.rowAt j := by
  unfold VState.rowAt
  rw [linkBelow_get?]
  cases s.vnodes.get? j <;> rfl

theorem linkBelow_colAt (s : VState) (i last h j : Nat) :
    (s.linkBelow i last h).colAt j = s.colAt j := by
  unfold VState.colAt
  rw [linkBelow_get?]
  cases s.vnodes.get? j <;> rfl

theorem linkBelow_sizeAt (s : VState) (i last h j : Nat) (hj : j < s.vnodes.length) :
    (s.linkBelow i last h).sizeAt j = if h = j then s.sizeAt j + 1 else s.sizeAt j := by
  unfold VState.sizeAt
  rw [linkBelow_get?]
  obtain ⟨v, hv⟩ := get?_some_of_lt s.vnodes j hj
  rw [hv]
  rfl

theorem linkBelow_downAt (s : VState) (i last h j : Nat) (hj : j < s.vnodes.length) :
    (s.linkBelow i last h).downAt j =
      if last = j then some i else if i = j then some h else s.downAt j := by
  unfold VState.downAt
  rw [linkBelow_get?]
  obtain ⟨v, hv⟩ := get?_some_of_lt s.vnodes j hj
  rw [hv]
  rfl

theorem linkBelow_upAt (s : VState) (i last h j : Nat) (hj : j < s.vnodes.length) :
    (s.linkBelow i last h).upAt j =
      if h = j then some i else if i = j then some last else s.upAt j := by
  unfold VState.upAt
  rw [linkBelow_get?]
  obtain ⟨v, hv⟩ := get?_some_of_lt s.vnodes j hj
  rw [hv]
  rfl

theorem chain_concat_iff {α : Type} (R : α → α → Prop) (l : List α) (a b : α) :
    List.Chain R a (l ++ [b]) ↔ List.Chain R a l ∧ R (l.getLastD a) b := by
  induction l generalizing a with
  | nil => simp
  | cons x t ih =>
    simp only [List.cons_append, List.chain_cons, ih, List.getLastD_cons, and_assoc]

theorem chain_imp_mem {α : Type} (R S : α → α → Prop) (l : List α) (a : α)
    (hc : List.Chain R a l) (h : ∀ x y, x ∈ a :: l → y ∈ l → R x y → S x y) :
    List.Chain S a l := by
  induction l generalizing a with
  | nil => exact List.Chain.nil
  | cons b t ih =>
    rw [List.chain_cons] at hc ⊢
    refine ⟨h a b (by simp) (by simp) hc.1, ih b hc.2 ?_⟩
    intro x y hx hy hR
    exact h x y (List.mem_cons_of_mem _ hx) (List.mem_cons_of_mem _ hy) hR

theorem getLastD_eq_or_mem {α : Type} (l : List α) (a : α) :
    l.getLastD a = a ∨ l.getLastD a ∈ l := by
  induction l generalizing a with
  | nil => exact Or.inl rfl
  | cons x t ih =>
    rw [List.getLastD_cons]
    rcases ih x with h | h
    · exact Or.inr (by rw [h]; simp)
    · exact Or.inr (List.mem_cons_of_mem _ h)

/-- The invariant looks at the nodes below the frontier only. -/
theorem ColumnsInv.frame {C L : Nat} {s s' : VState} {cols : Nat → List Nat}
    (inv : ColumnsInv C L s cols) (hlen : L ≤ s'.vnodes.length)
    (hnodes : ∀ j, j < L → s'.vnodes.get? j = s.vnodes.get? j)
    (hmap : s'.mapping = s.mapping) (hrow : s.rowNum ≤ s'.rowNum) :
    ColumnsInv C L s' cols := by
  have hup : ∀ j, j < L → s'.upAt j = s.upAt j := fun j hj => by
    unfold VState.upAt; rw [hnodes j hj]
  have hdown : ∀ j, j < L → s'.downAt j = s.downAt j := fun j hj => by
    unfold VState.downAt; rw [hnodes j hj]
  have hrowAt : ∀ j, j < L → s'.rowAt j = s.rowAt j := fun j hj => by
    unfold VState.rowAt; rw [hnodes j hj]
  have hcol : ∀ j, j < L → s'.colAt j = s.colAt j := fun j hj => by
    unfold VState.colAt; rw [hnodes j hj]
  have hsize : ∀ j, j < L → s'.sizeAt j = s.sizeAt j := fun j hj => by
    unfold VState.sizeAt; rw [hnodes j hj]
  have hmem : ∀ c, c < C → ∀ x, x ∈ (c + 1) :: (cols c ++ [c + 1]) → x < L := by
    intro c hc x hx
    have hf := inv.frontier.1
    simp only [List.mem_cons, List.mem_append, List.mem_singleton, List.not_mem_nil,
      or_false] at hx
    rcases hx with rfl | hx | rfl
    · omega
    · exact (inv.bounds c hc x hx).2
    · omega
  refine ⟨⟨inv.frontier.1, hlen⟩, by rw [hmap]; exact inv.mapping, ?_, inv.bounds, ?_, ?_, ?_, ?_,
    inv.short⟩
  · intro c hc
    refine chain_imp_mem _ _ _ _ (inv.ring c hc) ?_
    intro x y hx hy hR
    have hx' := hmem c hc x hx
    have hy' := hmem c hc y (List.mem_cons_of_mem _ hy)
    exact ⟨by rw [hdown x hx']; exact hR.1, by rw [hup y hy']; exact hR.2⟩
  · intro c hc x hx
    rw [hcol x (inv.bounds c hc x hx).2]
    exact inv.colOf c hc x hx
  · intro c hc x hx
    rw [hrowAt x (inv.bounds c hc x hx).2]
    exact le_trans (inv.rowLe c hc x hx) hrow
  · intro c hc
    have : (cols c).map s'.rowAt = (cols c).map s.rowAt :=
      List.map_congr_left (fun x hx => hrowAt x (inv.bounds c hc x hx).2)
    rw [this]
    exact inv.sorted c hc
  · intro c hc
    rw [hsize (c + 1) (by have := inv.frontier.1; omega)]
    exact inv.size c hc

/-- The frontier of the invariant can be moved up. -/
theorem ColumnsInv.mono {C L L' : Nat} {s : VState} {cols : Nat → List Nat}
    (inv : ColumnsInv C L s cols) (h1 : L ≤ L') (h2 : L' ≤ s.vnodes.length) :
    ColumnsInv C L' s cols :=
  ⟨⟨le_trans inv.frontier.1 h1, h2⟩, inv.mapping, inv.ring,
    fun c hc x hx => ⟨(inv.bounds c hc x hx).1, lt_of_lt_of_le (inv.bounds c hc x hx).2 h1⟩,
    inv.colOf, inv.rowLe, inv.sorted, inv.size, fun c hc => le_trans (inv.short c hc) h1⟩

/-- Linking a fresh node `i` of row `rowNum` below the last node of its column
keeps the invariant, with `i` appended to the column. -/
theorem ColumnsInv.linkBelow {C L : Nat} {s : VState} {cols : Nat → List Nat}
    (inv : ColumnsInv C L s cols) (i c : Nat) (hLi : L ≤ i) (hi : i < s.vnodes.length)
    (hc : c < C) (hcol : s.colAt i = c) (hrow : s.rowAt i = s.rowNum)
    (hbelow : ∀ x ∈ cols c, s.rowAt x < s.rowNum) :
    ColumnsInv C (i + 1) (s.linkBelow i ((cols c).getLastD (c + 1)) (c + 1))
      (Function.update cols c (cols c ++ [i])) := by
  have hf := inv.frontier
  set last := (cols c).getLastD (c + 1) with hlast
  set s' := s.linkBelow i last (c + 1) with hs'
  have hring := (chain_concat_iff _ _ _ _).1 (inv.ring c hc)
  rw [← hlast] at hring
  have hlastlt : last < L := by
    rcases getLastD_eq_or_mem (cols c) (c + 1) with h | h
    · rw [← hlast] at h; omega
    · exact (inv.bounds c hc _ h).2
  have hlastcol : last = c + 1 ∨ (C < last ∧ s.colAt last = c) := by
    rcases getLastD_eq_or_mem (cols c) (c + 1) with h | h
    · exact Or.inl h
    · exact Or.inr ⟨(inv.bounds c hc _ h).1, inv.colOf c hc _ h⟩
  have hdown : ∀ j, j < s.vnodes.length → s'.downAt j =
      if last = j then some i else if i = j then some (c + 1) else s.downAt j :=
    fun j hj => linkBelow_downAt s i last (c + 1) j hj
  have hup : ∀ j, j < s.vnodes.length → s'.upAt j =
      if c + 1 = j then some i else if i = j then some last else s.upAt j :=
    fun j hj => linkBelow_upAt s i last (c + 1) j hj
  have hrowAt : ∀ j, s'.rowAt j = s.rowAt j := linkBelow_rowAt s i last (c + 1)
  have hcolAt : ∀ j, s'.colAt j = s.colAt j := linkBelow_colAt s i last (c + 1)
  have hrowfun : s'.rowAt = s.rowAt := funext hrowAt
  refine ⟨⟨by omega, by rw [linkBelow_length]; omega⟩, inv.mapping, ?_, ?_, ?_, ?_, ?_, ?_, ?_⟩
  · -- ring
    intro d hd
    by_cases hdc : d = c
    · subst hdc
      rw [Function.update_same, chain_concat_iff, chain_concat_iff]
      refine ⟨⟨?_, ?_⟩, ?_⟩
      · refine chain_imp_mem _ _ _ _ hring.1 ?_
        intro x y hx hy hR
        have hyb := inv.bounds d hc y hy
        have hxlt : x < L := by
          rcases List.mem_cons.1 hx with rfl | hx
          · omega
          · exact (inv.bounds d hc x hx).2
        have hxl : last ≠ x := by
          intro h
          have h1 := hR.1
          rw [← h, hring.2.1] at h1
          have := Option.some.inj h1
          omega
        refine ⟨?_, ?_⟩
        · rw [hdown x (by omega), if_neg hxl, if_neg (by omega)]
          exact hR.1
        · rw [hup y (by omega), if_neg (by omega), if_neg (by omega)]
          exact hR.2
      · refine ⟨?_, ?_⟩
        · rw [hdown last (by omega), if_pos rfl]
        · rw [hup i hi, if_neg (by omega), if_pos rfl]
      · rw [List.getLastD_concat]
        refine ⟨?_, ?_⟩
        · rw [hdown i hi, if_neg (by omega), if_pos rfl]
        · rw [hup (d + 1) (by omega), if_pos rfl]
    · rw [Function.update_noteq hdc]
      refine chain_imp_mem _ _ _ _ (inv.ring d hd) ?_
      intro x y hx hy hR
      have key : ∀ z, z ∈ (d + 1) :: (cols d ++ [d + 1]) →
          z < L ∧ z ≠ c + 1 ∧ z ≠ last := by
        intro z hz
        simp only [List.mem_cons, List.mem_append, List.mem_singleton, List.not_mem_nil,
          or_false] at hz
        have hz' : z = d + 1 ∨ z ∈ cols d := by tauto
        rcases hz' with rfl | hz
        · refine ⟨by omega, by omega, ?_⟩
          rcases hlastcol with h | h
          · omega
          · omega
        · have hb := inv.bounds d hd z hz
          refine ⟨hb.2, by omega, ?_⟩
          rcases hlastcol with h | h
          · omega
          · intro hzl
            have := inv.colOf d hd z hz
            rw [hzl, h.2] at this
            exact hdc this.symm
      have kx := key x hx
      have ky := key y (List.mem_cons_of_mem _ hy)
      refine ⟨?_, ?_⟩
      · rw [hdown x (by omega), if_neg (Ne.symm kx.2.2), if_neg (by omega)]
        exact hR.1
      · rw [hup y (by omega), if_neg (Ne.symm ky.2.1), if_neg (by omega)]
        exact hR.2
  · -- bounds
    intro d hd x hx
    by_cases hdc : d = c
    · subst hdc
      rw [Function.update_same, List.mem_append, List.mem_singleton] at hx
      rcases hx with hx | rfl
      · have := inv.bounds d hc x hx
        omega
      · omega
    · rw [Function.update_noteq hdc] at hx
      have := inv.bounds d hd x hx
      omega
  · -- colOf
    intro d hd x hx
    rw [hcolAt]
    by_cases hdc : d = c
    · subst hdc
      rw [Function.update_same, List.mem_append, List.mem_singleton] at hx
      rcases hx with hx | rfl
      · exact inv.colOf d hc x hx
      · exact hcol
    · rw [Function.update_noteq hdc] at hx
      exact inv.colOf d hd x hx
  · -- rowLe
    intro d hd x hx
    rw [hrowAt]
    show s.rowAt x ≤ s.rowNum
    by_cases hdc : d = c
    · subst hdc
      rw [Function.update_same, List.mem_append, List.mem_singleton] at hx
      rcases hx with hx | rfl
      · exact inv.rowLe d hc x hx
      · exact le_of_eq hrow
    · rw [Function.update_noteq hdc] at hx
      exact inv.rowLe d hd x hx
  · -- sorted
    intro d hd
    rw [hrowfun]
    by_cases hdc : d = c
    · subst hdc
      rw [Function.update_same, List.map_append, List.pairwise_append]
      refine ⟨inv.sorted d hc, by simp, ?_⟩
      intro a ha b hb
      simp only [List.map_cons, List.map_nil, List.mem_singleton] at hb
      obtain ⟨x, hx, rfl⟩ := List.mem_map.1 ha
      rw [hb, hrow]
      exact hbelow x hx
    · rw [Function.update_noteq hdc]
      exact inv.sorted d hd
  · -- size
    intro d hd
    rw [linkBelow_sizeAt s i last (c + 1) (d + 1) (by omega)]
    by_cases hdc : d = c
    · subst hdc
      rw [Function.update_same, if_pos rfl, inv.size d hc, List.length_append]
      rfl
    · rw [Function.update_noteq hdc, if_neg (by omega)]
      exact inv.size d hd
  · -- short
    intro d hd
    by_cases hdc : d = c
    · subst hdc
      rw [Function.update_same, List.length_append]
      have := inv.short d hc
      simp only [List.length_singleton]
      omega
    · rw [Function.update_noteq hdc]
      have := inv.short d hd
      omega

theorem alloc_vstate (m : DLXSolver) (n : DLXNode) (mA : DLXSolver) (pA : Ptr)
    (h : m.alloc n = (mA, pA)) :
    pA = some m.nodes.length ∧ mA.nodes.length = m.nodes.length + 1 ∧
    mA.matrixHead = m.matrixHead ∧
    mA.vstate = { m.vstate with vnodes := m.vstate.vnodes ++ [n.vert] } := by
  simp only [DLXSolver.alloc, Prod.mk.injEq] at h
  obtain ⟨rfl, rfl⟩ := h
  refine ⟨rfl, by simp, rfl, ?_⟩
  simp [DLXSolver.vstate]

theorem get?_append_left_lt {α : Type} (l₁ l₂ : List α) (j : Nat) (hj : j < l₁.length) :
    (l₁ ++ l₂).get? j = l₁.get? j := by
  rw [List.get?_eq_getElem?, List.get?_eq_getElem?, List.getElem?_append_left hj]

theorem get?_append_length {α : Type} (l : List α) (a : α) :
    (l ++ [a]).get? l.length = some a := by
  rw [List.get?_eq_getElem?]
  simp

/-- The walk of `addNodeToColumn` down a column whose rows are all below the
target row ends at the header. -/
theorem addNodeToColumnWalk_reaches_header (m : DLXSolver) (h r : Nat) (ns : List Nat) :
    ∀ (fuel a : Nat), ns.length + 1 ≤ fuel →
      (∀ x ∈ ns, x ≠ h ∧ x < m.nodes.length ∧ m.vstate.rowAt x < r) →
      List.Chain (fun a b => m.vstate.downAt a = some b) a (ns ++ [h]) →
      addNodeToColumnWalk fuel m (some h) r (m.vstate.downAt a) = .ok (some h) := by
  induction ns with
  | nil =>
    intro fuel a hfuel _ hchain
    obtain ⟨fuel, rfl⟩ : ∃ k, fuel = k + 1 := ⟨fuel - 1, by simp at hfuel; omega⟩
    simp only [List.nil_append, List.chain_cons] at hchain
    rw [hchain.1]
    simp [addNodeToColumnWalk, pure, Except.pure]
  | cons x t ih =>
    intro fuel a hfuel hns hchain
    obtain ⟨fuel, rfl⟩ : ∃ k, fuel = k + 1 := ⟨fuel - 1, by simp at hfuel; omega⟩
    simp only [List.cons_append, List.chain_cons] at hchain
    have hx := hns x (by simp)
    rw [hchain.1]
    unfold addNodeToColumnWalk
    rw [if_neg (by simp [hx.1]), rowIndex_ok m x hx.2.1, down_ok m x hx.2.1]
    simp only [bind, Except.bind, if_pos hx.2.2]
    exact ih fuel x (by simp at hfuel; omega) (fun y hy => hns y (List.mem_cons_of_mem _ hy))
      hchain.2

/-- On a solver whose columns satisfy the invariant, `addNodeToColumn` links a
fresh bottom-row node below the last node of its column. -/
theorem addNodeToColumn_ok (m : DLXSolver) (C L : Nat) (cols : Nat → List Nat)
    (inv : ColumnsInv C L m.vstate cols) (i c : Nat) (hLi : L ≤ i) (hi : i < m.nodes.length)
    (hc : c < C) (hcol : m.vstate.colAt i = c) (hrow : m.vstate.rowAt i = m.vstate.rowNum)
    (hbelow : ∀ x ∈ cols c, m.vstate.rowAt x < m.vstate.rowNum) :
    ∃ m', addNodeToColumn m (some i) = .ok m' ∧ m'.nodes.length = m.nodes.length ∧
      m'.matrixHead = m.matrixHead ∧
      m'.vstate = m.vstate.linkBelow i ((cols c).getLastD (c + 1)) (c + 1) := by
  have hf := inv.frontier
  rw [vstate_length] at hf
  have hring := (chain_concat_iff _ _ _ _).1 (inv.ring c hc)
  have hlastlt : (cols c).getLastD (c + 1) < L := by
    rcases getLastD_eq_or_mem (cols c) (c + 1) with h | h
    · rw [h]; omega
    · exact (inv.bounds c hc _ h).2
  obtain ⟨m1, e1, l1, _, v1⟩ := setHead_ok m i hi (some (c + 1))
  have hwalk : addNodeToColumnWalk (m1.nodes.length + 1) m1 (some (c + 1)) m.vstate.rowNum
      (m1.vstate.downAt (c + 1)) = .ok (some (c + 1)) := by
    refine addNodeToColumnWalk_reaches_header m1 (c + 1) _ (cols c) _ _ ?_ ?_ ?_
    · have := inv.short c hc
      omega
    · intro x hx
      have hb := inv.bounds c hc x hx
      rw [v1]
      exact ⟨by omega, by omega, hbelow x hx⟩
    · rw [v1]
      exact chain_imp_mem _ _ _ _ (inv.ring c hc) (fun _ _ _ _ hR => hR.1)
  obtain ⟨m2, e2, l2, h2, v2⟩ := setUp_ok m1 i (by omega) (some ((cols c).getLastD (c + 1)))
  obtain ⟨m3, e3, l3, h3, v3⟩ := setDown_ok m2 i (by omega) (some (c + 1))
  obtain ⟨m4, e4, l4, h4, v4⟩ := setDown_ok m3 ((cols c).getLastD (c + 1)) (by omega) (some i)
  obtain ⟨m5, e5, l5, h5, v5⟩ := setUp_ok m4 (c + 1) (by omega) (some i)
  obtain ⟨m6, e6, l6, h6, v6⟩ := incNumOfElements_ok m5 (c + 1) (by omega)
  refine ⟨m6, ?_, by omega, by simp_all, ?_⟩
  · unfold addNodeToColumn
    rw [colIndex_ok m i hi, hcol]
    have hmap : m.colHeadersMapping.lookup c = some (some (c + 1)) := by
      have := inv.mapping c
      rw [if_pos hc] at this
      exact this
    simp only [bind, Except.bind, hmap, pure, Except.pure, e1]
    rw [rowIndex_ok m1 i (by omega), down_ok m1 (c + 1) (by omega)]
    simp only [v1, hrow]
    rw [v1] at hwalk
    simp only [hwalk, up_ok m1 (c + 1) (by omega), v1, hring.2.2, e2, e3, e4, e5, e6]
  · rw [v6, v5, v4, v3, v2, v1]
    rfl

theorem ColumnsInv.empty_of_headers (C L : Nat) (s : VState)
    (hf : C + 1 ≤ L ∧ L ≤ s.vnodes.length)
    (hmap : ∀ c, s.mapping.lookup c = if c < C then some (some (c + 1)) else none)
    (hnodes : ∀ c, c < C → ∃ v, s.vnodes.get? (c + 1) = some v ∧ v.up = some (c + 1) ∧
      v.down = some (c + 1) ∧ v.numOfElements = 0) :
    ColumnsInv C L s (fun _ => []) := by
  refine ⟨hf, hmap, ?_, by simp, by simp, by simp, by simp, ?_, ?_⟩
  · intro c hc
    obtain ⟨v, hv, hu, hd, _⟩ := hnodes c hc
    simp only [List.nil_append, List.chain_cons, List.Chain.nil, and_true]
    exact ⟨by unfold VState.downAt; rw [hv]; exact hd, by unfold VState.upAt; rw [hv]; exact hu⟩
  · intro c hc
    obtain ⟨v, hv, _, _, hn⟩ := hnodes c hc
    unfold VState.sizeAt
    rw [hv]
    exact hn
  · intro c hc
    simp only [List.length_nil]
    omega

theorem ColumnsInv.headers {C L : Nat} {s : VState} (inv : ColumnsInv C L s (fun _ => [])) :
    ∀ c, c < C → ∃ v, s.vnodes.get? (c + 1) = some v ∧ v.up = some (c + 1) ∧
      v.down = some (c + 1) ∧ v.numOfElements = 0 := by
  intro c hc
  have hf := inv.frontier
  obtain ⟨v, hv⟩ := get?_some_of_lt s.vnodes (c + 1) (by omega)
  have hr := inv.ring c hc
  have hs := inv.size c hc
  simp only [List.nil_append, List.chain_cons, List.Chain.nil, and_true] at hr
  unfold VState.Linked VState.downAt VState.upAt at hr
  unfold VState.sizeAt at hs
  rw [hv] at hr hs
  exact ⟨v, hv, hr.2, hr.1, hs⟩

/-- The loop of `createColumnHeaders` makes one header per column, each alone in
its vertical ring. -/
theorem createColumnHeadersLoop_ok :
    ∀ (n k : Nat) (m : DLXSolver) (j : Nat), m.nodes.length = k + 1 → j < k + 1 →
      ColumnsInv k (k + 1) m.vstate (fun _ => []) →
      ∃ m' p, createColumnHeadersLoop n k m (some j) = .ok (m', some p) ∧
        p < m'.nodes.length ∧ m'.nodes.length = k + n + 1 ∧
        m'.matrixHead = m.matrixHead ∧ m'.vstate.rowNum = m.vstate.rowNum ∧
        ColumnsInv (k + n) (k + n + 1) m'.vstate (fun _ => []) := by
  intro n
  induction n with
  | zero =>
    intro k m j hlen hj inv
    exact ⟨m, j, rfl, by omega, by omega, rfl, rfl, inv⟩
  | succ n ih =>
    intro k m j hlen hj inv
    rcases hA : m.alloc { colIndex := k } with ⟨mA, pA⟩
    obtain ⟨a1, a2, a3, a4⟩ := alloc_vstate m { colIndex := k } mA pA hA
    rw [hlen] at a1
    subst a1
    obtain ⟨m1, e1, l1, h1, v1⟩ := setRight_ok mA j (by omega) (some (k + 1))
    obtain ⟨m2, e2, l2, h2, v2⟩ := setLeft_ok m1 (k + 1) (by omega) (some j)
    obtain ⟨m3, e3, l3, h3, v3⟩ := setUp_ok m2 (k + 1) (by omega) (some (k + 1))
    obtain ⟨m4, e4, l4, h4, v4⟩ := setDown_ok m3 (k + 1) (by omega) (some (k + 1))
    have hv : m4.vstate.vnodes = ((m.vstate.vnodes ++ [DLXNode.vert { colIndex := k }]).modify
        (fun v => { v with up := some (k + 1) }) (k + 1)).modify
        (fun v => { v with down := some (k + 1) }) (k + 1) := by
      rw [v4, v3, v2, v1, a4]
    have hvl : m.vstate.vnodes.length = k + 1 := by rw [vstate_length, hlen]
    have inv' : ColumnsInv (k + 1) (k + 1 + 1)
        { m4 with colHeadersMapping := m4.colHeadersMapping ++ [(k, some (k + 1))] }.vstate
        (fun _ => []) := by
      have hm4 : m4.colHeadersMapping = m.vstate.mapping := by
        have : m4.vstate.mapping = m.vstate.mapping := by rw [v4, v3, v2, v1, a4]
        exact this
      apply ColumnsInv.empty_of_headers
      · show k + 1 + 1 ≤ k + 1 + 1 ∧ k + 1 + 1 ≤ m4.vstate.vnodes.length
        rw [vstate_length]
        omega
      · intro c
        show (m4.colHeadersMapping ++ [(k, some (k + 1))]).lookup c = _
        rw [List.lookup_append, hm4, inv.mapping c]
        by_cases hck : c < k
        · rw [if_pos hck, if_pos (by omega)]
          rfl
        · rw [if_neg hck]
          by_cases hck' : c = k
          · subst hck'
            simp
          · have : (c == k) = false := by simpa using hck'
            rw [if_neg (by omega)]
            simp [List.lookup, this]
      · intro c hc
        show ∃ v, m4.vstate.vnodes.get? (c + 1) = some v ∧ _
        rw [hv, get?_modify, get?_modify]
        by_cases hck : c < k
        · obtain ⟨v, hv1, hv2⟩ := inv.headers c hck
          rw [get?_append_left_lt _ _ _ (by omega), hv1]
          refine ⟨v, ?_, hv2⟩
          simp only [Option.map_some', if_neg (show ¬ k + 1 = c + 1 by omega)]
        · have hck' : c = k := by omega
          subst hck'
          rw [← hvl, get?_append_length]
          simp only [Option.map_some', if_true]
          exact ⟨_, rfl, rfl, rfl, rfl⟩
    obtain ⟨m', p, e, hp, hl, hh, hr, hinv⟩ := ih (k + 1)
      { m4 with colHeadersMapping := m4.colHeadersMapping ++ [(k, some (k + 1))] } (k + 1)
      (by show m4.nodes.length = _; omega) (by omega) inv'
    refine ⟨m', p, ?_, hp, by omega, ?_, ?_, ?_⟩
    · unfold createColumnHeadersLoop
      rw [hA]
      simp only [bind, Except.bind, e1, e2, e3, e4]
      exact e
    · rw [hh]
      show m4.matrixHead = _
      rw [h4, h3, h2, h1, a3]
    · rw [hr]
      show m4.vstate.rowNum = _
      rw [v4, v3, v2, v1, a4]
    · have : k + (n + 1) = k + 1 + n := by omega
      rw [this]
      exact hinv

/-- The constructor returns a solver whose columns are all empty rings. -/
theorem create_ok (o mand : Nat) :
    ∃ m, DLXSolver.create o mand = .ok m ∧ m.nodes.length = o + mand + 1 ∧
      m.vstate.rowNum = 0 ∧
      ColumnsInv (o + mand) (o + mand + 1) m.vstate (fun _ => []) := by
  let m0 : DLXSolver :=
    { nodes := [createSentinelHeader]
      matrixHead := some 0
      colHeadersMapping := []
      mandatoryColsNum := mand
      optionalColsNum := o
      rowNum := 0 }
  have inv0 : ColumnsInv 0 (0 + 1) m0.vstate (fun _ => []) := by
    apply ColumnsInv.empty_of_headers
    · exact ⟨le_refl _, le_refl _⟩
    · intro c
      rfl
    · intro c hc
      omega
  obtain ⟨m1, p, e, hp, hl, hh, hr, hinv⟩ :=
    createColumnHeadersLoop_ok (o + mand) 0 m0 0 rfl (by omega) inv0
  obtain ⟨m2, e2, l2, h2, v2⟩ := setRight_ok m1 p hp m1.matrixHead
  have hh2 : m2.matrixHead = some 0 := by rw [h2, hh]
  obtain ⟨m3, e3, l3, h3, v3⟩ := setLeft_ok m2 0 (by omega) (some p)
  refine ⟨m3, ?_, by omega, by rw [v3, v2, hr]; rfl, ?_⟩
  · unfold DLXSolver.create createColumnHeaders
    show (do
      let (m, currNode) ← createColumnHeadersLoop (o + mand) 0 m0 (some 0)
      let m ← m.setRight currNode m.matrixHead
      m.setLeft m.matrixHead currNode) = _
    rw [e]
    simp only [bind, Except.bind, e2, hh2, e3]
  · rw [v3, v2]
    have : o + mand = 0 + (o + mand) := by omega
    rw [this]
    exact hinv

/-- The loop of `addRow` keeps the invariant: every value of the row gets one
fresh node at the bottom of its column. -/
theorem addRowLoop_ok (C : Nat) :
    ∀ (rest : List Nat) (m : DLXSolver) (j : Nat) (cols : Nat → List Nat),
      j < m.nodes.length → ColumnsInv C m.nodes.length m.vstate cols → rest.Nodup →
      (∀ v ∈ rest, v < C) →
      (∀ v ∈ rest, ∀ x ∈ cols v, m.vstate.rowAt x < m.vstate.rowNum) →
      ∃ m' p cols', addRowLoop m rest (some j) = .ok (m', some p) ∧ p < m'.nodes.length ∧
        m.nodes.length ≤ m'.nodes.length ∧ m'.vstate.rowNum = m.vstate.rowNum ∧
        ColumnsInv C m'.nodes.length m'.vstate cols' := by
  intro rest
  induction rest with
  | nil =>
    intro m j cols hj inv _ _ _
    exact ⟨m, j, cols, rfl, hj, le_refl _, rfl, inv⟩
  | cons v rest ih =>
    intro m j cols hj inv hnd hlt hbelow
    rcases hA : m.alloc { rowIndex := m.rowNum, colIndex := v } with ⟨mA, pA⟩
    obtain ⟨a1, a2, a3, a4⟩ := alloc_vstate m _ mA pA hA
    subst a1
    obtain ⟨m1, e1, l1, h1, v1⟩ := setRight_ok mA j (by omega) (some m.nodes.length)
    obtain ⟨m2, e2, l2, h2, v2⟩ := setLeft_ok m1 m.nodes.length (by omega) (some j)
    have hv2 : m2.vstate = { m.vstate with vnodes := m.vstate.vnodes ++
        [DLXNode.vert { rowIndex := m.rowNum, colIndex := v }] } := by rw [v2, v1, a4]
    have hvl : m.vstate.vnodes.length = m.nodes.length := vstate_length m
    have hnew : m2.vstate.vnodes.get? m.nodes.length =
        some (DLXNode.vert { rowIndex := m.rowNum, colIndex := v }) := by
      rw [hv2, ← hvl]
      exact get?_append_length _ _
    have hold : ∀ x, x < m.nodes.length → m2.vstate.vnodes.get? x = m.vstate.vnodes.get? x := by
      intro x hx
      rw [hv2]
      exact get?_append_left_lt _ _ _ (by omega)
    have hrowold : ∀ x, x < m.nodes.length → m2.vstate.rowAt x = m.vstate.rowAt x := by
      intro x hx
      unfold VState.rowAt
      rw [hold x hx]
    have hrn : m2.vstate.rowNum = m.vstate.rowNum := by rw [hv2]
    have inv2 : ColumnsInv C m.nodes.length m2.vstate cols := by
      refine inv.frame ?_ hold (by rw [hv2]) (by rw [hv2])
      rw [vstate_length]
      omega
    have hvC : v < C := hlt v (by simp)
    obtain ⟨m3, e3, l3, h3, v3⟩ := addNodeToColumn_ok m2 C m.nodes.length cols inv2
      m.nodes.length v (le_refl _) (by omega) hvC
      (by unfold VState.colAt; rw [hnew]; rfl)
      (by unfold VState.rowAt; rw [hnew, hrn]; rfl)
      (by
        intro x hx
        rw [hrowold x (inv.bounds v hvC x hx).2, hrn]
        exact hbelow v (by simp) x hx)
    have inv3 := inv2.linkBelow m.nodes.length v (le_refl _)
      (by rw [vstate_length]; omega) hvC
      (by unfold VState.colAt; rw [hnew]; rfl)
      (by unfold VState.rowAt; rw [hnew, hrn]; rfl)
      (by
        intro x hx
        rw [hrowold x (inv.bounds v hvC x hx).2, hrn]
        exact hbelow v (by simp) x hx)
    rw [← v3] at inv3
    have hl3 : m3.nodes.length = m.nodes.length + 1 := by omega
    rw [← hl3] at inv3
    have hrn3 : m3.vstate.rowNum = m.vstate.rowNum := by
      rw [v3, ← hrn]
      rfl
    obtain ⟨m', p, cols', e, hp, hl, hr, hinv⟩ := ih m3 m.nodes.length _ (by omega) inv3
      (List.nodup_cons.1 hnd).2 (fun w hw => hlt w (List.mem_cons_of_mem _ hw))
      (by
        intro w hw x hx
        have hwv : w ≠ v := by
          intro h
          rw [h] at hw
          exact (List.nodup_cons.1 hnd).1 hw
        rw [Function.update_noteq hwv] at hx
        have hxb := inv.bounds w (hlt w (List.mem_cons_of_mem _ hw)) x hx
        rw [hrn3, v3, linkBelow_rowAt, hrowold x hxb.2]
        exact hbelow w (List.mem_cons_of_mem _ hw) x hx)
    refine ⟨m', p, cols', ?_, hp, by omega, by rw [hr, hrn3], hinv⟩
    unfold addRowLoop
    rw [hA]
    simp only [bind, Except.bind, e1, e2, e3]
    exact e

theorem addRow_ok (C : Nat) (m : DLXSolver) (cols : Nat → List Nat)
    (h : RowsAdded C m cols) (row : DLX_VALUES_SET) (hnd : row.Nodup)
    (hlt : ∀ v ∈ row, v < C) :
    ∃ m' cols', addRow m row = .ok m' ∧ RowsAdded C m' cols' := by
  obtain ⟨inv, hbelow⟩ := h
  cases row with
  | nil => exact ⟨m, cols, rfl, inv, hbelow⟩
  | cons first rest =>
    rcases hA : m.alloc { rowIndex := m.rowNum, colIndex := first } with ⟨mA, pA⟩
    obtain ⟨a1, a2, a3, a4⟩ := alloc_vstate m _ mA pA hA
    subst a1
    have hold : ∀ x, x < m.nodes.length → mA.vstate.vnodes.get? x = m.vstate.vnodes.get? x := by
      intro x hx
      rw [a4]
      exact get?_append_left_lt _ _ _ (by rw [vstate_length]; omega)
    have hrowold : ∀ x, x < m.nodes.length → mA.vstate.rowAt x = m.vstate.rowAt x := by
      intro x hx
      unfold VState.rowAt
      rw [hold x hx]
    have hrn : mA.vstate.rowNum = m.vstate.rowNum := by rw [a4]
    have invA : ColumnsInv C mA.nodes.length mA.vstate cols := by
      have : ColumnsInv C m.nodes.length mA.vstate cols := by
        refine inv.frame ?_ hold (by rw [a4]) (by rw [a4])
        rw [vstate_length]
        omega
      exact this.mono (by omega) (by rw [vstate_length])
    obtain ⟨m1, p, cols', e, hp, hl, hr, hinv⟩ := addRowLoop_ok C rest mA m.nodes.length cols
      (by omega) invA (List.nodup_cons.1 hnd).2
      (fun w hw => hlt w (List.mem_cons_of_mem _ hw))
      (by
        intro w hw x hx
        have hwC := hlt w (List.mem_cons_of_mem _ hw)
        rw [hrowold x (inv.bounds w hwC x hx).2, hrn]
        exact hbelow w hwC x hx)
    obtain ⟨m2, e2, l2, h2, v2⟩ := setRight_ok m1 p hp (some m.nodes.length)
    obtain ⟨m3, e3, l3, h3, v3⟩ := setLeft_ok m2 m.nodes.length (by omega) (some p)
    have hv3 : m3.vstate = m1.vstate := by rw [v3, v2]
    have hl3 : m3.nodes.length = m1.nodes.length := by omega
    refine ⟨{ m3 with rowNum := m3.rowNum + 1 }, cols', ?_, ?_, ?_⟩
    · unfold addRow
      simp only []
      rw [hA]
      simp only [bind, Except.bind, e, e2, e3, pure, Except.pure]
    · have : ColumnsInv C m1.nodes.length
          { m3 with rowNum := m3.rowNum + 1 }.vstate cols' := by
        refine hinv.frame ?_ ?_ ?_ ?_
        · show m1.nodes.length ≤ m3.vstate.vnodes.length
          rw [vstate_length]
          omega
        · intro x _
          show m3.vstate.vnodes.get? x = _
          rw [hv3]
        · show m3.vstate.mapping = _
          rw [hv3]
        · show m1.vstate.rowNum ≤ m3.vstate.rowNum + 1
          rw [hv3]
          omega
      rw [← hl3] at this
      exact this
    · intro c hc x hx
      show m3.vstate.rowAt x < m3.vstate.rowNum + 1
      rw [hv3]
      exact Nat.lt_succ_of_le (hinv.rowLe c hc x hx)

theorem addRows_ok (C : Nat) :
    ∀ (rows : List DLX_VALUES_SET) (m : DLXSolver) (cols : Nat → List Nat),
      RowsAdded C m cols → ValidRows C rows →
      ∃ m' cols', addRows m rows = .ok m' ∧ RowsAdded C m' cols' := by
  intro rows
  induction rows with
  | nil =>
    intro m cols h _
    exact ⟨m, cols, rfl, h⟩
  | cons row rows ih =>
    intro m cols h hv
    obtain ⟨m1, cols1, e1, h1⟩ := addRow_ok C m cols h row (hv row (by simp)).1
      (hv row (by simp)).2
    obtain ⟨m2, cols2, e2, h2⟩ := ih m1 cols1 h1
      (fun r hr => hv r (List.mem_cons_of_mem _ hr))
    refine ⟨m2, cols2, ?_, h2⟩
    unfold addRows
    simp only [bind, Except.bind, e1]
    exact e2

theorem build_ok (o mand : Nat) (rows : List DLX_VALUES_SET)
    (hv : ValidRows (o + mand) rows) :
    ∃ m cols, DLXSolver.build o mand rows = .ok m ∧ RowsAdded (o + mand) m cols := by
  obtain ⟨m0, e0, l0, r0, inv0⟩ := create_ok o mand
  rw [← l0] at inv0
  obtain ⟨m, cols, e, h⟩ := addRows_ok (o + mand) rows m0 (fun _ => []) ⟨inv0, by simp⟩ hv
  refine ⟨m, cols, ?_, h⟩
  unfold DLXSolver.build
  simp only [bind, Except.bind, e0]
  exact e

/-- The walk behind `columnNodes` lists the nodes of a ring. -/
theorem columnNodesFrom_ring (m : DLXSolver) (h : Nat) (ns : List Nat) :
    ∀ (fuel a : Nat), ns.length + 1 ≤ fuel →
      (∀ x ∈ ns, x ≠ h ∧ x < m.nodes.length) →
      List.Chain (fun a b => m.vstate.downAt a = some b) a (ns ++ [h]) →
      columnNodesFrom fuel m (some h) (m.vstate.downAt a) = ns := by
  induction ns with
  | nil =>
    intro fuel a hfuel _ hchain
    obtain ⟨fuel, rfl⟩ : ∃ k, fuel = k + 1 := ⟨fuel - 1, by simp at hfuel; omega⟩
    simp only [List.nil_append, List.chain_cons] at hchain
    rw [hchain.1]
    simp [columnNodesFrom]
  | cons x t ih =>
    intro fuel a hfuel hns hchain
    obtain ⟨fuel, rfl⟩ : ∃ k, fuel = k + 1 := ⟨fuel - 1, by simp at hfuel; omega⟩
    simp only [List.cons_append, List.chain_cons] at hchain
    have hx := hns x (by simp)
    rw [hchain.1]
    unfold columnNodesFrom
    rw [if_neg (by simp [hx.1]), down_ok m x hx.2]
    simp only []
    rw [ih fuel x (by simp at hfuel; omega) (fun y hy => hns y (List.mem_cons_of_mem _ hy))
      hchain.2]

/-- The invariant gives the sorted ring of every column. -/
theorem ColumnsInv.isSortedColumn (m : DLXSolver) (C : Nat) (cols : Nat → List Nat)
    (inv : ColumnsInv C m.nodes.length m.vstate cols) (c : Nat) (hc : c < C) :
    m.IsSortedColumn c (cols c) ∧ m.columnSize c = some (cols c).length := by
  have hf := inv.frontier
  have hmap : m.colHeadersMapping.lookup c = some (some (c + 1)) := by
    have := inv.mapping c
    rw [if_pos hc] at this
    exact this
  have hh : m.colHeader c = some (c + 1) := by
    unfold DLXSolver.colHeader
    rw [hmap]
    rfl
  have hmem : ∀ x, x ∈ (c + 1) :: (cols c ++ [c + 1]) → x < m.nodes.length := by
    intro x hx
    simp only [List.mem_cons, List.mem_append, List.mem_singleton, List.not_mem_nil,
      or_false] at hx
    rcases hx with rfl | hx | rfl
    · omega
    · exact (inv.bounds c hc x hx).2
    · omega
  refine ⟨⟨c + 1, (cols c).map m.vstate.rowAt, hh, ?_, ?_, ?_, ?_, ?_, inv.sorted c hc⟩, ?_⟩
  · intro x hx
    have := inv.bounds c hc x hx
    omega
  · unfold DLXSolver.columnNodes
    rw [hh, down_ok m (c + 1) (by omega)]
    simp only []
    refine columnNodesFrom_ring m (c + 1) (cols c) _ _ ?_ ?_ ?_
    · have := inv.short c hc
      omega
    · intro x hx
      have := inv.bounds c hc x hx
      exact ⟨by omega, this.2⟩
    · exact chain_imp_mem _ _ _ _ (inv.ring c hc) (fun _ _ _ _ hR => hR.1)
  · refine chain_imp_mem _ _ _ _ (inv.ring c hc) ?_
    intro x y hx hy hR
    rw [down_ok m x (hmem x hx), up_ok m y (hmem y (List.mem_cons_of_mem _ hy)), hR.1, hR.2]
    exact ⟨rfl, rfl⟩
  · rw [List.map_map]
    apply List.map_congr_left
    intro x hx
    exact rowIndex_ok m x (inv.bounds c hc x hx).2
  · apply List.map_congr_left
    intro x hx
    rw [colIndex_ok m x (inv.bounds c hc x hx).2, inv.colOf c hc x hx]
  · unfold DLXSolver.columnSize
    rw [hh, numOfElements_ok m (c + 1) (by omega), inv.size c hc]

/-- C22: after the constructor and any sequence of `addRow` calls whose value
sets hold column indices of the solver, the build returns a solver in which every
column is a cyclic vertical list sorted by row index: the walk down from the
header visits data nodes with strictly increasing row indices and returns to the
header, and every `up` link is the inverse of the `down` link before it. -/
theorem columns_are_sorted_rings (o mand : Nat) (rows : List DLX_VALUES_SET)
    (hv : ValidRows (o + mand) rows) :
    ∃ m, DLXSolver.build o mand rows = .ok m ∧
      ∀ c, c < o + mand → ∃ ns, m.IsSortedColumn c ns := by
  obtain ⟨m, cols, e, h⟩ := build_ok o mand rows hv
  exact ⟨m, e, fun c hc => ⟨cols c, (h.1.isSortedColumn m (o + mand) cols c hc).1⟩⟩

/-- The witness of `columns_are_sorted_rings`: four rows over three columns. -/
theorem columns_are_sorted_rings_witness :
    ValidRows (0 + 3) [[0, 1], [1, 2], [0, 2], [0, 1, 2]] ∧
    ∃ m, DLXSolver.build 0 3 [[0, 1], [1, 2], [0, 2], [0, 1, 2]] = .ok m ∧
      ∀ c, c < 0 + 3 → ∃ ns, m.IsSortedColumn c ns :=
  ⟨by unfold ValidRows; decide,
    columns_are_sorted_rings 0 3 [[0, 1], [1, 2], [0, 2], [0, 1, 2]]
      (by unfold ValidRows; decide)⟩

/-! ## The size counter and `cover` -/

/-- An update that does not write the size counter leaves every size as it was. -/
theorem update_keeps_numOfElements (m : DLXSolver) (p : Ptr) (f : DLXNode → DLXNode)
    (hf : ∀ n, (f n).numOfElements = n.numOfElements) (m' : DLXSolver)
    (h : m.update p f = .ok m') (q : Ptr) : m'.numOfElements q = m.numOfElements q := by
  cases p with
  | none => exact absurd h (by simp [DLXSolver.update])
  | some i =>
    unfold DLXSolver.update at h
    simp only [] at h
    cases hn : m.nodes.get? i with
    | none => rw [hn] at h; exact absurd h (by simp)
    | some n =>
      rw [hn] at h
      simp only [Except.ok.injEq] at h
      subst h
      cases q with
      | none => rfl
      | some j =>
        unfold DLXSolver.numOfElements DLXSolver.deref
        simp only []
        by_cases hij : i = j
        · subst hij
          have hi : i < m.nodes.length := by
            rw [List.get?_eq_getElem?] at hn
            exact (List.getElem?_eq_some_iff.1 hn).1
          have : (m.nodes.set i (f n)).get? i = some (f n) := by
            rw [List.get?_eq_getElem?, List.getElem?_set_self hi]
          rw [this, hn]
          simp only [bind, Except.bind, pure, Except.pure, hf]
        · have : (m.nodes.set i (f n)).get? j = m.nodes.get? j := by
            rw [List.get?_eq_getElem?, List.get?_eq_getElem?, List.getElem?_set_ne hij]
          rw [this]

/-- Leaves every size counter as it was: `detachNodeFromCol` writes two links. -/
theorem detachNodeFromCol_keeps_numOfElements (m : DLXSolver) (node : Ptr) (m' : DLXSolver)
    (h : detachNodeFromCol m node = .ok m') (q : Ptr) :
    m'.numOfElements q = m.numOfElements q := by
  unfold detachNodeFromCol at h
  cases hu : m.up node with
  | error e => rw [hu] at h; exact absurd h (by simp [bind, Except.bind])
  | ok u =>
    cases hd : m.down node with
    | error e => rw [hu, hd] at h; exact absurd h (by simp [bind, Except.bind])
    | ok d =>
      cases h1 : m.setDown u d with
      | error e => rw [hu, hd] at h; simp only [bind, Except.bind, h1] at h; exact absurd h (by simp)
      | ok m1 =>
        rw [hu, hd] at h
        simp only [bind, Except.bind, h1] at h
        cases hd1 : m1.down node with
        | error e => rw [hd1] at h; exact absurd h (by simp)
        | ok d1 =>
          cases hu1 : m1.up node with
          | error e => rw [hd1, hu1] at h; exact absurd h (by simp)
          | ok u1 =>
            rw [hd1, hu1] at h
            simp only [] at h
            unfold DLXSolver.setUp at h
            unfold DLXSolver.setDown at h1
            rw [update_keeps_numOfElements m1 d1 _ (by intro n; rfl) m' h q,
              update_keeps_numOfElements m u _ (by intro n; rfl) m1 h1 q]

/-- Leaves every size counter as it was: `reattachNodeToCol` writes two links. -/
theorem reattachNodeToCol_keeps_numOfElements (m : DLXSolver) (node : Ptr) (m' : DLXSolver)
    (h : reattachNodeToCol m node = .ok m') (q : Ptr) :
    m'.numOfElements q = m.numOfElements q := by
  unfold reattachNodeToCol at h
  cases hu : m.up node with
  | error e => rw [hu] at h; exact absurd h (by simp [bind, Except.bind])
  | ok u =>
    cases h1 : m.setDown u node with
    | error e => rw [hu] at h; simp only [bind, Except.bind, h1] at h; exact absurd h (by simp)
    | ok m1 =>
      rw [hu] at h
      simp only [bind, Except.bind, h1] at h
      cases hd1 : m1.down node with
      | error e => rw [hd1] at h; exact absurd h (by simp)
      | ok d1 =>
        rw [hd1] at h
        simp only [] at h
        unfold DLXSolver.setUp at h
        unfold DLXSolver.setDown at h1
        rw [update_keeps_numOfElements m1 d1 _ (by intro n; rfl) m' h q,
          update_keeps_numOfElements m u _ (by intro n; rfl) m1 h1 q]

/-- C23: the size kept in a column header is not the number of linked data nodes
once `cover` has run. On three mandatory columns and the row `{0, 1, 2}`, column
2 holds one node and has size 1; `cover` of column 1 unlinks that node from
column 2, after which the walk down column 2 meets no node and the size is still
1, and `cover` does not return. Neither `detachNodeFromCol` nor
`reattachNodeToCol` changes the size of any column, whatever the matrix. -/
theorem cover_keeps_the_size_of_unlinked_columns :
    DLXSolver.build 0 3 [[0, 1, 2]] = .ok threeColsOneRow ∧
    threeColsOneRow.columnNodes 2 = [6] ∧ threeColsOneRow.columnSize 2 = some 1 ∧
    threeColsOneRow.colHeader 1 = some 2 ∧
    detachNodeFromRow threeColsOneRow (some 2) = .ok threeColsOneRowUnlinked ∧
    threeColsOneRowUnlinked.down (some 2) = .ok (some 5) ∧
    threeColsOneRowUnlinked.right (some 5) = .ok (some 6) ∧
    detachNodeFromCol threeColsOneRowUnlinked (some 6) = .ok threeColsOneRowStuck ∧
    threeColsOneRowStuck.columnNodes 2 = [] ∧ threeColsOneRowStuck.columnSize 2 = some 1 ∧
    (∀ fuel, coverRow fuel threeColsOneRowStuck (some 5) (some 6) = .error .outOfFuel) ∧
    (∀ (m : DLXSolver) (node q : Ptr),
      (detachNodeFromCol m node).bind (fun m' => m'.numOfElements q) =
        (detachNodeFromCol m node).bind (fun _ => m.numOfElements q)) ∧
    (∀ (m : DLXSolver) (node q : Ptr),
      (reattachNodeToCol m node).bind (fun m' => m'.numOfElements q) =
        (reattachNodeToCol m node).bind (fun _ => m.numOfElements q)) := by
  refine ⟨by decide, by decide, by decide, by decide, by decide, by decide, by decide,
    by decide, by decide, by decide, ?_, ?_, ?_⟩
  · exact coverRow_stuck threeColsOneRowStuck (some 5) (some 6) (by decide) (by decide)
      ⟨some 4, by decide⟩
  · intro m node q
    cases h : detachNodeFromCol m node with
    | error e => rfl
    | ok m' => exact detachNodeFromCol_keeps_numOfElements m node m' h q
  · intro m node q
    cases h : reattachNodeToCol m node with
    | error e => rfl
    | ok m' => exact reattachNodeToCol_keeps_numOfElements m node m' h q

end DecomposeForPacking
